import Mathlib

/-!
# Verification of the mutable Merkle-Patricia trie (`trie-db/src/triedbmut.rs`)

A shallow embedding of the in-memory mutable trie of this repository and
proofs about its operations.

Conventions of the embedding:

* Machine bytes (`u8`) are `Nat` with hypotheses `< 256` where relevant;
  byte strings are `List Nat`.
* A nibble is a `Nat < 16`; a byte `b` yields the nibbles `b / 16` and
  `b % 16` (high first), matching the radix-16 `NibbleHalf` packing.
* The node arena (`NodeStorage`) holds each node under a single,
  non-copyable owner (`StorageHandle` is deliberately non-copyable and
  `destroy` consumes it).  The embedding therefore replaces arena indices
  by direct ownership: an in-memory handle carries its `Stored` node
  inline.  Allocation (`alloc`) and `destroy` become the identity on the
  carried node.
* The nibble module (`NibbleSlice`, `NibbleVec`, `NibbleOps`), the node
  codec, the hasher and the `memory-db` backing store are code of this
  repository that is not under `src/`; they are modelled from the spec
  where needed (each such definition says so in its doc comment).
* Fallible paths return `Except TErr`; the panicking branches of the
  source (`expect`, `panic!`, `unreachable!`) are distinguished error
  values.  Unbounded recursion through backing-store reads is guarded by
  explicit fuel; fuel exhaustion is another distinguished error, and the
  theorems show the fuel chosen by the public operations suffices.
-/

namespace TrieMut

/-- Byte strings (`&[u8]` / `DBValue` / `ElasticArray36<u8>`). -/
abbrev Bytes := List Nat

/-- Nibble strings (sequences of 4-bit values). -/
abbrev Nibbles := List Nat

/-- The two nibbles of one byte, high nibble first (radix-16 packing,
`NIBBLE_PER_BYTE = 2`).  Modelled from the spec: nibble utilities are not
under `src/`. -/
def byteNibbles (b : Nat) : Nibbles := [b / 16, b % 16]

/-- `NibbleSlice::new(key)`: the nibble sequence of a byte key.
Modelled from the spec: nibble utilities are not under `src/`. -/
def keyNibbles (k : Bytes) : Nibbles := k.flatMap byteNibbles

/-! ## Packed node keys and `combine_key`

`NodeKey` in the source is `(usize, ElasticArray36<u8>)`: an offset
(0 or 1, number of nibbles of padding at the front of byte 0) and the
packed bytes.  `combine_key` (triedbmut.rs, lines 1327-1340) is code under
`src/`; the `NibbleOps` bit-level primitives it calls are not, and are
modelled from the spec here. -/

/-- A packed node key: `(offset, bytes)`. -/
abbrev NodeKeyP := Nat × Bytes

/-- The underlying nibble sequence of a packed key: all nibbles of the
bytes, minus the `offset` leading pad nibbles. -/
def nibsOfKey (k : NodeKeyP) : Nibbles := (k.2.flatMap byteNibbles).drop k.1

/-- `NibbleOps::masked_right(ix, b)` for the radix-16 packing: mask away
the first `ix` nibbles of the byte, keeping the right part.  Modelled from
the spec (bit-level nibble primitive, not under `src/`). -/
def maskedRight (ix : Nat) (b : Nat) : Nat := b % 2 ^ (8 - 4 * ix)

/-- `NibbleOps::masked_left(ix, b)` for the radix-16 packing: keep the
first `ix` nibbles of the byte, zeroing the right part.  Modelled from
the spec (bit-level nibble primitive, not under `src/`). -/
def maskedLeft (ix : Nat) (b : Nat) : Nat := b - b % 2 ^ (8 - 4 * ix)

/-- Pack a nibble sequence into bytes, high nibble first, padding an
incomplete final byte with a zero low nibble. -/
def packNibs : Nibbles → Bytes
  | [] => []
  | [n] => [n * 16]
  | n :: m :: rest => (n * 16 + m) :: packNibs rest

/-- `NibbleOps::shift_key(key, ofset)`: re-align the packed key so that
its offset becomes `ofset`, preserving the underlying nibble sequence.
Modelled from the spec (bit-level nibble primitive, not under `src/`). -/
def shiftKey (k : NodeKeyP) (ofset : Nat) : NodeKeyP :=
  if ofset = k.1 then k
  else (ofset, packNibs (List.replicate ofset 0 ++ nibsOfKey k))

/-- OR a value into the final byte of a byte string (`start.1[sl - 1] |= x`).
The source indexes the final byte and would panic on an empty string; the
model returns `[x]` there (the proofs only use nonempty strings). -/
def orIntoLast (bs : Bytes) (x : Nat) : Bytes :=
  match bs with
  | [] => [x]
  | _ => bs.dropLast ++ [Nat.lor (bs.getLastD 0) x]

/-- `combine_key::<N>(start, end)` (triedbmut.rs, lines 1327-1340) for the
radix-16 packing (`NIBBLE_PER_BYTE = 2`): concatenate two packed keys in
place, rewriting alignment. -/
def combineKey (start : NodeKeyP) (e : NodeKeyP) : NodeKeyP :=
  let finalOfset := (start.1 + e.1) % 2
  let s := shiftKey start finalOfset
  let (s, st) :=
    if e.1 > 0 then
      ((s.1, orIntoLast s.2 (maskedRight (2 - e.1) (e.2.headD 0))), 1)
    else (s, 0)
  (s.1, s.2 ++ e.2.drop st)

/-! ## The node model

`Node<H>` (triedbmut.rs, lines 75-93) with `NodeHandle` (lines 50-57) and
`Stored` (lines 244-250).  The arena (`NodeStorage`) holds every node
under a single non-copyable owner, so the embedding stores the owned node
inline in the handle; `alloc`/`destroy` are the identity on the carried
`Stored` value.  Hash outputs are modelled as `Bytes`.  Children of a
branch are a length-16 list (`NIBBLE_LEN = 16`). -/

mutual

/-- Node types in the trie (`Node<H>`).  Stored partial keys (`NodeKey`)
are modelled by their underlying nibble sequences. -/
inductive MNode : Type
  | empty
  | leaf (pkey : Nibbles) (value : Bytes)
  | ext (pkey : Nibbles) (child : MHandle)
  | branch (children : MChildren) (value : Option Bytes)
  | nbranch (pkey : Nibbles) (children : MChildren) (value : Option Bytes)

/-- The 16 child slots of a branch (`Vec<Option<NodeHandle<H>>>`). -/
inductive MChildren : Type
  | nil
  | cons (hd : Option MHandle) (tl : MChildren)

/-- Handles to nodes (`NodeHandle<H>`): loaded into memory, or a hash. -/
inductive MHandle : Type
  | inMem (s : MStored)
  | hashed (h : Bytes)

/-- What kind of node is stored (`Stored<H>`): a new node, or a cached
node loaded from the DB together with its hash. -/
inductive MStored : Type
  | fresh (n : MNode)
  | cached (n : MNode) (h : Bytes)

end

/-- Structural induction for child lists (single motive; the generic
recursor of the mutual inductive block has one motive per type). -/
@[induction_eliminator]
def MChildren.inductionOn {motive : MChildren → Sort u}
    (nil : motive .nil)
    (cons : ∀ hd tl, motive tl → motive (.cons hd tl)) : ∀ cs, motive cs
  | .nil => nil
  | .cons hd tl => cons hd tl (MChildren.inductionOn nil cons tl)

/-- `children[i]` (out-of-range reads give `none`). -/
def MChildren.get : MChildren → Nat → Option MHandle
  | .nil, _ => none
  | .cons hd _, 0 => hd
  | .cons _ tl, n + 1 => tl.get n

/-- `children[i] = v` (out-of-range writes are dropped). -/
def MChildren.set : MChildren → Nat → Option MHandle → MChildren
  | .nil, _, _ => .nil
  | .cons _ tl, 0, v => .cons v tl
  | .cons hd tl, n + 1, v => .cons hd (tl.set n v)

/-- Build a child list from a plain list. -/
def MChildren.ofList : List (Option MHandle) → MChildren
  | [] => .nil
  | hd :: tl => .cons hd (MChildren.ofList tl)

/-- `empty_children::<H, N>()`: 16 empty slots. -/
def emptyChildren : MChildren := MChildren.ofList (List.replicate 16 none)

/-- The `UsedIndex` scan state of `fix`. -/
inductive UsedIx : Type
  | noneU
  | one (a : Nat)
  | many
deriving DecidableEq

/-- One step of the `UsedIndex` loop of `fix` (`for i in 0..16` with break
on the second occupied slot). -/
def usedIndexAux : MChildren → Nat → UsedIx → UsedIx
  | .nil, _, u => u
  | .cons hd tl, i, u =>
    match hd, u with
    | none, u => usedIndexAux tl (i + 1) u
    | some _, .noneU => usedIndexAux tl (i + 1) (.one i)
    | some _, .one _ => .many
    | some _, .many => .many

/-- The `UsedIndex` scan of `fix`: no occupied slot, exactly one (at `a`),
or more than one. -/
def usedIndex (cs : MChildren) : UsedIx := usedIndexAux cs 0 .noneU

/-! ## Codec model

The node codec (`NodeCodec`, `reference-trie`) is code of this repository
that is not under `src/`.  Modelled from the spec: a deterministic,
injectively decodable encoding with `empty_node`, `leaf_node`, `ext_node`,
`branch_node`, `branch_node_nibbled` and `try_decode_hash`.  Child slices
are the raw bytes of a `ChildReference`: the hash for `Hash(h)`, the first
`len` bytes of the padded buffer for `Inline(buf, len)`. -/

/-- Used to build child nodes from `NodeHandle`s (`ChildReference<HO>`). -/
inductive ChildRef : Type
  | hashRef (h : Bytes)
  | inlineRef (buf : Bytes) (len : Nat)
deriving DecidableEq, Repr

/-- The byte slice the codec stores for a child reference. -/
def ChildRef.slice : ChildRef → Bytes
  | .hashRef h => h
  | .inlineRef buf len => buf.take len

/-- Length-prefixed byte string. -/
def encBytes (b : Bytes) : Bytes := b.length :: b

/-- Optional value slot. -/
def encOpt : Option Bytes → Bytes
  | none => [0]
  | some v => 1 :: encBytes v

/-- One encoded child slot. -/
def encSlot : Option Bytes → Bytes
  | none => [0]
  | some s => 1 :: encBytes s

/-- `C::empty_node()`. -/
def emptyEnc : Bytes := [0]

/-- `C::leaf_node(partial, value)`. -/
def leafEnc (pk : Nibbles) (v : Bytes) : Bytes := 1 :: (encBytes pk ++ encBytes v)

/-- `C::ext_node(partial_iter, len, child_ref)`. -/
def extEnc (pk : Nibbles) (c : Bytes) : Bytes := 2 :: (encBytes pk ++ encBytes c)

/-- `C::branch_node(children, value)`. -/
def branchEnc (cs : List (Option Bytes)) (v : Option Bytes) : Bytes :=
  3 :: ((cs.flatMap encSlot) ++ encOpt v)

/-- `C::branch_node_nibbled(partial_iter, len, children, value)`. -/
def nbranchEnc (pk : Nibbles) (cs : List (Option Bytes)) (v : Option Bytes) : Bytes :=
  4 :: (encBytes pk ++ cs.flatMap encSlot ++ encOpt v)

/-- `C::try_decode_hash(slice)`: a slice is a hash exactly when it has the
hash output length. -/
def tryDecodeHash (hashLen : Nat) (data : Bytes) : Option Bytes :=
  if data.length = hashLen then some data else none

/-- The decoded form of a node (`EncodedNode`): children appear as raw
byte slices. -/
inductive RawNode : Type
  | rEmpty
  | rLeaf (pk : Nibbles) (v : Bytes)
  | rExt (pk : Nibbles) (c : Bytes)
  | rBranch (cs : List (Option Bytes)) (v : Option Bytes)
  | rNBranch (pk : Nibbles) (cs : List (Option Bytes)) (v : Option Bytes)
deriving DecidableEq, Repr

/-- Parse a length-prefixed byte string. -/
def readBytes : Bytes → Option (Bytes × Bytes)
  | [] => none
  | n :: rest => if n ≤ rest.length then some (rest.take n, rest.drop n) else none

/-- Parse one child slot. -/
def readSlot : Bytes → Option (Option Bytes × Bytes)
  | [] => none
  | 0 :: rest => some (none, rest)
  | 1 :: rest => (readBytes rest).map (fun p => (some p.1, p.2))
  | _ :: _ => none

/-- Parse 16 child slots. -/
def readSlots : Nat → Bytes → Option (List (Option Bytes) × Bytes)
  | 0, rest => some ([], rest)
  | n + 1, rest => do
    let (s, rest) ← readSlot rest
    let (ss, rest) ← readSlots n rest
    pure (s :: ss, rest)

/-- Parse an optional value slot. -/
def readOpt : Bytes → Option (Option Bytes × Bytes)
  | [] => none
  | 0 :: rest => some (none, rest)
  | 1 :: rest => (readBytes rest).map (fun p => (some p.1, p.2))
  | _ :: _ => none

/-- `C::decode(data)`: the partial inverse of the encode functions. -/
def decodeNode (data : Bytes) : Option RawNode :=
  match data with
  | [0] => some .rEmpty
  | 1 :: rest => do
    let (pk, rest) ← readBytes rest
    let (v, rest) ← readBytes rest
    if rest = [] then pure (.rLeaf pk v) else none
  | 2 :: rest => do
    let (pk, rest) ← readBytes rest
    let (c, rest) ← readBytes rest
    if rest = [] then pure (.rExt pk c) else none
  | 3 :: rest => do
    let (cs, rest) ← readSlots 16 rest
    let (v, rest) ← readOpt rest
    if rest = [] then pure (.rBranch cs v) else none
  | 4 :: rest => do
    let (pk, rest) ← readBytes rest
    let (cs, rest) ← readSlots 16 rest
    let (v, rest) ← readOpt rest
    if rest = [] then pure (.rNBranch pk cs v) else none
  | _ => none

/-! ## Hasher and backing store

The hasher and `memory-db` backing store are code of this repository that
is not under `src/`; modelled from the spec (§6): a prefix-qualified,
reference-counted store whose `insert` chooses the hash, and which
resolves the hashed null node specially. -/

/-- Hasher parameters: the hash function and its output length
(`Hasher::LENGTH`). -/
structure HParams where
  hashF : Bytes → Bytes
  hashLen : Nat

/-- `C::hashed_null_node()`: the hash of the empty-node encoding. -/
def hashedNull (hp : HParams) : Bytes := hp.hashF emptyEnc

/-- One backing-store entry: data and reference count. -/
structure DBVal where
  data : Bytes
  rc : Int
deriving DecidableEq, Repr

/-- The backing store, keyed by `(hash, path_prefix)`.  Modelled from the
spec: `memory-db` with `PrefixedKey` is not under `src/`. -/
abbrev DB := List ((Bytes × Nibbles) × DBVal)

/-- First entry under a key. -/
def dbFind (db : DB) (k : Bytes × Nibbles) : Option DBVal :=
  match db.find? (fun e => e.1 = k) with
  | some e => some e.2
  | none => none

/-- Replace (or add) the entry under a key. -/
def dbSet (db : DB) (k : Bytes × Nibbles) (v : DBVal) : DB :=
  match db with
  | [] => [(k, v)]
  | e :: rest => if e.1 = k then (k, v) :: rest else e :: dbSet rest k v

/-- `HashDB::get(hash, prefix)`: present data with positive reference
count; the hashed null node always resolves to the empty-node encoding. -/
def dbGet (hp : HParams) (db : DB) (h : Bytes) (pfx : Nibbles) : Option Bytes :=
  if h = hashedNull hp then some emptyEnc
  else
    match dbFind db (h, pfx) with
    | some e => if e.rc > 0 then some e.data else none
    | none => none

/-- `HashDB::contains(hash, prefix)`. -/
def dbContains (hp : HParams) (db : DB) (h : Bytes) (pfx : Nibbles) : Bool :=
  (dbGet hp db h pfx).isSome

/-- `HashDB::insert(prefix, data) → hash`: bump the reference count and
store the data under `(hash(data), prefix)`; inserting the empty-node
encoding is the identity. -/
def dbInsert (hp : HParams) (db : DB) (pfx : Nibbles) (data : Bytes) : DB × Bytes :=
  if data = emptyEnc then (db, hashedNull hp)
  else
    let h := hp.hashF data
    match dbFind db (h, pfx) with
    | some e => (dbSet db (h, pfx) ⟨data, e.rc + 1⟩, h)
    | none => (dbSet db (h, pfx) ⟨data, 1⟩, h)

/-- `HashDB::remove(hash, prefix)`: decrement the reference count (going
negative records a pending removal); removing the hashed null node is a
no-op. -/
def dbRemove (hp : HParams) (db : DB) (h : Bytes) (pfx : Nibbles) : DB :=
  if h = hashedNull hp then db
  else
    match dbFind db (h, pfx) with
    | some e => dbSet db (h, pfx) ⟨e.data, e.rc - 1⟩
    | none => dbSet db (h, pfx) ⟨[], -1⟩

/-! ## Keys under mutation

`NibbleFullKey` is a `NibbleSlice` over the full key whose split point
advances during descent; `left()` is the consumed path (the backing-store
prefix).  Modelled from the spec at the nibble level: the nibble module is
not under `src/`.  `Prefix` values are nibble paths. -/

/-- A full key split into the consumed path and the remaining nibbles. -/
structure FullKey where
  done : Nibbles
  rest : Nibbles
deriving DecidableEq, Repr

/-- `key.advance(n)`. -/
def FullKey.advance (k : FullKey) (n : Nat) : FullKey :=
  ⟨k.done ++ k.rest.take n, k.rest.drop n⟩

/-- `key.left()` / `key.left_owned()`: the consumed nibble path. -/
def FullKey.left (k : FullKey) : Nibbles := k.done

/-- A full key with nothing consumed. -/
def FullKey.ofNibbles (ns : Nibbles) : FullKey := ⟨[], ns⟩

/-- `a.common_prefix(b)`: number of equal leading nibbles. -/
def commonPrefixLen : Nibbles → Nibbles → Nat
  | a :: as', b :: bs' => if a = b then commonPrefixLen as' bs' + 1 else 0
  | _, _ => 0

/-! ## Errors, actions, death row -/

/-- Failure modes of the embedded operations.  `TrieError` variants and
the panicking branches of the source are distinguished; `outOfFuel`
signals exhaustion of the explicit recursion bound (which the source does
not have; the theorems show the public operations never reach it). -/
inductive TErr : Type
  | incompleteDatabase (h : Bytes)
  | invalidStateRoot (h : Bytes)
  | insertionNeverDeletes
  | branchNoSubvalues
  | fixUnreachable
  | extensionEmptyKey
  | outOfFuel
deriving DecidableEq, Repr

/-- Post-inspect action (`Action<H>`). -/
inductive Action : Type
  | replace (n : MNode)
  | restore (n : MNode)
  | delete

/-- Post-insert action (`InsertAction<H>`): same, without delete. -/
inductive InsertAction : Type
  | replace (n : MNode)
  | restore (n : MNode)

/-- `InsertAction::into_action`. -/
def InsertAction.intoAction : InsertAction → Action
  | .replace n => .replace n
  | .restore n => .restore n

/-- `InsertAction::unwrap_node`. -/
def InsertAction.unwrapNode : InsertAction → MNode
  | .replace n => n
  | .restore n => n

/-- The death row (`HashSet<(H, Prefix)>`): set-insert into a list. -/
def drInsert (dr : List (Bytes × Nibbles)) (e : Bytes × Nibbles) :
    List (Bytes × Nibbles) :=
  if e ∈ dr then dr else e :: dr

/-- Mutation context threaded through the engine: the borrowed backing
store (read-only during mutation), the death row, and the `old_val`
out-parameter. -/
structure Ctx where
  db : DB
  dr : List (Bytes × Nibbles)
  oldVal : Option Bytes
deriving DecidableEq, Repr

/-! ## Decoding into memory

`Node::inline_or_hash` and `Node::from_encoded` (triedbmut.rs, lines
99-148).  Inline children are materialized eagerly; hashed children stay
hashes.  The recursion into inline children is bounded by fuel (callers
pass the byte length, which dominates the nesting depth); on exhaustion
the model returns `Empty`, like the source's `unwrap_or(EncodedNode::Empty)`
for undecodable data. -/

/-- `Node::from_encoded(data, db, storage)` with `Node::inline_or_hash`
inlined (`inl`): decode a node, materializing inline children eagerly and
leaving hashed children as hashes. -/
def fromEncoded (hp : HParams) : Nat → Bytes → MNode
  | 0, _ => .empty
  | fuel + 1, data =>
    -- `inline_or_hash`: a slice of hash length is a hash, anything else
    -- is an inline child, decoded and allocated as a `New` node
    let inl : Bytes → MHandle := fun d =>
      match tryDecodeHash hp.hashLen d with
      | some h => .hashed h
      | none => .inMem (.fresh (fromEncoded hp fuel d))
    match (decodeNode data).getD .rEmpty with
    | .rEmpty => .empty
    | .rLeaf k v => .leaf k v
    | .rExt k cb => .ext k (inl cb)
    | .rBranch cs v =>
      .branch (MChildren.ofList (cs.map (fun o => o.map inl))) v
    | .rNBranch k cs v =>
      .nbranch k (MChildren.ofList (cs.map (fun o => o.map inl))) v
termination_by structural fuel => fuel

/-- `TrieDBMut::cache(hash, key)` (triedbmut.rs, lines 397-406): load a
node from the backing store into a `Cached` slot. -/
def cache (hp : HParams) (db : DB) (h : Bytes) (pfx : Nibbles) :
    Except TErr MStored :=
  match dbGet hp db h pfx with
  | none => .error (.incompleteDatabase h)
  | some data => .ok (.cached (fromEncoded hp data.length data) h)

/-- `TrieDBMut::inspect(stored, key, inspector)` (triedbmut.rs, lines
408-430): apply a node-rewriter, keeping `Cached` slots on `Restore`,
scheduling the superseded identity on the death row on `Replace`/`Delete`
of a cached node.  The inspector threads the advanced key and the
context. -/
def inspect (stored : MStored) (key0 : FullKey) (c0 : Ctx)
    (inspector : MNode → FullKey → Ctx → Except TErr (Action × FullKey × Ctx)) :
    Except TErr (Option (MStored × Bool) × FullKey × Ctx) := do
  match stored with
  | .fresh node =>
    let (act, key, c) ← inspector node key0 c0
    match act with
    | .restore n => .ok (some (.fresh n, false), key, c)
    | .replace n => .ok (some (.fresh n, true), key, c)
    | .delete => .ok (none, key, c)
  | .cached node h =>
    let (act, key, c) ← inspector node key0 c0
    match act with
    | .restore n => .ok (some (.cached n h, false), key, c)
    | .replace n =>
      .ok (some (.fresh n, true), key, { c with dr := drInsert c.dr (h, key.left) })
    | .delete =>
      .ok (none, key, { c with dr := drInsert c.dr (h, key.left) })

/-! ## The mutation engine

`insert_at` / `insert_inspector` / `remove_at` / `remove_inspector` /
`fix` (triedbmut.rs, lines 494-1151), threaded through `Ctx`.  The
recursion is bounded by explicit fuel, decremented at every mutual call;
the source recurses natively (and can loop forever on a malformed backing
store), the public operations of the embedding pass fuel shown sufficient
by the theorems. -/

section MutationEngine

variable (hp : HParams) (useExt : Bool)

mutual

/-- `TrieDBMut::insert_at(handle, key, value, old_val)` (lines 495-506). -/
def insertAt (fuel : Nat) (c : Ctx) (handle : MHandle) (key : FullKey)
    (value : Bytes) : Except TErr (MHandle × Bool × FullKey × Ctx) :=
  match fuel with
  | 0 => .error .outOfFuel
  | fuel + 1 => do
    let stored ← match handle with
      | .inMem s => pure s
      | .hashed h => cache hp c.db h key.left
    let (res, key, c) ← inspect stored key c (fun node k c => do
      let (ia, k, c) ← insertInspector fuel c node k value
      pure (ia.intoAction, k, c))
    match res with
    | some (newStored, changed) => .ok (.inMem newStored, changed, key, c)
    | none => .error .insertionNeverDeletes
termination_by structural fuel

/-- `TrieDBMut::insert_inspector(node, key, value, old_val)` (lines
509-778). -/
def insertInspector (fuel : Nat) (c : Ctx) (node : MNode) (key : FullKey)
    (value : Bytes) : Except TErr (InsertAction × FullKey × Ctx) :=
  match fuel with
  | 0 => .error .outOfFuel
  | fuel + 1 =>
    let partialK := key.rest
    match node with
    | .empty => .ok (.replace (.leaf partialK value), key, c)
    | .branch children storedValue =>
      -- extension layout only (debug_assert!(L::USE_EXTENSION))
      if partialK.isEmpty then
        let unchanged := storedValue = some value
        let branch := MNode.branch children (some value)
        let c := { c with oldVal := storedValue }
        .ok (if unchanged then (.restore branch, key, c) else (.replace branch, key, c))
      else
        let idx := partialK.getD 0 0
        let key := key.advance 1
        match children.get idx with
        | some child => do
          let children := children.set idx none
          let (newChild, changed, key, c) ← insertAt fuel c child key value
          let children := children.set idx (some newChild)
          if !changed then
            .ok (.restore (.branch children storedValue), key, c)
          else
            .ok (.replace (.branch children storedValue), key, c)
        | none =>
          let leaf := MStored.fresh (.leaf key.rest value)
          let children := children.set idx (some (.inMem leaf))
          .ok (.replace (.branch children storedValue), key, c)
    | .nbranch encoded children storedValue =>
      -- extension-free layout only (debug_assert!(!L::USE_EXTENSION))
      let existingKey := encoded
      let cp := commonPrefixLen partialK existingKey
      if cp = existingKey.length ∧ cp = partialK.length then
        let unchanged := storedValue = some value
        let branch := MNode.nbranch existingKey children (some value)
        let c := { c with oldVal := storedValue }
        .ok (if unchanged then (.restore branch, key, c) else (.replace branch, key, c))
      else if cp < existingKey.length then
        -- insert a branch value in between
        let low := MNode.nbranch (existingKey.drop (cp + 1)) children storedValue
        let ix := existingKey.getD cp 0
        let children2 := (emptyChildren).set ix (some (.inMem (.fresh low)))
        if partialK.length - cp = 0 then
          .ok (.replace (.nbranch (existingKey.take cp) children2 (some value)), key, c)
        else
          let ix2 := partialK.getD cp 0
          let leaf := MStored.fresh (.leaf (partialK.drop (cp + 1)) value)
          let children2 := children2.set ix2 (some (.inMem leaf))
          .ok (.replace (.nbranch (existingKey.take cp) children2 none), key, c)
      else
        -- append: cp == existing_key.len() and partial.len() > cp
        let idx := partialK.getD cp 0
        let key := key.advance (cp + 1)
        match children.get idx with
        | some child => do
          let children := children.set idx none
          let (newChild, changed, key, c) ← insertAt fuel c child key value
          let children := children.set idx (some newChild)
          if !changed then
            .ok (.restore (.nbranch existingKey children storedValue), key, c)
          else
            .ok (.replace (.nbranch existingKey children storedValue), key, c)
        | none =>
          let leaf := MStored.fresh (.leaf key.rest value)
          let children := children.set idx (some (.inMem leaf))
          .ok (.replace (.nbranch existingKey children storedValue), key, c)
    | .leaf encoded storedValue =>
      let existingKey := encoded
      let cp := commonPrefixLen partialK existingKey
      if cp = existingKey.length ∧ cp = partialK.length then
        -- equivalent leaf
        let unchanged := storedValue = value
        let c := { c with oldVal := some storedValue }
        .ok (if unchanged then (.restore (.leaf encoded value), key, c)
             else (.replace (.leaf encoded value), key, c))
      else if (useExt ∧ cp = 0) ∨ (¬useExt ∧ cp < existingKey.length) then do
        -- transmute to branch
        let children := emptyChildren
        let branch :=
          if useExt ∧ existingKey.isEmpty then
            MNode.branch children (some storedValue)
          else
            let idx := existingKey.getD cp 0
            let newLeaf := MNode.leaf (existingKey.drop (cp + 1)) storedValue
            let children := children.set idx (some (.inMem (.fresh newLeaf)))
            if useExt then MNode.branch children none
            else MNode.nbranch (partialK.take cp) children none
        let (ba, key, c) ← insertInspector fuel c branch key value
        .ok (.replace ba.unwrapNode, key, c)
      else if ¬useExt then do
        -- extension-free: fully-shared prefix, make a stub branch
        let branch := MNode.nbranch existingKey emptyChildren (some storedValue)
        let (ba, key, c) ← insertInspector fuel c branch key value
        .ok (.replace ba.unwrapNode, key, c)
      else if cp = existingKey.length then do
        -- extension layout: fully-shared prefix, stub branch and extension
        let branch := MNode.branch emptyChildren (some storedValue)
        let key := key.advance cp
        let (ba, key, c) ← insertInspector fuel c branch key value
        .ok (.replace (.ext existingKey (.inMem (.fresh ba.unwrapNode))), key, c)
      else do
        -- extension layout: partially-shared prefix
        let low := MNode.leaf (existingKey.drop cp) storedValue
        let key := key.advance cp
        let (la, key, c) ← insertInspector fuel c low key value
        .ok (.replace (.ext (existingKey.take cp) (.inMem (.fresh la.unwrapNode))), key, c)
    | .ext encoded childBranch =>
      -- extension layout only
      let existingKey := encoded
      let cp := commonPrefixLen partialK existingKey
      if cp = 0 then
        -- extensions may not have empty partial keys (assert!)
        if existingKey.isEmpty then .error .extensionEmptyKey
        else do
          let idx := existingKey.getD 0 0
          let slot :=
            if existingKey.length = 1 then some childBranch
            else some (.inMem (.fresh (.ext (existingKey.drop 1) childBranch)))
          let children := (emptyChildren).set idx slot
          let (ba, key, c) ← insertInspector fuel c (.branch children none) key value
          .ok (.replace ba.unwrapNode, key, c)
      else if cp = existingKey.length then do
        -- fully-shared prefix: insert into the child node
        let key := key.advance cp
        let (newChild, changed, key, c) ← insertAt fuel c childBranch key value
        let newExt := MNode.ext existingKey newChild
        .ok (if changed then (.replace newExt, key, c) else (.restore newExt, key, c))
      else do
        -- partially-shared
        let low := MNode.ext (existingKey.drop cp) childBranch
        let key := key.advance cp
        let (la, key, c) ← insertInspector fuel c low key value
        .ok (.replace (.ext (existingKey.take cp) (.inMem (.fresh la.unwrapNode))), key, c)
termination_by structural fuel

/-- `TrieDBMut::remove_at(handle, key, old_val)` (lines 781-793). -/
def removeAt (fuel : Nat) (c : Ctx) (handle : MHandle) (key : FullKey) :
    Except TErr (Option (MHandle × Bool) × FullKey × Ctx) :=
  match fuel with
  | 0 => .error .outOfFuel
  | fuel + 1 => do
    let stored ← match handle with
      | .inMem s => pure s
      | .hashed h => cache hp c.db h key.left
    let (opt, key, c) ← inspect stored key c (fun node k c =>
      removeInspector fuel c node k)
    .ok (opt.map (fun p => (MHandle.inMem p.1, p.2)), key, c)
termination_by structural fuel

/-- `TrieDBMut::remove_inspector(node, key, old_val)` (lines 796-942). -/
def removeInspector (fuel : Nat) (c : Ctx) (node : MNode) (key : FullKey) :
    Except TErr (Action × FullKey × Ctx) :=
  match fuel with
  | 0 => .error .outOfFuel
  | fuel + 1 =>
    let partialK := key.rest
    match node, partialK.isEmpty with
    | .empty, _ => .ok (.delete, key, c)
    | .branch cs none, true => .ok (.restore (.branch cs none), key, c)
    | .nbranch n cs none, true => .ok (.restore (.nbranch n cs none), key, c)
    | .branch children (some val), true => do
      let c := { c with oldVal := some val }
      let (f, c) ← fix fuel c (.branch children none) key
      .ok (.replace f, key, c)
    | .nbranch n children (some val), true => do
      let c := { c with oldVal := some val }
      let (f, c) ← fix fuel c (.nbranch n children none) key
      .ok (.replace f, key, c)
    | .branch children value, false =>
      let idx := partialK.getD 0 0
      match children.get idx with
      | some child => do
        let children := children.set idx none
        let pfx := key
        let key := key.advance 1
        let (res, key, c) ← removeAt fuel c child key
        match res with
        | some (newH, changed) =>
          let children := children.set idx (some newH)
          let branch := MNode.branch children value
          .ok (if changed then (.replace branch, key, c) else (.restore branch, key, c))
        | none => do
          -- the child we took was deleted; the node may need fixing
          let (f, c) ← fix fuel c (.branch children value) pfx
          .ok (.replace f, key, c)
      | none => .ok (.restore (.branch children value), key, c)
    | .nbranch encoded children value, false =>
      let cp := commonPrefixLen encoded partialK
      let existingLen := encoded.length
      if cp = existingLen ∧ cp = partialK.length then
        match value with
        | some val => do
          let c := { c with oldVal := some val }
          let (f, c) ← fix fuel c (.nbranch encoded children none) key
          .ok (.replace f, key, c)
        | none => .ok (.restore (.nbranch encoded children none), key, c)
      else if cp < existingLen then
        -- partway through the prefix: nothing to do
        .ok (.restore (.nbranch encoded children value), key, c)
      else
        -- cp == existing_len && cp < partial.len(): check children
        let idx := partialK.getD cp 0
        match children.get idx with
        | some child => do
          let children := children.set idx none
          let pfx := key
          let key := key.advance (cp + 1)
          let (res, key, c) ← removeAt fuel c child key
          match res with
          | some (newH, changed) =>
            let children := children.set idx (some newH)
            let branch := MNode.nbranch encoded children value
            .ok (if changed then (.replace branch, key, c) else (.restore branch, key, c))
          | none => do
            let (f, c) ← fix fuel c (.nbranch encoded children value) pfx
            .ok (.replace f, key, c)
        | none => .ok (.restore (.nbranch encoded children value), key, c)
    | .leaf encoded value, _ =>
      if encoded = partialK then
        let c := { c with oldVal := some value }
        .ok (.delete, key, c)
      else
        .ok (.restore (.leaf encoded value), key, c)
    | .ext encoded childBranch, _ =>
      let cp := commonPrefixLen encoded partialK
      let existingLen := encoded.length
      if cp = existingLen then do
        -- try to remove from the child branch
        let pfx := key
        let key := key.advance cp
        let (res, key, c) ← removeAt fuel c childBranch key
        match res with
        | some (newChild, changed) =>
          if changed then do
            let (f, c) ← fix fuel c (.ext encoded newChild) pfx
            .ok (.replace f, key, c)
          else
            .ok (.restore (.ext encoded newChild), key, c)
        | none =>
          -- the whole branch got deleted: this extension is useless
          .ok (.delete, key, c)
      else
        .ok (.restore (.ext encoded childBranch), key, c)
termination_by structural fuel

/-- `TrieDBMut::fix(node, key)` (lines 950-1151): repair a node possibly
left in an invalid state by removal. -/
def fix (fuel : Nat) (c : Ctx) (node : MNode) (key : FullKey) :
    Except TErr (MNode × Ctx) :=
  match fuel with
  | 0 => .error .outOfFuel
  | fuel + 1 =>
    match node with
    | .branch children value =>
      match usedIndex children, value with
      | .noneU, none => .error .branchNoSubvalues
      | .one a, none =>
        -- only one onward node: make an extension
        match children.get a with
        | none => .error .fixUnreachable
        | some child =>
          let newPartial : Nibbles := [a]
          fix fuel c (.ext newPartial child) key
      | .noneU, some value => .ok (.leaf [] value, c)
      | _, value => .ok (.branch children value, c)
    | .nbranch encNibble children value =>
      match usedIndex children, value with
      | .noneU, none => .error .branchNoSubvalues
      | .one a, none => do
        -- only one onward node: splice it into this node
        match children.get a with
        | none => .error .fixUnreachable
        | some child =>
          let kc := key.advance encNibble.length
          let childPref : Nibbles := kc.left ++ [a]
          let stored ← match child with
            | .inMem s => pure s
            | .hashed h => cache hp c.db h childPref
          let (childNode, c) :=
            match stored with
            | .fresh n => (n, c)
            | .cached n h => (n, { c with dr := drInsert c.dr (h, childPref) })
          match childNode with
          | .leaf subPartial v2 =>
            .ok (.leaf (encNibble ++ [a] ++ subPartial) v2, c)
          | .nbranch subPartial chChildren chValue =>
            .ok (.nbranch (encNibble ++ [a] ++ subPartial) chChildren chValue, c)
          | _ => .error .fixUnreachable
      | .noneU, some value => .ok (.leaf encNibble value, c)
      | _, value => .ok (.nbranch encNibble children value, c)
    | .ext pkey child => do
      -- the last nibble of the extension partial (the branch index the
      -- child sits under); the source reads it out of the packed bytes
      let a := pkey.getLastD 0
      let kc := key.advance (pkey.length - 1)
      let childPref : Nibbles := kc.left ++ [a]
      let stored ← match child with
        | .inMem s => pure s
        | .hashed h => cache hp c.db h childPref
      let (childNode, maybeHash) :=
        match stored with
        | .fresh n => (n, none)
        | .cached n h => (n, some h)
      match childNode with
      | .ext subPartial subChild =>
        -- combine with the node below
        let c := match maybeHash with
          | some h => { c with dr := drInsert c.dr (h, childPref) }
          | none => c
        fix fuel c (.ext (pkey ++ subPartial) subChild) key
      | .leaf subPartial v2 =>
        let c := match maybeHash with
          | some h => { c with dr := drInsert c.dr (h, childPref) }
          | none => c
        .ok (.leaf (pkey ++ subPartial) v2, c)
      | childNode =>
        -- restore the extension, reallocating the child node
        let stored := match maybeHash with
          | some h => MStored.cached childNode h
          | none => MStored.fresh childNode
        .ok (.ext pkey (.inMem stored), c)
    | other => .ok (other, c)
termination_by structural fuel

end

end MutationEngine

/-! ## Lookup

`TrieDBMut::lookup` (triedbmut.rs, lines 433-492) walks in-memory nodes;
on a `Hash` handle it delegates to the read-only cursor `Lookup` of
`lookup.rs`, which is not under `src/` and is modelled from the spec
(§4.4). -/

/-- The node held in a slot (`Index<&StorageHandle> for NodeStorage`). -/
def MStored.node : MStored → MNode
  | .fresh n => n
  | .cached n _ => n

mutual

/-- Cursor lookup against the backing store, by hash.  Modelled from the
spec (§4.4): `lookup.rs` is not under `src/`.  Misses of the store raise
`IncompleteDatabase`. -/
def specLookup (hp : HParams) (fuel : Nat) (db : DB) (h : Bytes)
    (key : FullKey) : Except TErr (Option Bytes) :=
  match fuel with
  | 0 => .error .outOfFuel
  | fuel + 1 =>
    match dbGet hp db h key.left with
    | none => .error (.incompleteDatabase h)
    | some data => specWalk hp fuel db (fromEncoded hp data.length data) key
termination_by structural fuel

/-- Walk one decoded node in the cursor lookup.  Modelled from the spec
(§4.4): prefix steps advance on `starts_with`, branch tails return the
value on an empty remaining key, else follow the child at the next
nibble. -/
def specWalk (hp : HParams) (fuel : Nat) (db : DB) (node : MNode)
    (key : FullKey) : Except TErr (Option Bytes) :=
  match fuel with
  | 0 => .error .outOfFuel
  | fuel + 1 =>
    match node with
    | .empty => .ok none
    | .leaf k v => .ok (if k = key.rest then some v else none)
    | .ext k child =>
      if k.isPrefixOf key.rest then
        specWalkHandle hp fuel db child (key.advance k.length)
      else .ok none
    | .branch children value =>
      if key.rest.isEmpty then .ok value
      else
        match children.get (key.rest.getD 0 0) with
        | some child => specWalkHandle hp fuel db child (key.advance 1)
        | none => .ok none
    | .nbranch k children value =>
      if k.isPrefixOf key.rest then
        let key := key.advance k.length
        if key.rest.isEmpty then .ok value
        else
          match children.get (key.rest.getD 0 0) with
          | some child => specWalkHandle hp fuel db child (key.advance 1)
          | none => .ok none
      else .ok none
termination_by structural fuel

/-- Follow one child handle in the cursor lookup (inline children were
materialized by decoding; hashed children read the store). -/
def specWalkHandle (hp : HParams) (fuel : Nat) (db : DB) (handle : MHandle)
    (key : FullKey) : Except TErr (Option Bytes) :=
  match fuel with
  | 0 => .error .outOfFuel
  | fuel + 1 =>
    match handle with
    | .inMem s => specWalk hp fuel db s.node key
    | .hashed h => specLookup hp fuel db h key
termination_by structural fuel

end

mutual

/-- `TrieDBMut::lookup(partial, handle)` (lines 433-492): the in-memory
walk; `fuel` bounds only the delegated cursor lookup. -/
def lookupMem (hp : HParams) (fuel : Nat) (db : DB) : MHandle → FullKey →
    Except TErr (Option Bytes)
  | .hashed h, key => specLookup hp fuel db h key
  | .inMem s, key => lookupMemStored hp fuel db s key
termination_by structural h _ => h

/-- Dispatch over the stored slot (`self.storage[handle]`). -/
def lookupMemStored (hp : HParams) (fuel : Nat) (db : DB) : MStored →
    FullKey → Except TErr (Option Bytes)
  | .fresh n, key => lookupMemNode hp fuel db n key
  | .cached n _, key => lookupMemNode hp fuel db n key
termination_by structural s _ => s

/-- The node dispatch of `TrieDBMut::lookup` (lines 444-486). -/
def lookupMemNode (hp : HParams) (fuel : Nat) (db : DB) : MNode → FullKey →
    Except TErr (Option Bytes)
  | .empty, _ => .ok none
  | .leaf k v, key => .ok (if k = key.rest then some v else none)
  | .ext slice child, key =>
    if slice.isPrefixOf key.rest then
      lookupMem hp fuel db child (key.advance slice.length)
    else .ok none
  | .branch children value, key =>
    if key.rest.isEmpty then .ok value
    else lookupMemChild hp fuel db children (key.rest.getD 0 0) (key.advance 1)
  | .nbranch slice children value, key =>
    if key.rest.isEmpty then .ok value
    else if slice.isPrefixOf key.rest then
      lookupMemChild hp fuel db children (key.rest.getD 0 0)
        (key.advance (1 + slice.length))
    else .ok none
termination_by structural n _ => n

/-- Follow `children[idx]` (a miss returns `None`); fused with the child
access for structural recursion. -/
def lookupMemChild (hp : HParams) (fuel : Nat) (db : DB) : MChildren →
    Nat → FullKey → Except TErr (Option Bytes)
  | .nil, _, _ => .ok none
  | .cons hd _, 0, key =>
    match hd with
    | some child => lookupMem hp fuel db child key
    | none => .ok none
  | .cons _ tl, n + 1, key => lookupMemChild hp fuel db tl n key
termination_by structural cs _ _ => cs

end

/-! ## The commit engine

`commit` / `commit_child` (triedbmut.rs, lines 1155-1231) with
`Node::into_encoded` (lines 151-207).  The prefix accumulator
(`NibbleVec`) is a nibble path; entering a child appends the parent's
partial key (if any) and the branch index nibble. -/

mutual

/-- `TrieDBMut::commit_child(handle, prefix)` (lines 1200-1231). -/
def commitChild (hp : HParams) (handle : MHandle) (pfx : Nibbles) (db : DB)
    (hc : Nat) : ChildRef × DB × Nat :=
  match handle with
  | .hashed hash => (.hashRef hash, db, hc)
  | .inMem stored =>
    match stored with
    | .cached _ hash => (.hashRef hash, db, hc)
    | .fresh node =>
      let (encoded, db, hc) := commitNode hp node pfx db hc
      if encoded.length ≥ hp.hashLen then
        let (db, hash) := dbInsert hp db pfx encoded
        (.hashRef hash, db, hc + 1)
      else
        -- cram the data into a hash-sized buffer and tag with length
        let buf := encoded ++ List.replicate (hp.hashLen - encoded.length) 0
        (.inlineRef buf encoded.length, db, hc)
termination_by structural handle

/-- `Node::into_encoded` (lines 151-207) with the commit callback: encode
a node, committing its children. -/
def commitNode (hp : HParams) (node : MNode) (pfx : Nibbles) (db : DB)
    (hc : Nat) : Bytes × DB × Nat :=
  match node with
  | .empty => (emptyEnc, db, hc)
  | .leaf pk v => (leafEnc pk v, db, hc)
  | .ext pk child =>
    -- child_cb(child, Some(&pr), None)
    let (cr, db, hc) := commitChild hp child (pfx ++ pk) db hc
    (extEnc pk cr.slice, db, hc)
  | .branch children value =>
    -- child_cb(child, None, Some(i))
    let (slots, db, hc) := commitChildren hp children 0 none pfx db hc
    (branchEnc slots value, db, hc)
  | .nbranch pk children value =>
    -- child_cb(child, Some(&pr), Some(i))
    let (slots, db, hc) := commitChildren hp children 0 (some pk) pfx db hc
    (nbranchEnc pk slots value, db, hc)
termination_by structural node

/-- Commit the child slots of a branch in order, accumulating the encoded
child reference slices. -/
def commitChildren (hp : HParams) (cs : MChildren) (i : Nat)
    (pkeyOpt : Option Nibbles) (pfx : Nibbles) (db : DB) (hc : Nat) :
    List (Option Bytes) × DB × Nat :=
  match cs with
  | .nil => ([], db, hc)
  | .cons hd tl =>
    match hd with
    | none =>
      let (rest, db, hc) := commitChildren hp tl (i + 1) pkeyOpt pfx db hc
      (none :: rest, db, hc)
    | some child =>
      let childPfx := pfx ++ pkeyOpt.getD [] ++ [i]
      let (cr, db, hc) := commitChild hp child childPfx db hc
      let (rest, db, hc) := commitChildren hp tl (i + 1) pkeyOpt pfx db hc
      (some cr.slice :: rest, db, hc)
termination_by structural cs

end

/-! ## The trie facade

`TrieDBMut` state and the public operations (lines 337-386, 1155-1193,
1243-1314). -/

/-- The facade state: the borrowed backing store, the cached root hash
(`*self.root`), the root handle, the death row and the hash-operation
count.  The arena lives inside the handles. -/
structure TrieState where
  db : DB
  root : Bytes
  rootHandle : MHandle
  deathRow : List (Bytes × Nibbles)
  hashCount : Nat

/-- `TrieDBMut::new(db, root)` (lines 356-368). -/
def newTrie (hp : HParams) (db : DB) : TrieState :=
  { db := db
    root := hashedNull hp
    rootHandle := .hashed (hashedNull hp)
    deathRow := []
    hashCount := 0 }

/-- `TrieDBMut::from_existing(db, root)` (lines 372-386). -/
def fromExisting (hp : HParams) (db : DB) (root : Bytes) :
    Except TErr TrieState :=
  if ¬ dbContains hp db root [] then .error (.invalidStateRoot root)
  else
    .ok { db := db
          root := root
          rootHandle := .hashed root
          deathRow := []
          hashCount := 0 }

/-- `TrieDBMut::commit()` (lines 1155-1193). -/
def commitOp (hp : HParams) (s : TrieState) : TrieState :=
  -- always kill all the nodes on death row
  let db := s.deathRow.foldl (fun db e => dbRemove hp db e.1 e.2) s.db
  match s.rootHandle with
  | .hashed h =>
    -- no changes necessary
    { s with db := db, deathRow := [], rootHandle := .hashed h }
  | .inMem stored =>
    match stored with
    | .fresh node =>
      let (encodedRoot, db, hc) := commitNode hp node [] db s.hashCount
      let (db, newRoot) := dbInsert hp db [] encodedRoot
      { db := db
        root := newRoot
        rootHandle := .hashed newRoot
        deathRow := []
        hashCount := hc + 1 }
    | .cached node hash =>
      -- probably won't happen, but update the root and move on
      { s with db := db
               deathRow := []
               root := hash
               rootHandle := .inMem (.cached node hash) }

/-- `TrieMut::root()` (lines 1247-1250): commit, then the cached root. -/
def rootOp (hp : HParams) (s : TrieState) : Bytes × TrieState :=
  let s := commitOp hp s
  (s.root, s)

/-- `TrieMut::is_empty()` (lines 1252-1260). -/
def isEmptyOp (hp : HParams) (s : TrieState) : Bool :=
  match s.rootHandle with
  | .hashed h => h = hashedNull hp
  | .inMem st =>
    match st.node with
    | .empty => true
    | _ => false

/-- Fuel passed by the public operations: generous in the key length. -/
def opFuel (key : Bytes) : Nat := 4 * (keyNibbles key).length + 16

/-- `TrieMut::get(key)` (lines 1262-1266). -/
def getOp (hp : HParams) (s : TrieState) (key : Bytes) :
    Except TErr (Option Bytes) :=
  lookupMem hp (opFuel key) s.db s.rootHandle (FullKey.ofNibbles (keyNibbles key))

mutual

/-- `TrieMut::insert(key, value)` (lines 1268-1289): an empty value
routes to `remove`. -/
def insertOp (hp : HParams) (useExt : Bool) (s : TrieState) (key value : Bytes) :
    Except TErr (Option Bytes × TrieState) :=
  if value.isEmpty then removeOp hp useExt s key
  else do
    let c : Ctx := { db := s.db, dr := s.deathRow, oldVal := none }
    let (newHandle, _changed, _key, c) ←
      insertAt hp useExt (opFuel key) c s.rootHandle
        (FullKey.ofNibbles (keyNibbles key)) value
    .ok (c.oldVal, { s with rootHandle := newHandle, deathRow := c.dr })

/-- `TrieMut::remove(key)` (lines 1291-1314). -/
def removeOp (hp : HParams) (useExt : Bool) (s : TrieState) (key : Bytes) :
    Except TErr (Option Bytes × TrieState) := do
  let c : Ctx := { db := s.db, dr := s.deathRow, oldVal := none }
  let (res, _key, c) ←
    removeAt hp useExt (opFuel key) c s.rootHandle
      (FullKey.ofNibbles (keyNibbles key))
  match res with
  | some (handle, _changed) =>
    .ok (c.oldVal, { s with rootHandle := handle, deathRow := c.dr })
  | none =>
    -- obliterated trie
    .ok (c.oldVal,
      { s with rootHandle := .hashed (hashedNull hp)
               root := hashedNull hp
               deathRow := c.dr })

end

/-! ## Operation sequences and their abstract semantics -/

/-- One public mutation. -/
inductive Op : Type
  | ins (k v : Bytes)
  | rem (k : Bytes)
deriving DecidableEq, Repr

/-- Apply one mutation, discarding the returned old value. -/
def applyOp (hp : HParams) (useExt : Bool) (s : TrieState) : Op →
    Except TErr TrieState
  | .ins k v => (insertOp hp useExt s k v).map (·.2)
  | .rem k => (removeOp hp useExt s k).map (·.2)

/-- Run a sequence of mutations from a fresh trie over `db`. -/
def runOps (hp : HParams) (useExt : Bool) (db : DB) (ops : List Op) :
    Except TErr TrieState :=
  ops.foldlM (applyOp hp useExt) (newTrie hp db)

/-- The abstract key-value map of a mutation sequence: `insert` with a
non-empty value binds the key, `insert` with an empty value and `remove`
erase it. -/
def specMapStep (m : Bytes → Option Bytes) : Op → (Bytes → Option Bytes)
  | .ins k v =>
    if v = [] then fun x => if x = k then none else m x
    else fun x => if x = k then some v else m x
  | .rem k => fun x => if x = k then none else m x

/-- The abstract key-value map after a whole sequence. -/
def specMap (ops : List Op) : Bytes → Option Bytes :=
  ops.foldl specMapStep (fun _ => none)

/-! ## The reachable set of the backing store

The spec speaks of "the backing store's reachable set from a root": the
`(hash, prefix)` entries of the store reachable from the root hash by
decoding nodes and following hashed children along their path prefixes.
The hashed null node is resolved specially by the store and is not an
entry. -/

mutual

/-- Entries of the backing store reachable from `(h, pfx)`. -/
def reachSet (hp : HParams) (fuel : Nat) (db : DB) (h : Bytes)
    (pfx : Nibbles) : List (Bytes × Nibbles) :=
  match fuel with
  | 0 => []
  | fuel + 1 =>
    let self : List (Bytes × Nibbles) :=
      if h = hashedNull hp then []
      else
        match dbFind db (h, pfx) with
        | some e => if e.rc > 0 then [(h, pfx)] else []
        | none => []
    match dbGet hp db h pfx with
    | none => self
    | some data => self ++ reachNode hp fuel db (fromEncoded hp data.length data) pfx
termination_by structural fuel

/-- Reachable entries below one decoded node at path `pfx`. -/
def reachNode (hp : HParams) (fuel : Nat) (db : DB) (node : MNode)
    (pfx : Nibbles) : List (Bytes × Nibbles) :=
  match fuel with
  | 0 => []
  | fuel + 1 =>
    match node with
    | .empty => []
    | .leaf _ _ => []
    | .ext pk child => reachHandle hp fuel db child (pfx ++ pk)
    | .branch cs _ => reachChildren hp fuel db cs 0 [] pfx
    | .nbranch pk cs _ => reachChildren hp fuel db cs 0 pk pfx
termination_by structural fuel

/-- Reachable entries below the child slots of a branch. -/
def reachChildren (hp : HParams) (fuel : Nat) (db : DB) (cs : MChildren)
    (i : Nat) (pk : Nibbles) (pfx : Nibbles) : List (Bytes × Nibbles) :=
  match fuel with
  | 0 => []
  | fuel + 1 =>
    match cs with
    | .nil => []
    | .cons hd tl =>
      (match hd with
       | none => []
       | some child => reachHandle hp fuel db child (pfx ++ pk ++ [i])) ++
      reachChildren hp fuel db tl (i + 1) pk pfx
termination_by structural fuel

/-- Reachable entries below one child handle. -/
def reachHandle (hp : HParams) (fuel : Nat) (db : DB) (handle : MHandle)
    (pfx : Nibbles) : List (Bytes × Nibbles) :=
  match fuel with
  | 0 => []
  | fuel + 1 =>
    match handle with
    | .hashed h => reachSet hp fuel db h pfx
    | .inMem s =>
      match s with
      | .fresh n => reachNode hp fuel db n pfx
      | .cached n _ => reachNode hp fuel db n pfx
termination_by structural fuel

end

/-! ## Semantics of in-memory trees

The key-value map represented by an in-memory node, over nibble keys.
Used to state correctness of the mutation engine. -/

mutual

/-- The value stored under nibble key `ks` in the subtree rooted at a
node. -/
def semN : MNode → Nibbles → Option Bytes
  | .empty, _ => none
  | .leaf k v, ks => if ks = k then some v else none
  | .ext k c, ks => if k.isPrefixOf ks then semH c (ks.drop k.length) else none
  | .branch cs v, ks =>
    match ks with
    | [] => v
    | n :: rest => semC cs n rest
  | .nbranch k cs v, ks =>
    if k.isPrefixOf ks then
      match ks.drop k.length with
      | [] => v
      | n :: rest => semC cs n rest
    else none
termination_by structural n _ => n

/-- The value stored under `n :: rest` across the child slots. -/
def semC : MChildren → Nat → Nibbles → Option Bytes
  | .nil, _, _ => none
  | .cons hd _, 0, ks =>
    match hd with
    | some h => semH h ks
    | none => none
  | .cons _ tl, n + 1, ks => semC tl n ks
termination_by structural cs _ _ => cs

/-- The value stored under `ks` below a handle (hashes resolve to
nothing: the in-memory semantics). -/
def semH : MHandle → Nibbles → Option Bytes
  | .inMem (.fresh n), ks => semN n ks
  | .inMem (.cached n _), ks => semN n ks
  | .hashed _, _ => none
termination_by structural h _ => h

end

/-! ## Canonical in-memory trees

The structural invariants of a reachable, fully in-memory (`New`) trie:
nonempty values, branch arity (≥ 2 children, or ≥ 1 child plus value),
extensions with nonempty partials whose child is a branch, layout
discipline (`Branch`/`Extension` only with extensions, `NibbledBranch`
only without), 16 child slots, and partial-key nibbles in range. -/

/-- Number of child slots. -/
def MChildren.len : MChildren → Nat
  | .nil => 0
  | .cons _ tl => tl.len + 1

/-- Number of occupied child slots. -/
def countC : MChildren → Nat
  | .nil => 0
  | .cons none tl => countC tl
  | .cons (some _) tl => countC tl + 1

/-- A stored optional value is absent or nonempty. -/
def valOk : Option Bytes → Bool
  | none => true
  | some v => !v.isEmpty

/-- All nibbles in range. -/
def nibsOkB (ns : Nibbles) : Bool := ns.all (fun n => n < 16)

/-- The handle resolves to an in-memory `New` branch node. -/
def isBranchH : MHandle → Bool
  | .inMem (.fresh (.branch _ _)) => true
  | _ => false

mutual

/-- Canonical nonempty in-memory subtree (layout `useExt`). -/
def canonN (useExt : Bool) : MNode → Bool
  | .empty => false
  | .leaf k v => nibsOkB k && !v.isEmpty
  | .ext k c => useExt && nibsOkB k && !k.isEmpty && isBranchH c && canonH useExt c
  | .branch cs v =>
    useExt && cs.len = 16 && canonC useExt cs && valOk v &&
      (2 ≤ countC cs || (1 ≤ countC cs && v.isSome))
  | .nbranch k cs v =>
    !useExt && nibsOkB k && cs.len = 16 && canonC useExt cs && valOk v &&
      (2 ≤ countC cs || (1 ≤ countC cs && v.isSome))
termination_by structural n => n

/-- All present child slots are canonical. -/
def canonC (useExt : Bool) : MChildren → Bool
  | .nil => true
  | .cons none tl => canonC useExt tl
  | .cons (some h) tl => canonH useExt h && canonC useExt tl
termination_by structural cs => cs

/-- A canonical child handle: in-memory, `New`, canonical subtree. -/
def canonH (useExt : Bool) : MHandle → Bool
  | .inMem (.fresh n) => canonN useExt n
  | _ => false
termination_by structural h => h

end

/-- The in-memory map at the root of the facade. -/
def rootSem (s : TrieState) : Nibbles → Option Bytes :=
  match s.rootHandle with
  | .inMem st => semN st.node
  | .hashed _ => fun _ => none

/-- Keys of mutations are byte strings (`u8`). -/
def opWF : Op → Prop
  | .ins k _ => ∀ b ∈ k, b < 256
  | .rem k => ∀ b ∈ k, b < 256

/-- Every key inserted (with any value) is subsequently removed, by a
later `remove` or a later empty-value `insert`. -/
def allInsRemoved (ops : List Op) : Prop :=
  ∀ i k v, ops.get? i = some (.ins k v) →
    ∃ j, i < j ∧ (ops.get? j = some (.rem k) ∨ ops.get? j = some (.ins k []))

/-! ## Concrete instances for counterexamples and witnesses

A concrete hasher: injective, with the fixed output length 32 (bytes of
the model are unbounded naturals, so one element can carry the whole
digest). -/

/-- A concrete injective hash with output length 32. -/
def cHash (b : Bytes) : Bytes :=
  (b.foldl (fun a x => a * 257 + x + 1) 1) :: List.replicate 31 0

/-- Concrete hasher parameters for concrete runs. -/
def cHP : HParams := { hashF := cHash, hashLen := 32 }

/-- C1/C4 failing run: two inserts in the extension-free layout whose
common prefix makes the root a `NibbledBranch` with a nonempty partial
key. -/
def c1Ops : List Op := [.ins [0x01, 0x23] [7], .ins [0x01, 0x34] [8]]

/-- The state after the C1 run. -/
def c1State : TrieState :=
  match runOps cHP false [] c1Ops with
  | .ok s => s
  | .error _ => newTrie cHP []

/-- The in-memory `NibbledBranch` root node the C1/C4 run produces. -/
def c4Node : MNode :=
  .nbranch [0, 1]
    ((emptyChildren.set 2 (some (.inMem (.fresh (.leaf [3] [7]))))).set 3
      (some (.inMem (.fresh (.leaf [4] [8])))))
    none

/-- C2 failing runs: two mutation sequences with the same abstract
key-value map (`remove` of the never-inserted empty key is a map no-op)
but different committed roots in the extension-free layout. -/
def c2OpsA : List Op := [.ins [0x11] [5], .ins [0x11, 0x22] [6], .rem []]

/-- The second C2 sequence: the same inserts, no `remove`. -/
def c2OpsB : List Op := [.ins [0x11] [5], .ins [0x11, 0x22] [6]]

/-- Committed root of a run (null trie on error, not reached here). -/
def runRoot (useExt : Bool) (ops : List Op) : Bytes :=
  match runOps cHP useExt [] ops with
  | .ok s => (rootOp cHP s).1
  | .error _ => []

/-- C7 failing run: insert, commit, then re-insert the identical pair;
the root slot is then a `Cached` node. -/
def c7State : Except TErr TrieState := do
  let s ← runOps cHP true [] [.ins [0x01, 0x23] [7, 8]]
  let s := commitOp cHP s
  let (_, s) ← insertOp cHP true s [0x01, 0x23] [7, 8]
  pure s

/-! ## Auxiliary notions for the removal-restores-null argument (C5)

Weak canonicity (`canonW`) drops the branch-arity requirement: it is what
`fix` receives and repairs.  `goesBranch` marks the node/key combinations
on which `insert_inspector` is guaranteed to produce a `Branch` node (the
shape fact behind the `Extension` invariant).  `nibStep` is the abstract
key-value map over nibble keys, `rootInv` the run invariant: the root is
the hashed null node, or a fresh canonical tree whose bindings are all
present in the abstract map. -/

/-- The node is a `Branch`. -/
def isBr : MNode → Bool
  | .branch _ _ => true
  | _ => false

/-- Canonicity without the branch-arity bound (the state `fix` repairs). -/
def canonW (useExt : Bool) : MNode → Bool
  | .empty => false
  | .leaf k v => nibsOkB k && !v.isEmpty
  | .ext k c => useExt && nibsOkB k && !k.isEmpty && canonH useExt c
  | .branch cs v => useExt && cs.len = 16 && canonC useExt cs && valOk v
  | .nbranch k cs v =>
    !useExt && nibsOkB k && cs.len = 16 && canonC useExt cs && valOk v

/-- Node/key combinations on which `insert_inspector` yields a `Branch`. -/
def goesBranch (useExt : Bool) (n : MNode) (pk : Nibbles) : Bool :=
  match n with
  | .leaf ek _ => useExt && (commonPrefixLen pk ek == 0) && !ek.isEmpty
  | .ext ek _ => (commonPrefixLen pk ek == 0) && !ek.isEmpty
  | .branch _ _ => true
  | _ => false

mutual

/-- Structural size of a node (for strong induction over subtrees). -/
def sizeN : MNode → Nat
  | .empty => 0
  | .leaf _ _ => 0
  | .ext _ c => sizeH c + 1
  | .branch cs _ => sizeC cs + 1
  | .nbranch _ cs _ => sizeC cs + 1
termination_by structural n => n

/-- Structural size of the child slots. -/
def sizeC : MChildren → Nat
  | .nil => 0
  | .cons none tl => sizeC tl
  | .cons (some h) tl => sizeH h + sizeC tl + 1
termination_by structural cs => cs

/-- Structural size below a handle. -/
def sizeH : MHandle → Nat
  | .inMem (.fresh n) => sizeN n + 1
  | .inMem (.cached n _) => sizeN n + 1
  | .hashed _ => 0
termination_by structural h => h

end

/-- One mutation applied to the abstract map over nibble keys. -/
def nibStep (m : Nibbles → Option Bytes) : Op → (Nibbles → Option Bytes)
  | .ins k v =>
    if v = [] then fun ks => if ks = keyNibbles k then none else m ks
    else fun ks => if ks = keyNibbles k then some v else m ks
  | .rem k => fun ks => if ks = keyNibbles k then none else m ks

/-- The mutation binds or erases this nibble key. -/
def opTouches : Op → Nibbles → Prop
  | .ins k _, ks => keyNibbles k = ks
  | .rem k, ks => keyNibbles k = ks

/-- Invariant of a mutation run from a fresh trie: the root is the hashed
null node, or a fresh canonical in-memory tree all of whose bound keys the
abstract map `m` also binds. -/
def rootInv (hp : HParams) (useExt : Bool) (m : Nibbles → Option Bytes)
    (s : TrieState) : Prop :=
  (s.root = hashedNull hp ∧ s.rootHandle = .hashed (hashedNull hp)) ∨
  (∃ n, s.rootHandle = .inMem (.fresh n) ∧ canonN useExt n = true ∧
    ∀ ks w, semN n ks = some w → (m ks).isSome = true)

/-- Correctness of one `remove_inspector` outcome on input `n0` and
remaining key `pk`: a kept node is canonical, binds a subset of the input
bindings, no longer binds `pk`, and if it was restored it kept the
`Branch` constructor. -/
def remActOk (useExt : Bool) (n0 : MNode) (pk : Nibbles) : Action → Prop
  | .delete => True
  | .replace n2 => canonN useExt n2 = true ∧
      (∀ ks w, semN n2 ks = some w → semN n0 ks = some w) ∧ semN n2 pk = none
  | .restore n2 => canonN useExt n2 = true ∧
      (∀ ks w, semN n2 ks = some w → semN n0 ks = some w) ∧ semN n2 pk = none ∧
      (isBr n0 = true → isBr n2 = true)

/-- Correctness of one `insert_inspector` outcome on input `n0`, remaining
key `pk` and value `value`: the result is canonical, every binding is the
new one or an old one, and on `goesBranch` inputs it is a `Branch`. -/
def insResOk (useExt : Bool) (n0 : MNode) (pk : Nibbles) (value : Bytes)
    (n2 : MNode) : Prop :=
  canonN useExt n2 = true ∧
  (∀ ks w, semN n2 ks = some w → (ks = pk ∧ w = value) ∨ semN n0 ks = some w) ∧
  (goesBranch useExt n0 pk = true → isBr n2 = true)


/-- The mutation erases this nibble key in the abstract map. -/
def opErases : Op → Nibbles → Prop
  | .ins k v, ks => keyNibbles k = ks ∧ v = []
  | .rem k, ks => keyNibbles k = ks


/-- A concrete mutation sequence that removes everything it inserts. -/
def c5Ops : List Op := [.ins [17] [5], .rem [17]]

/-- The state produced by running `c5Ops` from a fresh trie over an empty
backing store. -/
def c5State : TrieState :=
  { db := []
    root := hashedNull cHP
    rootHandle := .hashed (hashedNull cHP)
    deathRow := [(hashedNull cHP, [])]
    hashCount := 0 }


/-! # Theorems -/

/-- The hash a backing-store insert files the data under is the hash of
the data (the store chooses the hash via the configured hasher; inserting
the empty-node encoding yields the hashed null node, which is its hash). -/
theorem dbInsert_snd (hp : HParams) (db : DB) (pfx : Nibbles) (data : Bytes) :
    (dbInsert hp db pfx data).2 = hp.hashF data := by
  unfold dbInsert
  split
  · next h => simp [hashedNull, h]
  · show (match dbFind db (hp.hashF data, pfx) with
      | some e => (dbSet db (hp.hashF data, pfx) ⟨data, e.rc + 1⟩, hp.hashF data)
      | none => (dbSet db (hp.hashF data, pfx) ⟨data, 1⟩, hp.hashF data)).2 = hp.hashF data
    rcases dbFind db (hp.hashF data, pfx) with _ | e <;> rfl

/-- **C3.** For every key and every trie state, `insert(key, value)` with
an empty value is observationally equivalent to `remove(key)`: the same
value is returned and the resulting trie state (root handle, arena, death
row) is the same — `insert` routes an empty value to `remove`. -/
theorem insert_empty_value_eq_remove (hp : HParams) (useExt : Bool)
    (s : TrieState) (key : Bytes) :
    insertOp hp useExt s key [] = removeOp hp useExt s key := by
  rw [insertOp]
  rfl

/-- **C8.** `from_existing(db, root)` fails with `InvalidStateRoot(root)`
exactly when the backing store does not contain `root` under
`EMPTY_PREFIX`; on success the trie has the given hash as root handle and
nothing staged (empty arena contents and empty death row). -/
theorem fromExisting_invalid_iff (hp : HParams) (db : DB) (root : Bytes) :
    (fromExisting hp db root = .error (.invalidStateRoot root) ↔
      dbContains hp db root [] = false)
    ∧ (dbContains hp db root [] = true →
        fromExisting hp db root =
          .ok { db := db, root := root, rootHandle := .hashed root,
                deathRow := [], hashCount := 0 }) := by
  unfold fromExisting
  constructor
  · constructor
    · intro h
      by_contra hc
      simp at hc
      simp [hc] at h
    · intro h
      simp [h]
  · intro h
    simp [h]

/-- **C6.** During commit, a newly encoded child is embedded inline
exactly when its encoded length is strictly less than the hash output
length, the bytes being packed zero-padded into a hash-sized buffer
together with their length; otherwise the bytes are inserted into the
backing store under `(hash(bytes), current_path_prefix)` and the child is
referenced by that hash.  Children that already have an identity (hash
handles, cached slots) are referenced by their hash and are never
inlined. -/
theorem commitChild_inline_rule (hp : HParams) (node : MNode) (pfx : Nibbles)
    (db : DB) (hc : Nat) :
    (commitChild hp (.inMem (.fresh node)) pfx db hc =
      (let r := commitNode hp node pfx db hc
       if r.1.length < hp.hashLen
       then (.inlineRef (r.1 ++ List.replicate (hp.hashLen - r.1.length) 0)
              r.1.length, r.2.1, r.2.2)
       else (.hashRef (hp.hashF r.1), (dbInsert hp r.2.1 pfx r.1).1, r.2.2 + 1)))
    ∧ (∀ h, commitChild hp (.hashed h) pfx db hc = (.hashRef h, db, hc))
    ∧ (∀ n h, commitChild hp (.inMem (.cached n h)) pfx db hc =
        (.hashRef h, db, hc)) := by
  refine ⟨?_, fun _ => rfl, fun _ _ => rfl⟩
  rw [commitChild]
  rcases hr : commitNode hp node pfx db hc with ⟨enc, db1, hc1⟩
  by_cases hlen : enc.length ≥ hp.hashLen
  · simp only [hlen, if_true, Nat.not_lt.mpr hlen, if_false]
    rcases hd : dbInsert hp db1 pfx enc with ⟨db2, hh⟩
    have := dbInsert_snd hp db1 pfx enc
    rw [hd] at this
    simp at this
    simp [Nat.not_lt.mpr hlen, this]
  · simp [hlen, Nat.lt_of_not_le hlen]

/-! ## The in-memory lookup bug (C1, C4)

In the extension-free layout, the in-memory walk of `TrieDBMut::lookup`
(lines 472-485) takes the child index from the first nibble of the
remaining key, `partial.at(0)`, instead of the nibble after the node's
prefix, and tests `partial.is_empty()` before matching the prefix.  A key
that was inserted and sits below a `NibbledBranch` with a nonempty
partial key therefore misses. -/

/-- **C4.** Counterexample to the claimed `NibbledBranch` descent: for
the in-memory node `NibbledBranch([0,1], {2 ↦ Leaf([3],[7]), 3 ↦
Leaf([4],[8])}, None)` and remaining key `[0,1,2,3]`, the remaining key
starts with the prefix and the child at the next nibble (2) holds the
value `[7]` at the rest of the key — the spec-modelled walk returns
`Some [7]` — but the source walk consults the child at nibble
`partial.at(0) = 0` and returns `None`. -/
theorem c4_nibbled_branch_lookup_diverges :
    List.isPrefixOf [0, 1] [0, 1, 2, 3] = true
    ∧ semN c4Node [0, 1, 2, 3] = some [7]
    ∧ specWalk cHP 40 [] c4Node (FullKey.ofNibbles [0, 1, 2, 3]) =
        .ok (some [7])
    ∧ lookupMemNode cHP 40 [] c4Node (FullKey.ofNibbles [0, 1, 2, 3]) =
        .ok none := by
  exact ⟨rfl, rfl, rfl, rfl⟩

/-- **C1.** Counterexample: in the extension-free layout, after the two
inserts `0x0123 ↦ [7]` and `0x0134 ↦ [8]` (so `0x0123` was inserted with
a non-empty value and never removed or overwritten — its abstract map
value is `[7]`), `get(0x0123)` returns `Ok(None)` instead of
`Ok(Some [7]))`: the run reaches the in-memory `NibbledBranch` root and
the walk of lines 472-485 follows the wrong child slot. -/
theorem c1_get_misses_inserted_key :
    runOps cHP false [] c1Ops = .ok c1State
    ∧ c1State.rootHandle = .inMem (.fresh c4Node)
    ∧ specMap c1Ops [0x01, 0x23] = some [7]
    ∧ getOp cHP c1State [0x01, 0x23] = .ok none := by
  exact ⟨rfl, rfl, rfl, rfl⟩

/-! ## Removal ignores the `NibbledBranch` prefix on an empty remaining
key (C2)

`remove_inspector` (line 807) removes the value of a `NibbledBranch` as
soon as the remaining key is empty, without requiring the node's partial
key to be empty; removing the never-inserted empty key therefore deletes
the value of the key `path ++ prefix`.  Two operation sequences with the
same abstract key-value map then commit different roots. -/

/-- **C2.** Counterexample: the sequences `[insert 0x11 ↦ [5], insert
0x1122 ↦ [6], remove ""]` and `[insert 0x11 ↦ [5], insert 0x1122 ↦ [6]]`
lead to the same abstract key-value set (the empty key was never bound),
but in the extension-free layout their committed roots differ: the
`remove ""` deletes the value of key `0x11` stored on the root
`NibbledBranch` (whose partial key `[1,1]` is not empty), which also
makes `get(0x11)` return `Ok(None)`. -/
theorem c2_commit_root_depends_on_order :
    specMap c2OpsA = specMap c2OpsB
    ∧ runRoot false c2OpsA ≠ runRoot false c2OpsB
    ∧ (∃ s, runOps cHP false [] c2OpsA = .ok s ∧
        getOp cHP s [0x11] = .ok none ∧ specMap c2OpsA [0x11] = some [5]) := by
  refine ⟨?_, by decide, ?_⟩
  · funext x
    simp only [specMap, c2OpsA, c2OpsB, specMapStep, List.foldl]
    split
    · next h =>
      subst h
      rfl
    · rfl
  · refine ⟨(runOps cHP false [] c2OpsA).toOption.getD (newTrie cHP []), ?_, ?_, ?_⟩
    · rfl
    · rfl
    · rfl

/-! ## The root handle after mutations (C7) -/

/-- A changed result of `inspect` is always a `New` slot (`Replace` is the
only action reporting `changed`, and it always yields `Stored::New`). -/
theorem inspect_changed_fresh {stored : MStored} {key : FullKey} {c : Ctx}
    {f : MNode → FullKey → Ctx → Except TErr (Action × FullKey × Ctx)}
    {st : MStored} {k' : FullKey} {c' : Ctx}
    (h : inspect stored key c f = .ok (some (st, true), k', c')) :
    ∃ n, st = .fresh n := by
  rcases stored with node | ⟨node, hh⟩ <;>
  · simp only [inspect] at h
    rcases hf : f node key c with e | ⟨act, k2, c2⟩ <;> rw [hf] at h
    · simp [bind, Except.bind] at h
    · rcases act with n | n | _ <;> simp [bind, Except.bind, pure, Except.pure] at h <;>
        exact ⟨n, h.1.symm⟩

/-- An insert that changed the trie allocates the new root as a `New`
slot. -/
theorem insertAt_changed_fresh {hp : HParams} {useExt : Bool} {fuel : Nat}
    {c : Ctx} {handle : MHandle} {key : FullKey} {value : Bytes}
    {nh : MHandle} {k' : FullKey} {c' : Ctx}
    (h : insertAt hp useExt fuel c handle key value = .ok (nh, true, k', c')) :
    ∃ n, nh = .inMem (.fresh n) := by
  match fuel with
  | 0 => simp [insertAt] at h
  | fuel + 1 =>
    rcases handle with s | hh <;> (rw [insertAt.eq_def] at h; dsimp only at h)
    · rw [show (pure s : Except TErr MStored) = .ok s from rfl] at h
      simp only [bind, Except.bind] at h
      rcases hi : inspect s key c _ with e | ⟨res, k2, c2⟩ <;> rw [hi] at h
      · simp at h
      · rcases res with _ | ⟨newStored, changed⟩
        · simp at h
        · simp [pure, Except.pure] at h
          obtain ⟨rfl, hch, rfl, rfl⟩ := h
          obtain ⟨n, hn⟩ := inspect_changed_fresh (hch ▸ hi)
          exact ⟨n, by rw [hn]⟩
    · simp only [bind, Except.bind] at h
      rcases hc2 : cache hp c.db hh key.left with e | stored <;> rw [hc2] at h
      · simp at h
      · dsimp only at h
        rcases hi : inspect stored key c _ with e | ⟨res, k2, c2⟩ <;> rw [hi] at h
        · simp at h
        · rcases res with _ | ⟨newStored, changed⟩
          · simp at h
          · simp [pure, Except.pure] at h
            obtain ⟨rfl, hch, rfl, rfl⟩ := h
            obtain ⟨n, hn⟩ := inspect_changed_fresh (hch ▸ hi)
            exact ⟨n, by rw [hn]⟩

/-- A remove that changed the trie (and kept it nonempty) allocates the
new root as a `New` slot. -/
theorem removeAt_changed_fresh {hp : HParams} {useExt : Bool} {fuel : Nat}
    {c : Ctx} {handle : MHandle} {key : FullKey}
    {nh : MHandle} {k' : FullKey} {c' : Ctx}
    (h : removeAt hp useExt fuel c handle key = .ok (some (nh, true), k', c')) :
    ∃ n, nh = .inMem (.fresh n) := by
  match fuel with
  | 0 => simp [removeAt] at h
  | fuel + 1 =>
    rcases handle with s | hh <;> (rw [removeAt.eq_def] at h; dsimp only at h)
    · rw [show (pure s : Except TErr MStored) = .ok s from rfl] at h
      simp only [bind, Except.bind] at h
      rcases hi : inspect s key c _ with e | ⟨res, k2, c2⟩ <;> rw [hi] at h
      · simp at h
      · rcases res with _ | ⟨newStored, changed⟩ <;>
          simp [pure, Except.pure] at h
        obtain ⟨⟨hns, hch⟩, rfl, rfl⟩ := h
        obtain ⟨n, hn⟩ := inspect_changed_fresh (hch ▸ hi)
        exact ⟨n, by rw [← hns, hn]⟩
    · simp only [bind, Except.bind] at h
      rcases hc2 : cache hp c.db hh key.left with e | stored <;> rw [hc2] at h
      · simp at h
      · dsimp only at h
        rcases hi : inspect stored key c _ with e | ⟨res, k2, c2⟩ <;> rw [hi] at h
        · simp at h
        · rcases res with _ | ⟨newStored, changed⟩ <;>
            simp [pure, Except.pure] at h
          obtain ⟨⟨hns, hch⟩, rfl, rfl⟩ := h
          obtain ⟨n, hn⟩ := inspect_changed_fresh (hch ▸ hi)
          exact ⟨n, by rw [← hns, hn]⟩

/-- **C7.** Counterexample: inserting `0x0123 ↦ [7,8]`, committing, and
re-inserting the identical pair is a sequence of public operations after
which the root handle is an arena index to a `Cached` slot (the cached
root was restored unchanged), refuting "it is never an arena index to a
Cached slot". -/
theorem c7_root_handle_cached_counterexample :
    c7State.map (fun s => s.rootHandle) =
      .ok (.inMem (.cached (.leaf [0, 1, 2, 3] [7, 8])
        (cHash (leafEnc [0, 1, 2, 3] [7, 8])))) := by
  rfl

/-- **C7, amended.** The root handle is a hash after `new` and
`from_existing`; after any insert or remove that reports the trie
changed, it is an arena index to a `New` slot; `commit` leaves a hash
except when the root slot was `Cached` (a cached root restored
unchanged), which it re-allocates as the same `Cached` slot. -/
theorem c7_amended_root_handle :
    (∀ (hp : HParams) (db : DB),
      (newTrie hp db).rootHandle = .hashed (hashedNull hp))
    ∧ (∀ (hp : HParams) (db : DB) (root : Bytes) (s : TrieState),
        fromExisting hp db root = .ok s → s.rootHandle = .hashed root)
    ∧ (∀ (hp : HParams) (useExt : Bool) (fuel : Nat) (c : Ctx)
        (handle : MHandle) (key : FullKey) (value : Bytes) (nh : MHandle)
        (k' : FullKey) (c' : Ctx),
        insertAt hp useExt fuel c handle key value = .ok (nh, true, k', c') →
        ∃ n, nh = .inMem (.fresh n))
    ∧ (∀ (hp : HParams) (useExt : Bool) (fuel : Nat) (c : Ctx)
        (handle : MHandle) (key : FullKey) (nh : MHandle)
        (k' : FullKey) (c' : Ctx),
        removeAt hp useExt fuel c handle key = .ok (some (nh, true), k', c') →
        ∃ n, nh = .inMem (.fresh n))
    ∧ (∀ (hp : HParams) (s : TrieState),
        (∃ h, (commitOp hp s).rootHandle = .hashed h) ∨
        (∃ n h, s.rootHandle = .inMem (.cached n h) ∧
          (commitOp hp s).rootHandle = .inMem (.cached n h))) := by
  refine ⟨fun _ _ => rfl, ?_, ?_, ?_, ?_⟩
  · intro hp db root s h
    unfold fromExisting at h
    split at h
    · cases h
    · cases h
      rfl
  · intro _ _ _ _ _ _ _ _ _ _ h
    exact insertAt_changed_fresh h
  · intro _ _ _ _ _ _ _ _ _ h
    exact removeAt_changed_fresh h
  · intro hp s
    rcases s with ⟨db, root, handle, dr, hc⟩
    rcases handle with st | h
    · rcases st with n | ⟨n, h⟩
      · exact .inl ⟨_, rfl⟩
      · exact .inr ⟨n, h, rfl, rfl⟩
    · exact .inl ⟨h, rfl⟩

/-! ## Insertion never deletes (C10) -/

/-- Bind propagates non-errors. -/
theorem bind_ne {α β : Type} {x : Except TErr α} {f : α → Except TErr β}
    {bad : TErr} (hx : x ≠ .error bad)
    (hf : ∀ a, x = .ok a → f a ≠ .error bad) : (x >>= f) ≠ .error bad := by
  rcases x with e | a
  · simpa [bind, Except.bind] using hx
  · simpa [bind, Except.bind] using hf a rfl

/-- `cache` only fails with `IncompleteDatabase`. -/
theorem cache_ne {hp : HParams} {db : DB} {h : Bytes} {pfx : Nibbles}
    {bad : TErr} (hb : ∀ hh, bad ≠ .incompleteDatabase hh) :
    cache hp db h pfx ≠ .error bad := by
  unfold cache
  rcases dbGet hp db h pfx with _ | data
  · simp
    exact fun hc => (hb h hc.symm).elim
  · simp

/-- `inspect` errors only by propagating inspector errors. -/
theorem inspect_ne_err {stored : MStored} {key : FullKey} {c : Ctx}
    {f : MNode → FullKey → Ctx → Except TErr (Action × FullKey × Ctx)}
    {bad : TErr} (hf : ∀ n k c', f n k c' ≠ .error bad) :
    inspect stored key c f ≠ .error bad := by
  rcases stored with node | ⟨node, hh⟩ <;>
  · simp only [inspect]
    apply bind_ne (hf node key c)
    rintro ⟨act, k2, c2⟩ _
    rcases act with n | n | _ <;> simp [pure, Except.pure]

/-- `inspect` returns `None` only for a `Delete` action. -/
theorem inspect_insert_ne_none {stored : MStored} {key : FullKey} {c : Ctx}
    {f : MNode → FullKey → Ctx → Except TErr (Action × FullKey × Ctx)}
    (hf : ∀ n k c' act k2 c2, f n k c' = .ok (act, k2, c2) → act ≠ Action.delete)
    {k' : FullKey} {c' : Ctx} :
    inspect stored key c f ≠ .ok (none, k', c') := by
  rcases stored with node | ⟨node, hh⟩ <;>
  · simp only [inspect]
    intro h
    rcases hr : f node key c with e | ⟨act, k2, c2⟩ <;> rw [hr] at h
    · simp [bind, Except.bind] at h
    · have hd := hf node key c act k2 c2 hr
      rcases act with n | n | _ <;> simp [bind, Except.bind, pure, Except.pure] at h
      exact hd rfl

/-- Neither `insert_at` nor `insert_inspector` ever produces the
`"Insertion never deletes."` panic, at any fuel. -/
theorem insert_never_deletes_aux (hp : HParams) (useExt : Bool) : ∀ fuel,
    (∀ c handle key value,
      insertAt hp useExt fuel c handle key value ≠ .error .insertionNeverDeletes)
    ∧ (∀ c node key value,
      insertInspector hp useExt fuel c node key value ≠ .error .insertionNeverDeletes) := by
  intro fuel
  induction fuel with
  | zero =>
    constructor <;> (intro c x key value; simp [insertAt, insertInspector])
  | succ fuel ih =>
    obtain ⟨ihAt, ihIns⟩ := ih
    have hIns : ∀ c node key value,
        insertInspector hp useExt (fuel + 1) c node key value ≠
          .error .insertionNeverDeletes := by
      intro c node key value
      rcases node with _ | ⟨ek, sv⟩ | ⟨ek, cb⟩ | ⟨cs, sv⟩ | ⟨ek, cs, sv⟩ <;>
        (rw [insertInspector.eq_def]; dsimp only)
      · simp
      -- leaf
      · split
        · split <;> simp
        · split
          · apply bind_ne (ihIns _ _ _ _)
            rintro ⟨ia, k2, c2⟩ _
            simp
          · split
            · apply bind_ne (ihIns _ _ _ _)
              rintro ⟨ia, k2, c2⟩ _
              simp
            · split
              · apply bind_ne (ihIns _ _ _ _)
                rintro ⟨ia, k2, c2⟩ _
                simp
              · apply bind_ne (ihIns _ _ _ _)
                rintro ⟨ia, k2, c2⟩ _
                simp
      -- ext
      · split
        · split
          · simp
          · apply bind_ne (ihIns _ _ _ _)
            rintro ⟨ia, k2, c2⟩ _
            simp
        · split
          · apply bind_ne (ihAt _ _ _ _)
            rintro ⟨nh, ch, k2, c2⟩ _
            split <;> simp
          · apply bind_ne (ihIns _ _ _ _)
            rintro ⟨ia, k2, c2⟩ _
            simp
      -- branch
      · split
        · split <;> simp
        · split
          · apply bind_ne (ihAt _ _ _ _)
            rintro ⟨nh, ch, k2, c2⟩ _
            split <;> simp
          · simp
      -- nbranch
      · split
        · split <;> simp
        · split
          · split <;> simp
          · split
            · apply bind_ne (ihAt _ _ _ _)
              rintro ⟨nh, ch, k2, c2⟩ _
              split <;> simp
            · simp
    refine ⟨?_, hIns⟩
    intro c handle key value
    rcases handle with s | h <;> (rw [insertAt.eq_def]; dsimp only)
    · apply bind_ne (by simp [pure, Except.pure] :
        (pure s : Except TErr MStored) ≠ .error .insertionNeverDeletes)
      intro stored _
      apply bind_ne
      · apply inspect_ne_err
        intro n k cc
        apply bind_ne (ihIns _ _ _ _)
        rintro ⟨ia, k2, c2⟩ _
        simp [pure, Except.pure]
      · rintro ⟨res, k2, c2⟩ hok
        rcases res with _ | ⟨st, ch⟩
        · exact absurd hok (inspect_insert_ne_none (by
            rintro n k cc act k3 c3 hf
            rcases hact : insertInspector hp useExt fuel cc n k value with e | ⟨ia, k4, c4⟩ <;>
              rw [hact] at hf
            · simp [bind, Except.bind] at hf
            · simp [bind, Except.bind, pure, Except.pure] at hf
              rcases ia with n' | n' <;> simp [InsertAction.intoAction, ← hf.1]))
        · simp [pure, Except.pure]
    · apply bind_ne (cache_ne (by intro hh; simp))
      intro stored _
      apply bind_ne
      · apply inspect_ne_err
        intro n k cc
        apply bind_ne (ihIns _ _ _ _)
        rintro ⟨ia, k2, c2⟩ _
        simp [pure, Except.pure]
      · rintro ⟨res, k2, c2⟩ hok
        rcases res with _ | ⟨st, ch⟩
        · exact absurd hok (inspect_insert_ne_none (by
            rintro n k cc act k3 c3 hf
            rcases hact : insertInspector hp useExt fuel cc n k value with e | ⟨ia, k4, c4⟩ <;>
              rw [hact] at hf
            · simp [bind, Except.bind] at hf
            · simp [bind, Except.bind, pure, Except.pure] at hf
              rcases ia with n' | n' <;> simp [InsertAction.intoAction, ← hf.1]))
        · simp [pure, Except.pure]

/-- **C10.** For every key and value, `insert_at` never reaches the
`expect("Insertion never deletes.")` panic: `insert_inspector` produces
only `Replace`/`Restore` actions (never `Delete`), so the inner `inspect`
call never returns `None` and the embedded `insert_at` never produces the
corresponding error, at any fuel. -/
theorem c10_insert_never_deletes (hp : HParams) (useExt : Bool) (fuel : Nat)
    (c : Ctx) (handle : MHandle) (key : FullKey) (value : Bytes) :
    insertAt hp useExt fuel c handle key value ≠
      .error .insertionNeverDeletes :=
  (insert_never_deletes_aux hp useExt fuel).1 c handle key value

/-- Witness for C8: a store containing `[5]` under the empty prefix. -/
theorem c8_witness :
    dbContains cHP [(([5], []), ⟨[1], 1⟩)] [5] [] = true ∧
    fromExisting cHP [(([5], []), ⟨[1], 1⟩)] [5] =
      .ok { db := [(([5], []), ⟨[1], 1⟩)], root := [5],
            rootHandle := .hashed [5], deathRow := [], hashCount := 0 } :=
  ⟨by rfl, (fromExisting_invalid_iff cHP [(([5], []), ⟨[1], 1⟩)] [5]).2 (by rfl)⟩

/-- Witness for C7's amended theorem: a changing insert on an empty root
leaves a `New` slot. -/
theorem c7_amended_witness :
    ∃ n, MHandle.inMem (MStored.fresh (MNode.leaf [0, 1] [5])) =
      MHandle.inMem (MStored.fresh n) :=
  c7_amended_root_handle.2.2.1 cHP true 8 ⟨[], [], none⟩
    (.inMem (.fresh .empty)) ⟨[], [0, 1]⟩ [5]
    (.inMem (.fresh (.leaf [0, 1] [5]))) ⟨[], [0, 1]⟩ ⟨[], [], none⟩ (by rfl)

/-! ## Packed-key concatenation (C9) -/

theorem flat_length (bs : Bytes) :
    (bs.flatMap byteNibbles).length = 2 * bs.length := by
  induction bs with
  | nil => rfl
  | cons b tl ih => simp [byteNibbles, ih]; omega

theorem flat_lt (bs : Bytes) (h : ∀ b ∈ bs, b < 256) :
    ∀ n ∈ bs.flatMap byteNibbles, n < 16 := by
  induction bs with
  | nil => simp
  | cons b tl ih =>
    intro n hn
    have hb := h b (by simp)
    simp only [List.flatMap_cons, List.mem_append, byteNibbles] at hn
    rcases hn with hn | hn
    · simp at hn
      rcases hn with rfl | rfl <;> omega
    · exact ih (fun x hx => h x (by simp [hx])) n hn

theorem byteNibbles_pack (n m : Nat) (hn : n < 16) (hm : m < 16) :
    byteNibbles (n * 16 + m) = [n, m] := by
  rw [byteNibbles, show (n * 16 + m) / 16 = n by omega,
    show (n * 16 + m) % 16 = m by omega]

theorem packNibs_flat (ns : Nibbles) (h : ∀ n ∈ ns, n < 16) :
    (packNibs ns).flatMap byteNibbles =
      if ns.length % 2 = 0 then ns else ns ++ [0] := by
  induction ns using packNibs.induct with
  | case1 => rfl
  | case2 n =>
    have hn := h n (by simp)
    have h2 := byteNibbles_pack n 0 hn (by omega)
    simp at h2
    simp [packNibs, h2]
  | case3 n m rest ih =>
    have hn := h n (by simp)
    have hm := h m (by simp)
    have ih2 := ih (fun x hx => h x (by simp [hx]))
    simp only [packNibs, List.flatMap_cons, byteNibbles_pack n m hn hm, ih2,
      List.length_cons]
    by_cases hl : rest.length % 2 = 0
    · rw [if_pos hl, if_pos (by omega)]
      simp
    · rw [if_neg hl, if_neg (by omega)]
      simp

theorem lor16 : ∀ n < 16, ∀ x < 16, Nat.lor (n * 16) x = n * 16 + x := by decide

theorem packNibs_ne_nil (ns : Nibbles) (h : ns ≠ []) : packNibs ns ≠ [] := by
  match ns with
  | [n] => simp [packNibs]
  | n :: m :: rest => simp [packNibs]

theorem orIntoLast_cons (a : Nat) (P : Bytes) (x : Nat) (h : P ≠ []) :
    orIntoLast (a :: P) x = a :: orIntoLast P x := by
  match P with
  | p :: ps =>
    simp [orIntoLast, List.dropLast_cons_of_ne_nil, List.getLastD_cons]

theorem orIntoLast_flat (ns : Nibbles) (h : ∀ n ∈ ns, n < 16)
    (hodd : ns.length % 2 = 1) (x : Nat) (hx : x < 16) :
    (orIntoLast (packNibs ns) x).flatMap byteNibbles = ns ++ [x] := by
  induction ns using packNibs.induct with
  | case1 => simp at hodd
  | case2 n =>
    have hn := h n (by simp)
    simp [packNibs, orIntoLast, lor16 n hn x hx, byteNibbles_pack n x hn hx]
  | case3 n m rest ih =>
    have hn := h n (by simp)
    have hm := h m (by simp)
    have hodd2 : rest.length % 2 = 1 := by
      simp at hodd
      omega
    have hrest : rest ≠ [] := by
      intro he
      rw [he] at hodd2
      simp at hodd2
    rw [packNibs, orIntoLast_cons _ _ _ (packNibs_ne_nil rest hrest)]
    have ih2 := ih (fun y hy => h y (by simp [hy])) hodd2
    simp [byteNibbles_pack n m hn hm, ih2]

/-- **C9.** For all packed nibble keys `a` and `b` with offsets in
`{0, 1}` (two nibbles per byte, byte values `< 256`, an offset of 1 only
with at least one byte present), `combine_key(a, b)` makes the underlying
nibble sequence of `a` equal to the original nibble sequence of `a`
followed by the nibble sequence of `b`, for every combination of the two
offsets. -/
theorem c9_combineKey_appends (a b : NodeKeyP)
    (ha : a.1 < 2) (hb : b.1 < 2)
    (ha2 : ∀ x ∈ a.2, x < 256) (hb2 : ∀ x ∈ b.2, x < 256)
    (hae : a.2 = [] → a.1 = 0) (hbe : b.2 = [] → b.1 = 0) :
    nibsOfKey (combineKey a b) = nibsOfKey a ++ nibsOfKey b := by
  rcases a with ⟨a0, abs⟩
  rcases b with ⟨b0, bbs⟩
  simp only at ha hb ha2 hb2 hae hbe
  have hb01 : b0 = 0 ∨ b0 = 1 := by omega
  have ha01 : a0 = 0 ∨ a0 = 1 := by omega
  rcases hb01 with rfl | rfl
  · -- b offset 0: no shift, straight append of whole bytes
    have hfo : (a0 + 0) % 2 = a0 := by omega
    have hck : combineKey (a0, abs) (0, bbs) = (a0, abs ++ bbs) := by
      simp [combineKey, hfo, shiftKey, ha]
    rw [hck]
    simp only [nibsOfKey, List.flatMap_append, List.drop_zero]
    rw [List.drop_append_of_le_length]
    rcases heq : abs with _ | ⟨x, xs⟩
    · have := hae heq
      simp [this]
    · rw [← heq, flat_length]
      have : 1 ≤ abs.length := by rw [heq]; simp
      omega
  · -- b offset 1: realign, cram b's first nibble into the last byte
    have hbb : bbs ≠ [] := fun he => by have := hbe he; omega
    rcases bbs with _ | ⟨b1, brest⟩
    · exact absurd rfl hbb
    have hb1 : b1 < 256 := hb2 b1 (by simp)
    have hxlt : b1 % 16 < 16 := Nat.mod_lt _ (by omega)
    have hmr : maskedRight (2 - 1) b1 = b1 % 16 := by simp [maskedRight]
    rcases ha01 with rfl | rfl
    · -- a offset 0
      have hns : ∀ n ∈ 0 :: abs.flatMap byteNibbles, n < 16 := by
        intro n hn
        rcases hn with _ | hn
        · omega
        · exact flat_lt abs ha2 n (by assumption)
      have hodd : (0 :: abs.flatMap byteNibbles).length % 2 = 1 := by
        rw [List.length_cons, flat_length]
        omega
      have hck : combineKey (0, abs) (1, b1 :: brest) =
          (1, orIntoLast (packNibs (0 :: abs.flatMap byteNibbles)) (b1 % 16)
                ++ brest) := by
        simp [combineKey, shiftKey, hmr, nibsOfKey, List.replicate]
      rw [hck]
      simp only [nibsOfKey, List.flatMap_append,
        orIntoLast_flat (0 :: abs.flatMap byteNibbles) hns hodd (b1 % 16) hxlt,
        List.flatMap_cons, List.drop_zero]
      simp [byteNibbles]
    · -- a offset 1
      have habs : abs ≠ [] := fun he => by have := hae he; omega
      have hns : ∀ n ∈ (abs.flatMap byteNibbles).drop 1, n < 16 := by
        intro n hn
        exact flat_lt abs ha2 n (List.mem_of_mem_drop hn)
      have hodd : ((abs.flatMap byteNibbles).drop 1).length % 2 = 1 := by
        rw [List.length_drop, flat_length]
        rcases abs with _ | ⟨x, xs⟩
        · exact absurd rfl habs
        · simp
          omega
      have hck : combineKey (1, abs) (1, b1 :: brest) =
          (0, orIntoLast (packNibs ((abs.flatMap byteNibbles).drop 1)) (b1 % 16)
                ++ brest) := by
        simp [combineKey, shiftKey, hmr, nibsOfKey, List.replicate]
      rw [hck]
      simp only [nibsOfKey, List.flatMap_append,
        orIntoLast_flat _ hns hodd (b1 % 16) hxlt,
        List.flatMap_cons, List.drop_zero]
      simp [byteNibbles]

/-- Witness for C9: the third alignment case of the source's
`combine_test`, `(0, [0x12, 0x34]) ++ (1, [0x56, 0x78])`. -/
theorem c9_combineKey_witness :
    nibsOfKey (combineKey (0, [0x12, 0x34]) (1, [0x56, 0x78])) =
      nibsOfKey (0, ([0x12, 0x34] : Bytes)) ++
        nibsOfKey (1, ([0x56, 0x78] : Bytes)) :=
  c9_combineKey_appends (0, [0x12, 0x34]) (1, [0x56, 0x78])
    (by decide) (by decide) (by decide) (by decide) (by decide) (by decide)


theorem MChildren.len_set (cs : MChildren) (i : Nat) (v : Option MHandle) :
    (cs.set i v).len = cs.len := by
  induction cs generalizing i with
  | nil => rfl
  | cons hd tl ih =>
    cases i with
    | zero => rfl
    | succ n => simp [MChildren.set, MChildren.len, ih]

theorem MChildren.get_set_self (cs : MChildren) (i : Nat) (v : Option MHandle)
    (h : i < cs.len) : (cs.set i v).get i = v := by
  induction cs generalizing i with
  | nil => simp [MChildren.len] at h
  | cons hd tl ih =>
    cases i with
    | zero => rfl
    | succ n =>
      simp [MChildren.len] at h
      simpa [MChildren.set, MChildren.get] using ih n (by omega)

theorem MChildren.get_set_other (cs : MChildren) (i j : Nat)
    (v : Option MHandle) (h : j ≠ i) : (cs.set i v).get j = cs.get j := by
  induction cs generalizing i j with
  | nil => rfl
  | cons hd tl ih =>
    cases i with
    | zero =>
      cases j with
      | zero => exact absurd rfl h
      | succ m => rfl
    | succ n =>
      cases j with
      | zero => rfl
      | succ m => simpa [MChildren.set, MChildren.get] using ih n m (by omega)

theorem MChildren.get_lt_len (cs : MChildren) (i : Nat) {h : MHandle}
    (hg : cs.get i = some h) : i < cs.len := by
  induction cs generalizing i with
  | nil => simp [MChildren.get] at hg
  | cons hd tl ih =>
    cases i with
    | zero => simp [MChildren.len]
    | succ n =>
      simp only [MChildren.get] at hg
      have := ih n hg
      simp [MChildren.len]
      omega

theorem countC_set_none_of_some (cs : MChildren) (i : Nat) {h : MHandle}
    (hg : cs.get i = some h) : countC (cs.set i none) + 1 = countC cs := by
  induction cs generalizing i with
  | nil => simp [MChildren.get] at hg
  | cons hd tl ih =>
    cases i with
    | zero =>
      cases hg
      simp [MChildren.set, countC]
    | succ n =>
      simp only [MChildren.get] at hg
      cases hd with
      | none => simpa [MChildren.set, countC] using ih n hg
      | some x => simpa [MChildren.set, countC] using ih n hg

theorem countC_set_some_of_some (cs : MChildren) (i : Nat) {h : MHandle}
    (v : MHandle) (hg : cs.get i = some h) :
    countC (cs.set i (some v)) = countC cs := by
  induction cs generalizing i with
  | nil => simp [MChildren.get] at hg
  | cons hd tl ih =>
    cases i with
    | zero =>
      cases hg
      simp [MChildren.set, countC]
    | succ n =>
      simp only [MChildren.get] at hg
      cases hd with
      | none => simpa [MChildren.set, countC] using ih n hg
      | some x => simpa [MChildren.set, countC] using ih n hg

theorem countC_set_some_of_none (cs : MChildren) (i : Nat) (v : MHandle)
    (hl : i < cs.len) (hg : cs.get i = none) :
    countC (cs.set i (some v)) = countC cs + 1 := by
  induction cs generalizing i with
  | nil => simp [MChildren.len] at hl
  | cons hd tl ih =>
    cases i with
    | zero =>
      cases hg
      simp [MChildren.set, countC]
    | succ n =>
      simp only [MChildren.get] at hg
      simp only [MChildren.len] at hl
      cases hd with
      | none => simpa [MChildren.set, countC] using ih n (by omega) hg
      | some x => simpa [MChildren.set, countC] using ih n (by omega) hg

theorem canonC_get (useExt : Bool) (cs : MChildren) (i : Nat) {h : MHandle}
    (hc : canonC useExt cs = true) (hg : cs.get i = some h) :
    canonH useExt h = true := by
  induction cs generalizing i with
  | nil => simp [MChildren.get] at hg
  | cons hd tl ih =>
    cases i with
    | zero =>
      cases hg
      simp [canonC] at hc
      exact hc.1
    | succ n =>
      simp only [MChildren.get] at hg
      cases hd with
      | none =>
        simp [canonC] at hc
        exact ih n hc hg
      | some x =>
        simp [canonC] at hc
        exact ih n hc.2 hg

theorem canonC_set_none (useExt : Bool) (cs : MChildren) (i : Nat)
    (hc : canonC useExt cs = true) : canonC useExt (cs.set i none) = true := by
  induction cs generalizing i with
  | nil => rfl
  | cons hd tl ih =>
    cases i with
    | zero =>
      cases hd with
      | none => simpa [MChildren.set, canonC] using hc
      | some x =>
        simp [canonC] at hc
        simpa [MChildren.set, canonC] using hc.2
    | succ n =>
      cases hd with
      | none =>
        simp [canonC] at hc
        simp [MChildren.set, canonC]
        exact ih n hc
      | some x =>
        simp [canonC] at hc
        simp [MChildren.set, canonC]
        exact ⟨hc.1, ih n hc.2⟩

theorem canonC_set_some (useExt : Bool) (cs : MChildren) (i : Nat)
    (v : MHandle) (hv : canonH useExt v = true)
    (hc : canonC useExt cs = true) :
    canonC useExt (cs.set i (some v)) = true := by
  induction cs generalizing i with
  | nil => rfl
  | cons hd tl ih =>
    cases i with
    | zero =>
      cases hd with
      | none =>
        simp [canonC] at hc
        simp [MChildren.set, canonC]
        exact ⟨hv, hc⟩
      | some x =>
        simp [canonC] at hc
        simp [MChildren.set, canonC]
        exact ⟨hv, hc.2⟩
    | succ n =>
      cases hd with
      | none =>
        simp [canonC] at hc
        simp [MChildren.set, canonC]
        exact ih n hc
      | some x =>
        simp [canonC] at hc
        simp [MChildren.set, canonC]
        exact ⟨hc.1, ih n hc.2⟩


theorem list_decomp (l : List Nat) (n : Nat) (h : n < l.length) :
    l = l.take n ++ l.getD n 0 :: l.drop (n + 1) := by
  induction l generalizing n with
  | nil => simp at h
  | cons a as ih =>
    cases n with
    | zero => simp [List.getD]
    | succ m =>
      simp only [List.length_cons] at h
      simp only [List.take_succ_cons, List.getD_cons_succ, List.drop_succ_cons,
        List.cons_append, List.cons.injEq]
      exact ⟨trivial, ih m (by omega)⟩

theorem cpl_le_left : ∀ a b : Nibbles, commonPrefixLen a b ≤ a.length
  | [], _ => by simp [commonPrefixLen]
  | _ :: _, [] => by simp [commonPrefixLen]
  | a :: as, b :: bs => by
    simp only [commonPrefixLen, List.length_cons]
    split
    · exact Nat.succ_le_succ (cpl_le_left as bs)
    · omega

theorem cpl_le_right : ∀ a b : Nibbles, commonPrefixLen a b ≤ b.length
  | [], _ => by simp [commonPrefixLen]
  | _ :: _, [] => by simp [commonPrefixLen]
  | a :: as, b :: bs => by
    simp only [commonPrefixLen, List.length_cons]
    split
    · exact Nat.succ_le_succ (cpl_le_right as bs)
    · omega

theorem cpl_comm : ∀ a b : Nibbles, commonPrefixLen a b = commonPrefixLen b a
  | [], [] => rfl
  | [], _ :: _ => rfl
  | _ :: _, [] => rfl
  | a :: as, b :: bs => by
    simp only [commonPrefixLen]
    rcases eq_or_ne a b with h | h
    · subst h
      simp [cpl_comm as bs]
    · simp [h, Ne.symm h]

theorem cpl_take_eq : ∀ a b : Nibbles,
    a.take (commonPrefixLen a b) = b.take (commonPrefixLen a b)
  | [], _ => by simp [commonPrefixLen]
  | _ :: _, [] => by simp [commonPrefixLen]
  | a :: as, b :: bs => by
    simp only [commonPrefixLen]
    split
    · next h => simp [List.take_succ_cons, h, cpl_take_eq as bs]
    · simp

theorem cpl_eq_left_take : ∀ a b : Nibbles, commonPrefixLen a b = a.length →
    a = b.take a.length
  | a, b, h => by
    conv_lhs => rw [← List.take_length a]
    rw [← h]
    exact cpl_take_eq a b

theorem cpl_full (a b : Nibbles) (h1 : commonPrefixLen a b = a.length)
    (h2 : commonPrefixLen a b = b.length) : a = b := by
  have := cpl_eq_left_take a b h1
  rw [← h1, h2, List.take_length] at this
  exact this

theorem cpl_getD_ne : ∀ a b : Nibbles, commonPrefixLen a b < a.length →
    commonPrefixLen a b < b.length →
    a.getD (commonPrefixLen a b) 0 ≠ b.getD (commonPrefixLen a b) 0
  | [], _, ha, _ => by simp at ha
  | _ :: _, [], _, hb => by simp at hb
  | a :: as, b :: bs, ha, hb => by
    simp only [commonPrefixLen] at ha hb ⊢
    split
    · next h =>
      rw [if_pos h] at ha hb
      simp only [List.getD_cons_succ]
      exact cpl_getD_ne as bs (by simpa using ha) (by simpa using hb)
    · next h => simpa [List.getD] using h

theorem cpl_append_self : ∀ a r : Nibbles, commonPrefixLen a (a ++ r) = a.length
  | [], r => by cases r <;> simp [commonPrefixLen]
  | a :: as, r => by simp [commonPrefixLen, cpl_append_self as r]

theorem cpl_take_self : ∀ (a : Nibbles) (n : Nat), n ≤ a.length →
    commonPrefixLen a (a.take n) = n
  | a, n, h => by
    rw [cpl_comm]
    have h2 := cpl_append_self (a.take n) (a.drop n)
    rw [List.take_append_drop] at h2
    rw [h2, List.length_take]
    omega

theorem isPre_iff : ∀ a b : Nibbles, a.isPrefixOf b = true ↔ ∃ r, b = a ++ r
  | [], b => by simp [List.isPrefixOf]
  | a :: as, [] => by simp [List.isPrefixOf]
  | a :: as, b :: bs => by
    simp only [List.isPrefixOf, Bool.and_eq_true, beq_iff_eq, isPre_iff as bs,
      List.cons_append, List.cons.injEq]
    constructor
    · rintro ⟨h, r, rfl⟩
      exact ⟨r, h.symm, rfl⟩
    · rintro ⟨r, rfl, rfl⟩
      exact ⟨rfl, r, rfl⟩

theorem isPre_append_self (a r : Nibbles) : a.isPrefixOf (a ++ r) = true :=
  (isPre_iff a (a ++ r)).mpr ⟨r, rfl⟩

theorem cpl_isPre (a b : Nibbles) :
    a.isPrefixOf b = true ↔ commonPrefixLen a b = a.length := by
  constructor
  · intro h
    obtain ⟨r, rfl⟩ := (isPre_iff a b).mp h
    exact cpl_append_self a r
  · intro h
    rw [isPre_iff]
    refine ⟨b.drop a.length, ?_⟩
    conv_lhs => rw [← List.take_append_drop a.length b]
    rw [← cpl_eq_left_take a b h]

theorem semN_leaf_iff (k : Nibbles) (v : Bytes) (ks : Nibbles) (w : Bytes) :
    semN (.leaf k v) ks = some w ↔ ks = k ∧ w = v := by
  simp only [semN]
  split
  · simp only [Option.some.injEq]
    constructor
    · rintro rfl; exact ⟨by assumption, rfl⟩
    · rintro ⟨_, rfl⟩; rfl
  · simp only [reduceCtorEq, false_iff, not_and]
    intro h; simp_all

theorem semN_nbranch_append (p : Nibbles) (cs : MChildren) (v : Option Bytes)
    (ks : Nibbles) : semN (.nbranch p cs v) (p ++ ks) =
      (match ks with | [] => v | n :: r => semC cs n r) := by
  cases ks with
  | nil => simp [semN, isPre_append_self, List.drop_left]
  | cons n r => simp [semN, isPre_append_self, List.drop_left]

theorem semN_nbranch_some (p : Nibbles) (cs : MChildren) (v : Option Bytes)
    (ks : Nibbles) (w : Bytes) (h : semN (.nbranch p cs v) ks = some w) :
    ∃ ks2, ks = p ++ ks2 := by
  simp only [semN] at h
  split at h
  · next hp => obtain ⟨r, rfl⟩ := (isPre_iff p ks).mp hp; exact ⟨r, rfl⟩
  · exact absurd h (by simp)

theorem semN_ext_append (p : Nibbles) (c : MHandle) (ks : Nibbles) :
    semN (.ext p c) (p ++ ks) = semH c ks := by
  simp [semN, isPre_append_self, List.drop_left]

theorem semN_ext_some (p : Nibbles) (c : MHandle) (ks : Nibbles) (w : Bytes)
    (h : semN (.ext p c) ks = some w) : ∃ ks2, ks = p ++ ks2 := by
  simp only [semN] at h
  split at h
  · next hp => obtain ⟨r, rfl⟩ := (isPre_iff p ks).mp hp; exact ⟨r, rfl⟩
  · exact absurd h (by simp)

theorem semC_eq_get : ∀ (cs : MChildren) (n : Nat) (r : Nibbles),
    semC cs n r = (match cs.get n with | some h => semH h r | none => none)
  | .nil, n, r => by cases n <;> rfl
  | .cons hd tl, 0, r => by cases hd <;> rfl
  | .cons hd tl, n + 1, r => by
    simpa [semC, MChildren.get] using semC_eq_get tl n r

theorem countC_zero_get (cs : MChildren) (h : countC cs = 0) :
    ∀ n, cs.get n = none := by
  induction cs with
  | nil => intro n; rfl
  | cons hd tl ih =>
    cases hd with
    | none =>
      simp only [countC] at h
      intro n
      cases n with
      | zero => rfl
      | succ m => exact ih h m
    | some x => simp [countC] at h

theorem countC_pos_get (cs : MChildren) (h : 1 ≤ countC cs) :
    ∃ i hh, cs.get i = some hh := by
  induction cs with
  | nil => simp [countC] at h
  | cons hd tl ih =>
    cases hd with
    | none =>
      simp only [countC] at h
      obtain ⟨i, hh, hg⟩ := ih h
      exact ⟨i + 1, hh, hg⟩
    | some x => exact ⟨0, x, rfl⟩

theorem semC_countC_zero (cs : MChildren) (n : Nat) (r : Nibbles)
    (h : countC cs = 0) : semC cs n r = none := by
  rw [semC_eq_get, countC_zero_get cs h n]

theorem get_ofList_replicate : ∀ (n j : Nat),
    (MChildren.ofList (List.replicate n none)).get j = none
  | 0, j => by cases j <;> rfl
  | n + 1, 0 => rfl
  | n + 1, j + 1 => by
    simpa [List.replicate, MChildren.ofList, MChildren.get] using
      get_ofList_replicate n j

theorem emptyChildren_get (j : Nat) : emptyChildren.get j = none :=
  get_ofList_replicate 16 j

theorem MChildren.set_set (cs : MChildren) (i : Nat) (a b : Option MHandle) :
    (cs.set i a).set i b = cs.set i b := by
  induction cs generalizing i with
  | nil => rfl
  | cons hd tl ih =>
    cases i with
    | zero => rfl
    | succ n => simp [MChildren.set, ih]

theorem nibsOk_append (a b : Nibbles) :
    nibsOkB (a ++ b) = (nibsOkB a && nibsOkB b) := by
  simp [nibsOkB, List.all_append]

theorem nibsOk_take (a : Nibbles) (n : Nat) (h : nibsOkB a = true) :
    nibsOkB (a.take n) = true := by
  rw [← List.take_append_drop n a, nibsOk_append] at h
  simp only [Bool.and_eq_true] at h
  exact h.1

theorem nibsOk_drop (a : Nibbles) (n : Nat) (h : nibsOkB a = true) :
    nibsOkB (a.drop n) = true := by
  rw [← List.take_append_drop n a, nibsOk_append] at h
  simp only [Bool.and_eq_true] at h
  exact h.2

theorem nibsOk_getD (a : Nibbles) (n : Nat) (h : nibsOkB a = true)
    (hn : n < a.length) : a.getD n 0 < 16 := by
  rw [List.getD_eq_getElem a 0 hn]
  have := List.all_eq_true.mp h
  simpa using this (a[n]) (a.getElem_mem hn)

theorem nibsOk_single (a : Nat) (h : a < 16) : nibsOkB [a] = true := by
  simp [nibsOkB, h]

theorem nibsOk_keyNibbles (k : Bytes) (h : ∀ b ∈ k, b < 256) :
    nibsOkB (keyNibbles k) = true := by
  simp only [nibsOkB, keyNibbles, List.all_eq_true]
  intro x hx
  simp only [List.mem_flatMap, byteNibbles] at hx
  obtain ⟨b, hb, hxin⟩ := hx
  have hb2 := h b hb
  simp only [List.mem_cons, List.mem_singleton] at hxin
  rcases hxin with rfl | rfl | hc
  · simpa using Nat.div_lt_of_lt_mul (by omega)
  · simpa using Nat.mod_lt b (by omega)
  · simp at hc

theorem usedIndexAux_countC_zero (cs : MChildren) :
    ∀ (i : Nat) (u : UsedIx), countC cs = 0 → usedIndexAux cs i u = u := by
  induction cs with
  | nil => intro i u _; rfl
  | cons hd tl ih =>
    intro i u h
    cases hd with
    | none => simpa [usedIndexAux] using ih (i + 1) u (by simpa [countC] using h)
    | some x => simp [countC] at h

theorem usedIndexAux_one (cs : MChildren) : ∀ i : Nat, countC cs = 1 →
    ∃ a, a < cs.len ∧ usedIndexAux cs i .noneU = .one (i + a) := by
  induction cs with
  | nil => intro i h; simp [countC] at h
  | cons hd tl ih =>
    intro i h
    cases hd with
    | none =>
      obtain ⟨a, hl, he⟩ := ih (i + 1) (by simpa [countC] using h)
      refine ⟨a + 1, by simp [MChildren.len]; omega, ?_⟩
      simp only [usedIndexAux, he]
      congr 1
      omega
    | some x =>
      refine ⟨0, by simp [MChildren.len], ?_⟩
      simp only [usedIndexAux]
      rw [usedIndexAux_countC_zero tl (i + 1) (.one i)
        (by simpa [countC] using h)]
      simp

theorem usedIndexAux_many_of_one (cs : MChildren) :
    ∀ (i b : Nat), 1 ≤ countC cs → usedIndexAux cs i (.one b) = .many := by
  induction cs with
  | nil => intro i b h; simp [countC] at h
  | cons hd tl ih =>
    intro i b h
    cases hd with
    | none => simpa [usedIndexAux] using ih (i + 1) b (by simpa [countC] using h)
    | some x => rfl

theorem usedIndexAux_many (cs : MChildren) : ∀ i : Nat, 2 ≤ countC cs →
    usedIndexAux cs i .noneU = .many := by
  induction cs with
  | nil => intro i h; simp [countC] at h
  | cons hd tl ih =>
    intro i h
    cases hd with
    | none => simpa [usedIndexAux] using ih (i + 1) (by simpa [countC] using h)
    | some x =>
      simp only [usedIndexAux]
      exact usedIndexAux_many_of_one tl (i + 1) i (by simp [countC] at h; omega)

theorem usedIndex_one_inv (cs : MChildren) (a : Nat)
    (h : usedIndex cs = .one a) : countC cs = 1 ∧ a < cs.len := by
  rcases hc : countC cs with _ | _ | n
  · rw [usedIndex, usedIndexAux_countC_zero cs 0 .noneU hc] at h
    exact absurd h (by simp)
  · obtain ⟨a2, hl, he⟩ := usedIndexAux_one cs 0 hc
    rw [usedIndex, he] at h
    cases h
    exact ⟨rfl, by simpa using hl⟩
  · rw [usedIndex, usedIndexAux_many cs 0 (by omega)] at h
    exact absurd h (by simp)

theorem usedIndex_many_inv (cs : MChildren) (h : usedIndex cs = .many) :
    2 ≤ countC cs := by
  rcases hc : countC cs with _ | _ | n
  · rw [usedIndex, usedIndexAux_countC_zero cs 0 .noneU hc] at h
    exact absurd h (by simp)
  · obtain ⟨a2, hl, he⟩ := usedIndexAux_one cs 0 hc
    rw [usedIndex, he] at h
    exact absurd h (by simp)
  · omega

theorem usedIndex_noneU_inv (cs : MChildren) (h : usedIndex cs = .noneU) :
    countC cs = 0 := by
  rcases hc : countC cs with _ | _ | n
  · rfl
  · obtain ⟨a2, hl, he⟩ := usedIndexAux_one cs 0 hc
    rw [usedIndex, he] at h
    exact absurd h (by simp)
  · rw [usedIndex, usedIndexAux_many cs 0 (by omega)] at h
    exact absurd h (by simp)

theorem canonH_elim (useExt : Bool) (h : MHandle)
    (hc : canonH useExt h = true) :
    ∃ n, h = .inMem (.fresh n) ∧ canonN useExt n = true := by
  cases h with
  | hashed x => simp [canonH] at hc
  | inMem s =>
    cases s with
    | fresh n => exact ⟨n, rfl, hc⟩
    | cached n x => simp [canonH] at hc


theorem canonN_canonW (useExt : Bool) (n : MNode)
    (h : canonN useExt n = true) : canonW useExt n = true := by
  cases n with
  | empty => simpa [canonN] using h
  | leaf k v => simpa [canonN, canonW] using h
  | ext k c =>
    simp only [canonN, Bool.and_eq_true] at h
    obtain ⟨⟨⟨⟨h1, h2⟩, h3⟩, h4⟩, h5⟩ := h
    simp only [canonW, Bool.and_eq_true]
    exact ⟨⟨⟨h1, h2⟩, h3⟩, h5⟩
  | branch cs v =>
    simp only [canonN, Bool.and_eq_true] at h
    obtain ⟨⟨⟨⟨h1, h2⟩, h3⟩, h4⟩, h5⟩ := h
    simp only [canonW, Bool.and_eq_true]
    exact ⟨⟨⟨h1, h2⟩, h3⟩, h4⟩
  | nbranch k cs v =>
    simp only [canonN, Bool.and_eq_true] at h
    obtain ⟨⟨⟨⟨⟨h1, h2⟩, h3⟩, h4⟩, h5⟩, h6⟩ := h
    simp only [canonW, Bool.and_eq_true]
    exact ⟨⟨⟨⟨h1, h2⟩, h3⟩, h4⟩, h5⟩

theorem sizeH_get : ∀ (cs : MChildren) (i : Nat) (h : MHandle),
    cs.get i = some h → sizeH h ≤ sizeC cs
  | .nil, i, h => by intro hg; cases i <;> simp [MChildren.get] at hg
  | .cons hd tl, 0, h => by
    intro hg
    simp only [MChildren.get] at hg
    subst hg
    simp [sizeC]
    omega
  | .cons hd tl, i + 1, h => by
    intro hg
    simp only [MChildren.get] at hg
    have := sizeH_get tl i h hg
    cases hd <;> simp [sizeC] <;> omega

theorem semH_fresh (n : MNode) (ks : Nibbles) :
    semH (.inMem (.fresh n)) ks = semN n ks := rfl

theorem canon_sem_ne (useExt : Bool) : ∀ (k : Nat) (n : MNode),
    sizeN n ≤ k → canonN useExt n = true → ∃ ks w, semN n ks = some w := by
  intro k
  induction k with
  | zero =>
    intro n hs hc
    cases n with
    | empty => simp [canonN] at hc
    | leaf kk v => exact ⟨kk, v, by simp [semN]⟩
    | ext p c => simp [sizeN] at hs
    | branch cs v => simp [sizeN] at hs
    | nbranch p cs v => simp [sizeN] at hs
  | succ k ih =>
    intro n hs hc
    cases n with
    | empty => simp [canonN] at hc
    | leaf kk v => exact ⟨kk, v, by simp [semN]⟩
    | ext p c =>
      simp only [canonN, Bool.and_eq_true] at hc
      obtain ⟨⟨⟨⟨h1, h2⟩, h3⟩, h4⟩, h5⟩ := hc
      obtain ⟨cn, rfl, hcn⟩ := canonH_elim useExt c h5
      simp only [sizeN, sizeH] at hs
      obtain ⟨ks, w, hw⟩ := ih cn (by omega) hcn
      exact ⟨p ++ ks, w, by rw [semN_ext_append, semH_fresh]; exact hw⟩
    | branch cs v =>
      cases v with
      | some w => exact ⟨[], w, by simp [semN]⟩
      | none =>
        simp only [canonN, Bool.and_eq_true, Option.isSome_none, Bool.and_false,
          Bool.or_false, decide_eq_true_eq] at hc
        obtain ⟨⟨⟨⟨hu, hlen⟩, hcanC⟩, hval⟩, harit⟩ := hc
        obtain ⟨i, hh, hg⟩ := countC_pos_get cs (by omega)
        have hch := canonC_get useExt cs i hcanC hg
        obtain ⟨cn, rfl, hcn⟩ := canonH_elim useExt _ hch
        have hsz := sizeH_get cs i _ hg
        simp only [sizeN, sizeH] at hs hsz
        obtain ⟨ks, w, hw⟩ := ih cn (by omega) hcn
        refine ⟨i :: ks, w, ?_⟩
        simp only [semN, semC_eq_get, hg]
        exact hw
    | nbranch p cs v =>
      cases v with
      | some w =>
        refine ⟨p, w, ?_⟩
        have := semN_nbranch_append p cs (some w) []
        simpa using this
      | none =>
        simp only [canonN, Bool.and_eq_true, Option.isSome_none, Bool.and_false,
          Bool.or_false, decide_eq_true_eq] at hc
        obtain ⟨⟨⟨⟨⟨hu, hnib⟩, hlen⟩, hcanC⟩, hval⟩, harit⟩ := hc
        obtain ⟨i, hh, hg⟩ := countC_pos_get cs (by omega)
        have hch := canonC_get useExt cs i hcanC hg
        obtain ⟨cn, rfl, hcn⟩ := canonH_elim useExt _ hch
        have hsz := sizeH_get cs i _ hg
        simp only [sizeN, sizeH] at hs hsz
        obtain ⟨ks, w, hw⟩ := ih cn (by omega) hcn
        refine ⟨p ++ i :: ks, w, ?_⟩
        rw [semN_nbranch_append]
        simp only [semC_eq_get, hg]
        exact hw


theorem canonN_leaf_iff (useExt : Bool) (k : Nibbles) (v : Bytes) :
    canonN useExt (.leaf k v) = true ↔ nibsOkB k = true ∧ v ≠ [] := by
  cases v <;> simp [canonN]

theorem canonN_ext_iff (useExt : Bool) (k : Nibbles) (c : MHandle) :
    canonN useExt (.ext k c) = true ↔
      useExt = true ∧ nibsOkB k = true ∧ k ≠ [] ∧ isBranchH c = true ∧
        canonH useExt c = true := by
  cases k <;> simp [canonN, and_assoc]

theorem canonN_branch_iff (useExt : Bool) (cs : MChildren) (v : Option Bytes) :
    canonN useExt (.branch cs v) = true ↔
      useExt = true ∧ cs.len = 16 ∧ canonC useExt cs = true ∧ valOk v = true ∧
        (2 ≤ countC cs ∨ (1 ≤ countC cs ∧ v.isSome = true)) := by
  simp [canonN, and_assoc]

theorem canonN_nbranch_iff (useExt : Bool) (k : Nibbles) (cs : MChildren)
    (v : Option Bytes) :
    canonN useExt (.nbranch k cs v) = true ↔
      useExt = false ∧ nibsOkB k = true ∧ cs.len = 16 ∧
        canonC useExt cs = true ∧ valOk v = true ∧
        (2 ≤ countC cs ∨ (1 ≤ countC cs ∧ v.isSome = true)) := by
  simp [canonN, and_assoc]

theorem canonW_leaf_iff (useExt : Bool) (k : Nibbles) (v : Bytes) :
    canonW useExt (.leaf k v) = true ↔ nibsOkB k = true ∧ v ≠ [] := by
  cases v <;> simp [canonW]

theorem canonW_ext_iff (useExt : Bool) (k : Nibbles) (c : MHandle) :
    canonW useExt (.ext k c) = true ↔
      useExt = true ∧ nibsOkB k = true ∧ k ≠ [] ∧ canonH useExt c = true := by
  cases k <;> simp [canonW, and_assoc]

theorem canonW_branch_iff (useExt : Bool) (cs : MChildren) (v : Option Bytes) :
    canonW useExt (.branch cs v) = true ↔
      useExt = true ∧ cs.len = 16 ∧ canonC useExt cs = true ∧
        valOk v = true := by
  simp [canonW, and_assoc]

theorem canonW_nbranch_iff (useExt : Bool) (k : Nibbles) (cs : MChildren)
    (v : Option Bytes) :
    canonW useExt (.nbranch k cs v) = true ↔
      useExt = false ∧ nibsOkB k = true ∧ cs.len = 16 ∧
        canonC useExt cs = true ∧ valOk v = true := by
  simp [canonW, and_assoc]

theorem semN_branch_nil (cs : MChildren) (v : Option Bytes) :
    semN (.branch cs v) [] = v := rfl

theorem semN_branch_cons (cs : MChildren) (v : Option Bytes) (n : Nat)
    (r : Nibbles) : semN (.branch cs v) (n :: r) = semC cs n r := rfl

theorem isBranchH_fresh_branch (cs : MChildren) (v : Option Bytes) :
    isBranchH (.inMem (.fresh (.branch cs v))) = true := rfl

/-- `fix` preserves weak canonicity into full canonicity and only shrinks
the represented map (triedbmut.rs, lines 950-1151). -/
theorem fix_pres (hp : HParams) (useExt : Bool) : ∀ (fuel : Nat) (c : Ctx)
    (node : MNode) (key : FullKey) (out : MNode × Ctx),
    canonW useExt node = true →
    fix hp useExt fuel c node key = .ok out →
    canonN useExt out.1 = true ∧
      (∀ ks w, semN out.1 ks = some w → semN node ks = some w) := by
  intro fuel
  induction fuel with
  | zero =>
    intro c node key out hw hfix
    simp [fix] at hfix
  | succ fuel ih =>
    intro c node key out hw hfix
    cases node with
    | empty => simp [canonW] at hw
    | leaf k v =>
      rw [fix.eq_def] at hfix
      dsimp only at hfix
      cases hfix
      rw [canonW_leaf_iff] at hw
      exact ⟨(canonN_leaf_iff useExt k v).mpr hw, fun ks w h => h⟩
    | branch cs v =>
      rw [canonW_branch_iff] at hw
      obtain ⟨hu, hlen, hcanC, hval⟩ := hw
      rw [fix.eq_def] at hfix
      dsimp only at hfix
      rcases hui : usedIndex cs with _ | a | _ <;> rw [hui] at hfix
      · -- no child slot used
        cases v with
        | none => simp at hfix
        | some val =>
          dsimp only at hfix
          cases hfix
          refine ⟨?_, ?_⟩
          · rw [canonN_leaf_iff]
            exact ⟨rfl, by simpa [valOk] using hval⟩
          · intro ks w h
            rw [semN_leaf_iff] at h
            obtain ⟨rfl, rfl⟩ := h
            rfl
      · -- exactly one child slot used
        obtain ⟨hcnt, hlt⟩ := usedIndex_one_inv cs a hui
        cases v with
        | none =>
          dsimp only at hfix
          rcases hg : cs.get a with _ | child <;> rw [hg] at hfix
          · simp at hfix
          · dsimp only at hfix
            have hch := canonC_get useExt cs a hcanC hg
            have hwext : canonW useExt (.ext [a] child) = true := by
              rw [canonW_ext_iff]
              exact ⟨hu, nibsOk_single a (by omega), by simp, hch⟩
            obtain ⟨hcan, hcont⟩ := ih c (.ext [a] child) key out hwext hfix
            refine ⟨hcan, ?_⟩
            intro ks w h
            have h2 := hcont ks w h
            obtain ⟨ks2, rfl⟩ := semN_ext_some [a] child ks w h2
            rw [semN_ext_append] at h2
            rw [List.singleton_append, semN_branch_cons, semC_eq_get, hg]
            exact h2
        | some val =>
          dsimp only at hfix
          cases hfix
          refine ⟨?_, fun ks w h => h⟩
          rw [canonN_branch_iff]
          exact ⟨hu, hlen, hcanC, hval, Or.inr ⟨by omega, rfl⟩⟩
      · -- at least two child slots used
        have hcnt := usedIndex_many_inv cs hui
        dsimp only at hfix
        cases hfix
        refine ⟨?_, fun ks w h => h⟩
        rw [canonN_branch_iff]
        exact ⟨hu, hlen, hcanC, hval, Or.inl hcnt⟩
    | nbranch ek cs v =>
      rw [canonW_nbranch_iff] at hw
      obtain ⟨hu, hnib, hlen, hcanC, hval⟩ := hw
      rw [fix.eq_def] at hfix
      dsimp only at hfix
      rcases hui : usedIndex cs with _ | a | _ <;> rw [hui] at hfix
      · cases v with
        | none => simp at hfix
        | some val =>
          dsimp only at hfix
          cases hfix
          refine ⟨?_, ?_⟩
          · rw [canonN_leaf_iff]
            exact ⟨hnib, by simpa [valOk] using hval⟩
          · intro ks w h
            rw [semN_leaf_iff] at h
            rw [h.1, h.2]
            simpa using semN_nbranch_append ek cs (some val) []
      · obtain ⟨hcnt, hlt⟩ := usedIndex_one_inv cs a hui
        cases v with
        | none =>
          dsimp only at hfix
          rcases hg : cs.get a with _ | child <;> rw [hg] at hfix
          · simp at hfix
          · have hch := canonC_get useExt cs a hcanC hg
            obtain ⟨cn, rfl, hcn⟩ := canonH_elim useExt child hch
            simp only [bind, Except.bind, pure, Except.pure] at hfix
            cases cn with
            | empty => simp [canonN] at hcn
            | leaf sub v2 =>
              cases hfix
              rw [canonN_leaf_iff] at hcn
              refine ⟨?_, ?_⟩
              · rw [canonN_leaf_iff]
                refine ⟨?_, hcn.2⟩
                rw [nibsOk_append, nibsOk_append]
                simp [hnib, nibsOk_single a (by omega), hcn.1]
              · intro ks w h
                rw [semN_leaf_iff] at h
                obtain ⟨rfl, rfl⟩ := h
                have : ek ++ [a] ++ sub = ek ++ (a :: sub) := by
                  simp
                rw [this, semN_nbranch_append]
                simp only [semC_eq_get, hg, semH_fresh]
                simp [semN]
            | ext p2 c2 =>
              rw [canonN_ext_iff] at hcn
              rw [hcn.1] at hu
              simp at hu
            | branch cs2 v2 =>
              rw [canonN_branch_iff] at hcn
              rw [hcn.1] at hu
              simp at hu
            | nbranch sub chCh chV =>
              cases hfix
              rw [canonN_nbranch_iff] at hcn
              obtain ⟨hu2, hnib2, hlen2, hcanC2, hval2, harit2⟩ := hcn
              refine ⟨?_, ?_⟩
              · rw [canonN_nbranch_iff]
                refine ⟨hu, ?_, hlen2, hcanC2, hval2, harit2⟩
                rw [nibsOk_append, nibsOk_append]
                simp [hnib, nibsOk_single a (by omega), hnib2]
              · intro ks w h
                obtain ⟨ks2, rfl⟩ := semN_nbranch_some _ chCh chV ks w h
                rw [semN_nbranch_append] at h
                have : ek ++ [a] ++ sub ++ ks2 = ek ++ (a :: (sub ++ ks2)) := by
                  simp
                rw [this, semN_nbranch_append]
                simp only [semC_eq_get, hg, semH_fresh]
                rw [semN_nbranch_append]
                exact h
        | some val =>
          dsimp only at hfix
          cases hfix
          refine ⟨?_, fun ks w h => h⟩
          rw [canonN_nbranch_iff]
          exact ⟨hu, hnib, hlen, hcanC, hval, Or.inr ⟨by omega, rfl⟩⟩
      · have hcnt := usedIndex_many_inv cs hui
        dsimp only at hfix
        cases hfix
        refine ⟨?_, fun ks w h => h⟩
        rw [canonN_nbranch_iff]
        exact ⟨hu, hnib, hlen, hcanC, hval, Or.inl hcnt⟩
    | ext pkey child =>
      rw [canonW_ext_iff] at hw
      obtain ⟨hu, hnib, hne, hch⟩ := hw
      obtain ⟨cn, rfl, hcn⟩ := canonH_elim useExt child hch
      rw [fix.eq_def] at hfix
      simp only [bind, Except.bind, pure, Except.pure] at hfix
      cases cn with
      | empty => simp [canonN] at hcn
      | ext sub subChild =>
        rw [canonN_ext_iff] at hcn
        obtain ⟨_, hnib2, hne2, hbr2, hch2⟩ := hcn
        have hwext : canonW useExt (.ext (pkey ++ sub) subChild) = true := by
          rw [canonW_ext_iff]
          refine ⟨hu, ?_, by simp [hne], hch2⟩
          rw [nibsOk_append]
          simp [hnib, hnib2]
        obtain ⟨hcan, hcont⟩ := ih _ (.ext (pkey ++ sub) subChild) key out
          hwext hfix
        refine ⟨hcan, ?_⟩
        intro ks w h
        have h2 := hcont ks w h
        obtain ⟨ks2, rfl⟩ := semN_ext_some _ subChild ks w h2
        rw [semN_ext_append] at h2
        rw [List.append_assoc, semN_ext_append, semH_fresh, semN_ext_append]
        exact h2
      | leaf sub v2 =>
        cases hfix
        rw [canonN_leaf_iff] at hcn
        refine ⟨?_, ?_⟩
        · rw [canonN_leaf_iff]
          refine ⟨?_, hcn.2⟩
          rw [nibsOk_append]
          simp [hnib, hcn.1]
        · intro ks w h
          rw [semN_leaf_iff] at h
          obtain ⟨rfl, rfl⟩ := h
          rw [semN_ext_append, semH_fresh]
          simp [semN]
      | branch cs2 v2 =>
        cases hfix
        refine ⟨?_, ?_⟩
        · rw [canonN_ext_iff]
          exact ⟨hu, hnib, hne, isBranchH_fresh_branch cs2 v2, hcn⟩
        · intro ks w h
          obtain ⟨ks2, rfl⟩ := semN_ext_some _ _ ks w h
          rw [semN_ext_append] at h ⊢
          exact h
      | nbranch sub chCh chV =>
        rw [canonN_nbranch_iff] at hcn
        rw [hcn.1] at hu
        simp at hu


theorem except_bind_ok {α β : Type} (x : Except TErr α) (f : α → Except TErr β)
    (b : β) : x >>= f = .ok b ↔ ∃ a, x = .ok a ∧ f a = .ok b := by
  cases x <;> simp [bind, Except.bind]

theorem isBranchH_fresh (n : MNode) :
    isBranchH (.inMem (.fresh n)) = isBr n := by
  cases n <;> rfl

theorem isBr_elim (n : MNode) (h : isBr n = true) :
    ∃ cs v, n = .branch cs v := by
  cases n <;> simp [isBr] at h ⊢

theorem semN_nbranch_nil_none (ek : Nibbles) (cs : MChildren) :
    semN (.nbranch ek cs none) [] = none := by
  cases ek <;> simp [semN, List.isPrefixOf]

theorem semN_leaf_ne (k : Nibbles) (v : Bytes) (ks : Nibbles) (h : ks ≠ k) :
    semN (.leaf k v) ks = none := by
  simp [semN, h]

theorem cpl_not_pre (a b : Nibbles) (h : commonPrefixLen a b < a.length) :
    a.isPrefixOf b = false := by
  rcases hb : a.isPrefixOf b with _ | _
  · rfl
  · exact absurd ((cpl_isPre a b).mp hb) (by omega)

theorem semN_ext_not_pre (p : Nibbles) (c : MHandle) (ks : Nibbles)
    (h : p.isPrefixOf ks = false) : semN (.ext p c) ks = none := by
  simp [semN, h]

theorem semN_nbranch_not_pre (p : Nibbles) (cs : MChildren) (v : Option Bytes)
    (ks : Nibbles) (h : p.isPrefixOf ks = false) :
    semN (.nbranch p cs v) ks = none := by
  simp [semN, h]

theorem sem_branch_none_le (cs : MChildren) (v : Option Bytes) :
    ∀ ks w, semN (.branch cs none) ks = some w →
      semN (.branch cs v) ks = some w := by
  intro ks w h
  cases ks with
  | nil => simp [semN_branch_nil] at h
  | cons n r => rwa [semN_branch_cons] at h ⊢

theorem sem_nbranch_none_le (ek : Nibbles) (cs : MChildren) (v : Option Bytes) :
    ∀ ks w, semN (.nbranch ek cs none) ks = some w →
      semN (.nbranch ek cs v) ks = some w := by
  intro ks w h
  obtain ⟨ks2, rfl⟩ := semN_nbranch_some ek cs none ks w h
  rw [semN_nbranch_append] at h ⊢
  cases ks2 with
  | nil => simp at h
  | cons n r => simpa using h

theorem sem_none_of_le (n2 n1 : MNode) (pk : Nibbles)
    (hle : ∀ ks w, semN n2 ks = some w → semN n1 ks = some w)
    (h1 : semN n1 pk = none) : semN n2 pk = none := by
  cases h2 : semN n2 pk with
  | none => rfl
  | some w =>
    rw [hle pk w h2] at h1
    cases h1

theorem advance_rest (key : FullKey) (n : Nat) :
    (key.advance n).rest = key.rest.drop n := rfl

/-- Semantics across an updated child list. -/
theorem semC_set (cs : MChildren) (i : Nat) (v : Option MHandle) (n : Nat)
    (r : Nibbles) (hi : i < cs.len) :
    semC (cs.set i v) n r =
      if n = i then (match v with | some h => semH h r | none => none)
      else semC cs n r := by
  rcases eq_or_ne n i with rfl | hne
  · rw [semC_eq_get, MChildren.get_set_self cs n v hi, if_pos rfl]
  · rw [semC_eq_get, MChildren.get_set_other cs i n v hne, ← semC_eq_get,
      if_neg hne]

set_option maxHeartbeats 1600000 in
/-- `remove_at` / `remove_inspector` on canonical trees: the kept node is
canonical, binds a subset of the input bindings and no longer binds the
removal key (triedbmut.rs, lines 781-942). -/
theorem rem_pres (hp : HParams) (useExt : Bool) : ∀ fuel : Nat,
    (∀ (c : Ctx) (n : MNode) (key : FullKey) out,
      canonN useExt n = true →
      removeAt hp useExt fuel c (.inMem (.fresh n)) key = .ok out →
      ∀ h2 ch, out.1 = some (h2, ch) →
        ∃ n2, h2 = .inMem (.fresh n2) ∧ canonN useExt n2 = true ∧
          (∀ ks w, semN n2 ks = some w → semN n ks = some w) ∧
          semN n2 key.rest = none ∧
          (ch = false → isBr n = true → isBr n2 = true))
    ∧
    (∀ (c : Ctx) (n : MNode) (key : FullKey) out,
      canonN useExt n = true →
      removeInspector hp useExt fuel c n key = .ok out →
      remActOk useExt n key.rest out.1) := by
  intro fuel
  induction fuel with
  | zero =>
    constructor
    · intro c n key out hcn hra
      simp [removeAt] at hra
    · intro c n key out hcn hri
      simp [removeInspector] at hri
  | succ fuel ih =>
    obtain ⟨ihAt, ihInsp⟩ := ih
    have hInsp : ∀ (c : Ctx) (n : MNode) (key : FullKey) out,
        canonN useExt n = true →
        removeInspector hp useExt (fuel + 1) c n key = .ok out →
        remActOk useExt n key.rest out.1 := by
      intro c n key out hcn hri
      obtain ⟨kd, kr⟩ := key
      cases n with
      | empty => simp [canonN] at hcn
      | leaf ek v =>
        simp only [removeInspector, List.isEmpty_nil, List.isEmpty_cons] at hri
        split at hri
        · next heq =>
          cases hri
          exact trivial
        · next hne =>
          cases hri
          refine ⟨hcn, fun ks w h => h, ?_, fun h => h⟩
          exact semN_leaf_ne ek v kr (fun h => hne h.symm)
      | branch cs v =>
        rw [canonN_branch_iff] at hcn
        obtain ⟨hu, hlen, hcanC, hval, harit⟩ := hcn
        cases kr with
        | nil =>
          cases v with
          | none =>
            simp only [removeInspector, List.isEmpty_nil, List.isEmpty_cons] at hri
            cases hri
            refine ⟨?_, fun ks w h => h, rfl, fun h => h⟩
            rw [canonN_branch_iff]
            exact ⟨hu, hlen, hcanC, hval, harit⟩
          | some val =>
            simp only [removeInspector, List.isEmpty_nil, List.isEmpty_cons] at hri
            rw [except_bind_ok] at hri
            obtain ⟨⟨f, c4⟩, hfx, hri⟩ := hri
            cases hri
            have hwk : canonW useExt (.branch cs none) = true := by
              rw [canonW_branch_iff]
              exact ⟨hu, hlen, hcanC, rfl⟩
            obtain ⟨hcanf, hlef⟩ := fix_pres hp useExt fuel _ _ _ _ hwk hfx
            refine ⟨hcanf, ?_, ?_⟩
            · intro ks w h
              exact sem_branch_none_le cs (some val) ks w (hlef ks w h)
            · exact sem_none_of_le f (.branch cs none) [] hlef rfl
        | cons k0 krest =>
          simp only [removeInspector, List.isEmpty_nil, List.isEmpty_cons] at hri
          rcases hg : cs.get k0 with _ | child <;>
            simp only [List.getD_cons_zero, hg] at hri
          · cases hri
            refine ⟨?_, fun ks w h => h, ?_, fun h => h⟩
            · rw [canonN_branch_iff]
              exact ⟨hu, hlen, hcanC, hval, harit⟩
            · rw [semN_branch_cons, semC_eq_get, hg]
          · rw [except_bind_ok] at hri
            obtain ⟨⟨res, k3, c3⟩, hra, hri⟩ := hri
            have hch := canonC_get useExt cs k0 hcanC hg
            have hb := MChildren.get_lt_len cs k0 hg
            obtain ⟨nc, rfl, hnc⟩ := canonH_elim useExt child hch
            rcases res with _ | ⟨newH, ch2⟩
            · -- child deleted: fix the remaining branch
              dsimp only at hri
              rw [except_bind_ok] at hri
              obtain ⟨⟨f, c4⟩, hfx, hri⟩ := hri
              cases hri
              have hwk : canonW useExt (.branch (cs.set k0 none) v) = true := by
                rw [canonW_branch_iff]
                exact ⟨hu, by rw [MChildren.len_set]; exact hlen,
                  canonC_set_none useExt cs k0 hcanC, hval⟩
              obtain ⟨hcanf, hlef⟩ := fix_pres hp useExt fuel _ _ _ _ hwk hfx
              have hmid : ∀ ks w, semN (.branch (cs.set k0 none) v) ks = some w →
                  semN (.branch cs v) ks = some w := by
                intro ks w h
                cases ks with
                | nil => rwa [semN_branch_nil] at h ⊢
                | cons m r =>
                  rw [semN_branch_cons, semC_set _ _ _ _ _ hb] at h
                  rw [semN_branch_cons]
                  split at h
                  · cases h
                  · exact h
              refine ⟨hcanf, fun ks w h => hmid ks w (hlef ks w h), ?_⟩
              refine sem_none_of_le f _ (k0 :: krest) hlef ?_
              rw [semN_branch_cons, semC_set _ _ _ _ _ hb, if_pos rfl]
            · -- child kept
              obtain ⟨n2, rfl, hcan2, hcont2, hnone2, hbr2⟩ :=
                ihAt _ _ _ _ hnc hra newH ch2 rfl
              dsimp only at hri
              have hnode2 := True.intro
              have hnode : canonN useExt
                  (.branch (cs.set k0 (some (.inMem (.fresh n2)))) v) = true ∧
                  (∀ ks w, semN (.branch (cs.set k0 (some (.inMem (.fresh n2)))) v)
                    ks = some w → semN (.branch cs v) ks = some w) ∧
                  semN (.branch (cs.set k0 (some (.inMem (.fresh n2)))) v)
                    (k0 :: krest) = none := by
                refine ⟨?_, ?_, ?_⟩
                · rw [canonN_branch_iff]
                  refine ⟨hu, by rw [MChildren.len_set]; exact hlen,
                    canonC_set_some useExt cs k0 _ hcan2 hcanC, hval, ?_⟩
                  rwa [countC_set_some_of_some cs k0 (.inMem (.fresh n2)) hg]
                · intro ks w h
                  cases ks with
                  | nil => rwa [semN_branch_nil] at h ⊢
                  | cons m r =>
                    rw [semN_branch_cons, semC_set _ _ _ _ _ hb] at h
                    rw [semN_branch_cons]
                    split at h
                    · next hm =>
                      subst hm
                      dsimp only at h
                      simp only [semC_eq_get, hg, semH_fresh]
                      exact hcont2 r w h
                    · exact h
                · rw [semN_branch_cons, semC_set _ _ _ _ _ hb, if_pos rfl]
                  simpa [advance_rest, semH_fresh] using hnone2
              rcases ch2 with _ | _
              · have hout : out.1 = Action.restore
                    (.branch ((cs.set k0 none).set k0
                      (some (.inMem (.fresh n2)))) v) := by
                  cases hri
                  rfl
                rw [MChildren.set_set] at hout
                rw [hout]
                exact ⟨hnode.1, hnode.2.1, hnode.2.2, fun _ => rfl⟩
              · have hout : out.1 = Action.replace
                    (.branch ((cs.set k0 none).set k0
                      (some (.inMem (.fresh n2)))) v) := by
                  cases hri
                  rfl
                rw [MChildren.set_set] at hout
                rw [hout]
                exact ⟨hnode.1, hnode.2.1, hnode.2.2⟩
      | nbranch ek cs v =>
        rw [canonN_nbranch_iff] at hcn
        obtain ⟨hu, hnib, hlen, hcanC, hval, harit⟩ := hcn
        cases kr with
        | nil =>
          cases v with
          | none =>
            simp only [removeInspector, List.isEmpty_nil, List.isEmpty_cons] at hri
            cases hri
            refine ⟨?_, fun ks w h => h, semN_nbranch_nil_none ek cs,
              fun h => h⟩
            rw [canonN_nbranch_iff]
            exact ⟨hu, hnib, hlen, hcanC, hval, harit⟩
          | some val =>
            simp only [removeInspector, List.isEmpty_nil, List.isEmpty_cons] at hri
            rw [except_bind_ok] at hri
            obtain ⟨⟨f, c4⟩, hfx, hri⟩ := hri
            cases hri
            have hwk : canonW useExt (.nbranch ek cs none) = true := by
              rw [canonW_nbranch_iff]
              exact ⟨hu, hnib, hlen, hcanC, rfl⟩
            obtain ⟨hcanf, hlef⟩ := fix_pres hp useExt fuel _ _ _ _ hwk hfx
            refine ⟨hcanf, ?_, ?_⟩
            · intro ks w h
              exact sem_nbranch_none_le ek cs (some val) ks w (hlef ks w h)
            · exact sem_none_of_le f _ [] hlef (semN_nbranch_nil_none ek cs)
        | cons k0 krest =>
          simp only [removeInspector, List.isEmpty_nil, List.isEmpty_cons] at hri
          by_cases h1 : commonPrefixLen ek (k0 :: krest) = ek.length ∧
              commonPrefixLen ek (k0 :: krest) = (k0 :: krest).length
          · rw [if_pos h1] at hri
            have hek : ek = k0 :: krest := cpl_full _ _ h1.1 h1.2
            cases v with
            | none =>
              cases hri
              refine ⟨?_, fun ks w h => h, ?_, fun h => h⟩
              · rw [canonN_nbranch_iff]
                exact ⟨hu, hnib, hlen, hcanC, hval, harit⟩
              · rw [← hek]
                simpa using semN_nbranch_append ek cs none []
            | some val =>
              rw [except_bind_ok] at hri
              obtain ⟨⟨f, c4⟩, hfx, hri⟩ := hri
              cases hri
              have hwk : canonW useExt (.nbranch ek cs none) = true := by
                rw [canonW_nbranch_iff]
                exact ⟨hu, hnib, hlen, hcanC, rfl⟩
              obtain ⟨hcanf, hlef⟩ := fix_pres hp useExt fuel _ _ _ _ hwk hfx
              refine ⟨hcanf, ?_, ?_⟩
              · intro ks w h
                exact sem_nbranch_none_le ek cs (some val) ks w (hlef ks w h)
              · refine sem_none_of_le f _ (k0 :: krest) hlef ?_
                rw [← hek]
                simpa using semN_nbranch_append ek cs none []
          · rw [if_neg h1] at hri
            by_cases h2 : commonPrefixLen ek (k0 :: krest) < ek.length
            · rw [if_pos h2] at hri
              cases hri
              refine ⟨?_, fun ks w h => h, ?_, fun h => h⟩
              · rw [canonN_nbranch_iff]
                exact ⟨hu, hnib, hlen, hcanC, hval, harit⟩
              · exact semN_nbranch_not_pre ek cs v _ (cpl_not_pre _ _ h2)
            · rw [if_neg h2] at hri
              have hcpe : commonPrefixLen ek (k0 :: krest) = ek.length := by
                have := cpl_le_left ek (k0 :: krest)
                omega
              have hcplt : ek.length < (k0 :: krest).length := by
                have h3 := cpl_le_right ek (k0 :: krest)
                rcases Nat.lt_or_ge ek.length (k0 :: krest).length with h4 | h4
                · exact h4
                · exact absurd ⟨hcpe, by omega⟩ h1
              have hek : ek = (k0 :: krest).take ek.length :=
                cpl_eq_left_take ek (k0 :: krest) hcpe
              set pk : Nibbles := k0 :: krest with hpk
              have hdec : pk = ek ++ pk.getD ek.length 0 :: pk.drop (ek.length + 1) := by
                conv_lhs => rw [list_decomp pk ek.length hcplt]
                rw [← hek]
              rw [hcpe] at hri
              rcases hg : cs.get (pk.getD ek.length 0)
                with _ | child <;> rw [hg] at hri
              · cases hri
                refine ⟨?_, fun ks w h => h, ?_, fun h => h⟩
                · rw [canonN_nbranch_iff]
                  exact ⟨hu, hnib, hlen, hcanC, hval, harit⟩
                · conv_lhs => arg 2; rw [hdec]
                  rw [semN_nbranch_append]
                  dsimp only
                  rw [semC_eq_get, hg]
              · rw [except_bind_ok] at hri
                obtain ⟨⟨res, k3, c3⟩, hra, hri⟩ := hri
                have hch := canonC_get useExt cs _ hcanC hg
                have hb := MChildren.get_lt_len cs _ hg
                obtain ⟨nc, rfl, hnc⟩ := canonH_elim useExt child hch
                rcases res with _ | ⟨newH, ch2⟩
                · dsimp only at hri
                  rw [except_bind_ok] at hri
                  obtain ⟨⟨f, c4⟩, hfx, hri⟩ := hri
                  cases hri
                  have hwk : canonW useExt
                      (.nbranch ek (cs.set (pk.getD ek.length 0) none) v) = true := by
                    rw [canonW_nbranch_iff]
                    exact ⟨hu, hnib, by rw [MChildren.len_set]; exact hlen,
                      canonC_set_none useExt cs _ hcanC, hval⟩
                  obtain ⟨hcanf, hlef⟩ := fix_pres hp useExt fuel _ _ _ _ hwk hfx
                  have hmid : ∀ ks w,
                      semN (.nbranch ek (cs.set (pk.getD ek.length 0) none) v) ks =
                        some w → semN (.nbranch ek cs v) ks = some w := by
                    intro ks w h
                    obtain ⟨ks2, rfl⟩ := semN_nbranch_some _ _ _ _ _ h
                    rw [semN_nbranch_append] at h ⊢
                    cases ks2 with
                    | nil => exact h
                    | cons m r =>
                      dsimp only at h ⊢
                      rw [semC_set _ _ _ _ _ hb] at h
                      split at h
                      · cases h
                      · exact h
                  refine ⟨hcanf, fun ks w h => hmid ks w (hlef ks w h), ?_⟩
                  refine sem_none_of_le f _ pk hlef ?_
                  conv_lhs => arg 2; rw [hdec]
                  rw [semN_nbranch_append]
                  dsimp only
                  rw [semC_set _ _ _ _ _ hb, if_pos rfl]
                · obtain ⟨n2, rfl, hcan2, hcont2, hnone2, hbr2⟩ :=
                    ihAt _ _ _ _ hnc hra newH ch2 rfl
                  dsimp only at hri
                  have hnode2 := True.intro
                  have hnode : canonN useExt (.nbranch ek
                        (cs.set (pk.getD ek.length 0)
                          (some (.inMem (.fresh n2)))) v) = true ∧
                      (∀ ks w, semN (.nbranch ek (cs.set (pk.getD ek.length 0)
                          (some (.inMem (.fresh n2)))) v) ks = some w →
                        semN (.nbranch ek cs v) ks = some w) ∧
                      semN (.nbranch ek (cs.set (pk.getD ek.length 0)
                        (some (.inMem (.fresh n2)))) v) pk = none := by
                    refine ⟨?_, ?_, ?_⟩
                    · rw [canonN_nbranch_iff]
                      refine ⟨hu, hnib, by rw [MChildren.len_set]; exact hlen,
                        canonC_set_some useExt cs _ _ hcan2 hcanC, hval, ?_⟩
                      rwa [countC_set_some_of_some cs _ (.inMem (.fresh n2)) hg]
                    · intro ks w h
                      obtain ⟨ks2, rfl⟩ := semN_nbranch_some _ _ _ _ _ h
                      rw [semN_nbranch_append] at h ⊢
                      cases ks2 with
                      | nil => exact h
                      | cons m r =>
                        dsimp only at h ⊢
                        rw [semC_set _ _ _ _ _ hb] at h
                        split at h
                        · next hm =>
                          subst hm
                          dsimp only at h
                          simp only [semC_eq_get, hg, semH_fresh]
                          exact hcont2 r w h
                        · exact h
                    · conv_lhs => arg 2; rw [hdec]
                      rw [semN_nbranch_append]
                      dsimp only
                      rw [semC_set _ _ _ _ _ hb, if_pos rfl]
                      simpa [advance_rest, hcpe, semH_fresh] using hnone2
                  rcases ch2 with _ | _
                  · have hout : out.1 = Action.restore
                        (.nbranch ek ((cs.set (pk.getD ek.length 0) none).set
                          (pk.getD ek.length 0) (some (.inMem (.fresh n2)))) v) := by
                      cases hri
                      rfl
                    rw [MChildren.set_set] at hout
                    rw [hout]
                    exact ⟨hnode.1, hnode.2.1, hnode.2.2,
                      fun h => absurd h (by simp [isBr])⟩
                  · have hout : out.1 = Action.replace
                        (.nbranch ek ((cs.set (pk.getD ek.length 0) none).set
                          (pk.getD ek.length 0) (some (.inMem (.fresh n2)))) v) := by
                      cases hri
                      rfl
                    rw [MChildren.set_set] at hout
                    rw [hout]
                    exact ⟨hnode.1, hnode.2.1, hnode.2.2⟩
      | ext ek child =>
        rw [canonN_ext_iff] at hcn
        obtain ⟨hu, hnib, hne, hbr, hch⟩ := hcn
        obtain ⟨nc, rfl, hnc⟩ := canonH_elim useExt child hch
        simp only [removeInspector, List.isEmpty_nil, List.isEmpty_cons] at hri
        by_cases h1 : commonPrefixLen ek kr = ek.length
        · rw [if_pos h1] at hri
          have hle : ek.length ≤ kr.length := by
            have := cpl_le_right ek kr
            omega
          have hek : ek = kr.take ek.length := by
            have := cpl_eq_left_take ek kr h1
            rwa [← h1] at this ⊢
          have hkr : kr = ek ++ kr.drop ek.length := by
            conv_lhs => rw [← List.take_append_drop ek.length kr, ← hek]
          rw [except_bind_ok] at hri
          obtain ⟨⟨res, k3, c3⟩, hra, hri⟩ := hri
          rcases res with _ | ⟨newH, ch2⟩
          · dsimp only at hri
            cases hri
            exact trivial
          · obtain ⟨n2, rfl, hcan2, hcont2, hnone2, hbr2⟩ :=
              ihAt _ _ _ _ hnc hra newH ch2 rfl
            have hcont3 : ∀ ks w,
                semN (.ext ek (.inMem (.fresh n2))) ks = some w →
                  semN (.ext ek (.inMem (.fresh nc))) ks = some w := by
              intro ks w h
              obtain ⟨ks2, rfl⟩ := semN_ext_some _ _ _ _ h
              rw [semN_ext_append, semH_fresh] at h
              rw [semN_ext_append, semH_fresh]
              exact hcont2 ks2 w h
            have hnone3 : semN (.ext ek (.inMem (.fresh n2))) kr = none := by
              conv_lhs => rw [hkr]
              rw [semN_ext_append, semH_fresh]
              simpa [advance_rest, h1] using hnone2
            rcases ch2 with _ | _
            · -- not changed: restore the extension
              dsimp only at hri
              cases hri
              refine ⟨?_, hcont3, hnone3, fun h => h⟩
              rw [canonN_ext_iff]
              refine ⟨hu, hnib, hne, ?_, hcan2⟩
              rw [isBranchH_fresh]
              rw [isBranchH_fresh] at hbr
              exact hbr2 rfl hbr
            · -- changed: fix the extension
              dsimp only at hri
              rw [if_pos rfl] at hri
              rw [except_bind_ok] at hri
              obtain ⟨⟨f, c4⟩, hfx, hri⟩ := hri
              cases hri
              have hwk : canonW useExt (.ext ek (.inMem (.fresh n2))) = true := by
                rw [canonW_ext_iff]
                exact ⟨hu, hnib, hne, hcan2⟩
              obtain ⟨hcanf, hlef⟩ := fix_pres hp useExt fuel _ _ _ _ hwk hfx
              exact ⟨hcanf, fun ks w h => hcont3 ks w (hlef ks w h),
                sem_none_of_le f _ kr hlef hnone3⟩
        · rw [if_neg h1] at hri
          cases hri
          have h2 : commonPrefixLen ek kr < ek.length := by
            have := cpl_le_left ek kr
            omega
          refine ⟨?_, fun ks w h => h, ?_, fun h => h⟩
          · rw [canonN_ext_iff]
            exact ⟨hu, hnib, hne, hbr, hnc⟩
          · exact semN_ext_not_pre ek _ kr (cpl_not_pre _ _ h2)
    refine ⟨?_, hInsp⟩
    intro c n key out hcn hra
    rw [removeAt.eq_def] at hra
    dsimp only at hra
    simp only [bind, Except.bind, pure, Except.pure] at hra
    rw [inspect] at hra
    simp only [bind, Except.bind, pure, Except.pure] at hra
    rcases hri : removeInspector hp useExt fuel c n key with e | ⟨act, k2, c2⟩ <;>
      rw [hri] at hra
    · simp at hra
    · have hro := ihInsp c n key _ hcn hri
      rcases act with n2 | n2 | _ <;> dsimp only at hra <;> cases hra
      · -- replace
        intro h2 ch hout
        replace hout : some (MHandle.inMem (MStored.fresh n2), true) =
            some (h2, ch) := hout
        obtain ⟨rfl, rfl⟩ : MHandle.inMem (MStored.fresh n2) = h2 ∧
            true = ch := by simpa using hout
        simp only [remActOk] at hro
        exact ⟨n2, rfl, hro.1, hro.2.1, hro.2.2, fun h => by cases h⟩
      · -- restore
        intro h2 ch hout
        replace hout : some (MHandle.inMem (MStored.fresh n2), false) =
            some (h2, ch) := hout
        obtain ⟨rfl, rfl⟩ : MHandle.inMem (MStored.fresh n2) = h2 ∧
            false = ch := by simpa using hout
        simp only [remActOk] at hro
        exact ⟨n2, rfl, hro.1, hro.2.1, hro.2.2.1, fun _ => hro.2.2.2⟩
      · -- delete
        intro h2 ch hout
        replace hout : (none : Option (MHandle × Bool)) = some (h2, ch) := hout
        cases hout


theorem valOk_some (v : Bytes) (h : v ≠ []) : valOk (some v) = true := by
  cases v with
  | nil => exact absurd rfl h
  | cons a l => rfl

theorem nibsOk_cons (a : Nat) (l : Nibbles) :
    nibsOkB (a :: l) = true ↔ a < 16 ∧ nibsOkB l = true := by
  simp [nibsOkB]

theorem cpl_nil_left (b : Nibbles) : commonPrefixLen [] b = 0 := by
  cases b <;> rfl

theorem cpl_nil_right (a : Nibbles) : commonPrefixLen a [] = 0 := by
  cases a <;> rfl

theorem cpl_head_ne (a b : Nibbles) (ha : a ≠ []) (hb : b ≠ [])
    (h : a.getD 0 0 ≠ b.getD 0 0) : commonPrefixLen a b = 0 := by
  cases a with
  | nil => exact absurd rfl ha
  | cons a0 as =>
    cases b with
    | nil => exact absurd rfl hb
    | cons b0 bs =>
      simp only [List.getD_cons_zero] at h
      simp [commonPrefixLen, h]

theorem drop_eq_getD_cons : ∀ (l : List Nat) (n : Nat), n < l.length →
    l.drop n = l.getD n 0 :: l.drop (n + 1)
  | [], n, h => by simp at h
  | a :: as, 0, _ => by simp [List.getD]
  | a :: as, n + 1, h => by
    simp only [List.length_cons] at h
    simpa [List.getD_cons_succ] using drop_eq_getD_cons as n (by omega)

theorem getD_drop_zero (l : List Nat) (n : Nat) (h : n < l.length) :
    (l.drop n).getD 0 0 = l.getD n 0 := by
  rw [drop_eq_getD_cons l n h]
  rfl

theorem take_ne_nil (l : List Nat) (n : Nat) (h0 : 0 < n) (hl : l ≠ []) :
    l.take n ≠ [] := by
  cases l with
  | nil => exact absurd rfl hl
  | cons a as =>
    cases n with
    | zero => omega
    | succ m => simp

theorem emptyChildren_len : emptyChildren.len = 16 := rfl

theorem canonC_empty (useExt : Bool) : canonC useExt emptyChildren = true := rfl

theorem countC_empty : countC emptyChildren = 0 := rfl

theorem semC_empty (n : Nat) (r : Nibbles) : semC emptyChildren n r = none :=
  semC_countC_zero emptyChildren n r rfl


theorem semC_set_self (cs : MChildren) (i : Nat) (h0 : MHandle) (r : Nibbles)
    (hi : i < cs.len) : semC (cs.set i (some h0)) i r = semH h0 r := by
  rw [semC_eq_get, MChildren.get_set_self cs i (some h0) hi]

theorem semC_set_self_none (cs : MChildren) (i : Nat) (r : Nibbles)
    (hi : i < cs.len) : semC (cs.set i none) i r = none := by
  rw [semC_eq_get, MChildren.get_set_self cs i none hi]

theorem semC_set_other (cs : MChildren) (i : Nat) (v : Option MHandle)
    (n : Nat) (r : Nibbles) (hne : n ≠ i) :
    semC (cs.set i v) n r = semC cs n r := by
  rw [semC_eq_get, MChildren.get_set_other cs i n v hne, ← semC_eq_get]

theorem canonH_fresh (useExt : Bool) (n : MNode) :
    canonH useExt (.inMem (.fresh n)) = canonN useExt n := rfl

set_option maxHeartbeats 1600000 in
/-- `insert_at` / `insert_inspector` on canonical trees: the result is
canonical, every binding is the inserted one or an old one, and on
`goesBranch` inputs the result node is a `Branch` (triedbmut.rs, lines
494-778). -/
theorem ins_pres (hp : HParams) (useExt : Bool) : ∀ fuel : Nat,
    (∀ (c : Ctx) (n : MNode) (key : FullKey) (value : Bytes) out,
      canonN useExt n = true → nibsOkB key.rest = true → value ≠ [] →
      insertAt hp useExt fuel c (.inMem (.fresh n)) key value = .ok out →
      ∃ n2, out.1 = .inMem (.fresh n2) ∧ insResOk useExt n key.rest value n2)
    ∧
    (∀ (c : Ctx) (n : MNode) (key : FullKey) (value : Bytes) out,
      canonN useExt n = true → nibsOkB key.rest = true → value ≠ [] →
      insertInspector hp useExt fuel c n key value = .ok out →
      insResOk useExt n key.rest value out.1.unwrapNode) := by
  intro fuel
  induction fuel with
  | zero =>
    constructor
    · intro c n key value out hcn hnib hv h
      simp [insertAt] at h
    · intro c n key value out hcn hnib hv h
      simp [insertInspector] at h
  | succ fuel ih =>
    obtain ⟨ihAt, ihInsp⟩ := ih
    have hInsp : ∀ (c : Ctx) (n : MNode) (key : FullKey) (value : Bytes) out,
        canonN useExt n = true → nibsOkB key.rest = true → value ≠ [] →
        insertInspector hp useExt (fuel + 1) c n key value = .ok out →
        insResOk useExt n key.rest value out.1.unwrapNode := by
      intro c n key value out hcn hnib hv hri
      obtain ⟨kd, kr⟩ := key
      cases n with
      | empty => simp [canonN] at hcn
      | branch cs sv =>
        rw [canonN_branch_iff] at hcn
        obtain ⟨hu, hlen, hcanC, hval, harit⟩ := hcn
        rw [insertInspector.eq_def] at hri
        dsimp only at hri
        cases kr with
        | nil =>
          simp only [List.isEmpty_nil] at hri
          rw [if_pos trivial] at hri
          have hmain : insResOk useExt (.branch cs sv) [] value
              (.branch cs (some value)) := by
            refine ⟨?_, ?_, fun _ => rfl⟩
            · rw [canonN_branch_iff]
              refine ⟨hu, hlen, hcanC, valOk_some value hv, Or.inr ⟨?_, rfl⟩⟩
              rcases harit with h2 | h2
              · omega
              · exact h2.1
            · intro ks w h
              cases ks with
              | nil =>
                rw [semN_branch_nil] at h
                exact Or.inl ⟨rfl, (Option.some.inj h).symm⟩
              | cons m r =>
                rw [semN_branch_cons] at h
                exact Or.inr (by rw [semN_branch_cons]; exact h)
          by_cases hP : sv = some value
          · rw [if_pos hP] at hri
            cases hri
            exact hmain
          · rw [if_neg hP] at hri
            cases hri
            exact hmain
        | cons k0 krest =>
          simp only [List.isEmpty_cons] at hri
          rw [if_neg Bool.false_ne_true] at hri
          simp only [List.getD_cons_zero] at hri
          obtain ⟨hk0, hnibt⟩ := (nibsOk_cons k0 krest).mp hnib
          rcases hg : cs.get k0 with _ | child <;> rw [hg] at hri
          · -- free slot: add a leaf child
            cases hri
            dsimp only [InsertAction.unwrapNode]
            have hb : k0 < cs.len := by omega
            refine ⟨?_, ?_, fun _ => rfl⟩
            · rw [canonN_branch_iff]
              refine ⟨hu, by rw [MChildren.len_set]; exact hlen,
                canonC_set_some useExt cs k0 _
                  ((canonN_leaf_iff useExt krest value).mpr ⟨hnibt, hv⟩)
                  hcanC, hval, Or.inl ?_⟩
              rw [countC_set_some_of_none cs k0 _ hb hg]
              have h1 : 1 ≤ countC cs := by
                rcases harit with h2 | h2
                · omega
                · exact h2.1
              omega
            · intro ks w h
              cases ks with
              | nil =>
                rw [semN_branch_nil] at h
                exact Or.inr (by rw [semN_branch_nil]; exact h)
              | cons m r =>
                rw [semN_branch_cons, semC_set _ _ _ _ _ hb] at h
                split at h
                · next hm =>
                  subst hm
                  dsimp only at h
                  simp only [advance_rest, List.drop_succ_cons,
                    List.drop_zero] at h
                  rw [semH_fresh, semN_leaf_iff] at h
                  exact Or.inl ⟨by rw [h.1], h.2⟩
                · exact Or.inr (by rw [semN_branch_cons]; exact h)
          · -- occupied slot: insert below
            rw [except_bind_ok] at hri
            obtain ⟨⟨newH, ch2, k3, c3⟩, hIA, hri⟩ := hri
            have hchild := canonC_get useExt cs k0 hcanC hg
            obtain ⟨nc, rfl, hnc⟩ := canonH_elim useExt child hchild
            have hb : k0 < cs.len := MChildren.get_lt_len cs k0 hg
            obtain ⟨n2, hnh, hres⟩ := ihAt _ _ _ _ _ hnc hnibt hv hIA
            dsimp only at hnh
            subst hnh
            obtain ⟨hcan2, hcont2, hgb2⟩ := hres
            have hmain : insResOk useExt (.branch cs sv) (k0 :: krest) value
                (.branch (cs.set k0 (some (.inMem (.fresh n2)))) sv) := by
              refine ⟨?_, ?_, fun _ => rfl⟩
              · rw [canonN_branch_iff]
                refine ⟨hu, by rw [MChildren.len_set]; exact hlen,
                  canonC_set_some useExt cs k0 _ hcan2 hcanC, hval, ?_⟩
                rwa [countC_set_some_of_some cs k0 _ hg]
              · intro ks w h
                cases ks with
                | nil =>
                  rw [semN_branch_nil] at h
                  exact Or.inr (by rw [semN_branch_nil]; exact h)
                | cons m r =>
                  rw [semN_branch_cons, semC_set _ _ _ _ _ hb] at h
                  split at h
                  · next hm =>
                    subst hm
                    dsimp only at h
                    rcases hcont2 r w h with ⟨h1, h2⟩ | h3
                    · simp only [advance_rest, List.drop_succ_cons,
                        List.drop_zero] at h1
                      exact Or.inl ⟨by rw [h1], h2⟩
                    · refine Or.inr ?_
                      rw [semN_branch_cons]
                      simp only [semC_eq_get, hg, semH_fresh]
                      exact h3
                  · exact Or.inr (by rw [semN_branch_cons]; exact h)
            rcases ch2 with _ | _ <;> dsimp only at hri <;> cases hri <;>
              (rw [MChildren.set_set]; exact hmain)
      | nbranch ek cs sv =>
        rw [canonN_nbranch_iff] at hcn
        obtain ⟨hu, hnib2, hlen, hcanC, hval, harit⟩ := hcn
        rw [insertInspector.eq_def] at hri
        dsimp only at hri
        by_cases h1 : commonPrefixLen kr ek = ek.length ∧
            commonPrefixLen kr ek = kr.length
        · rw [if_pos h1] at hri
          have hkr : kr = ek := cpl_full kr ek h1.2 h1.1
          subst hkr
          have hmain : insResOk useExt (.nbranch kr cs sv) kr value
              (.nbranch kr cs (some value)) := by
            refine ⟨?_, ?_, fun hgb => by simp [goesBranch] at hgb⟩
            · rw [canonN_nbranch_iff]
              refine ⟨hu, hnib2, hlen, hcanC, valOk_some value hv,
                Or.inr ⟨?_, rfl⟩⟩
              rcases harit with h2 | h2
              · omega
              · exact h2.1
            · intro ks w h
              obtain ⟨ks2, rfl⟩ := semN_nbranch_some _ _ _ _ _ h
              cases ks2 with
              | nil =>
                rw [semN_nbranch_append] at h
                refine Or.inl ⟨by simp, ?_⟩
                have h5 : (some value : Option Bytes) = some w := by simpa using h
                exact (Option.some.inj h5).symm
              | cons m r =>
                refine Or.inr ?_
                rw [semN_nbranch_append] at h ⊢
                simpa using h
          by_cases hP : sv = some value
          · rw [if_pos hP] at hri
            cases hri
            exact hmain
          · rw [if_neg hP] at hri
            cases hri
            exact hmain
        · rw [if_neg h1] at hri
          have hcpk := cpl_le_left kr ek
          have hcpe := cpl_le_right kr ek
          by_cases h2 : commonPrefixLen kr ek < ek.length
          · rw [if_pos h2] at hri
            have hix : ek.getD (commonPrefixLen kr ek) 0 < 16 :=
              nibsOk_getD ek _ hnib2 h2
            have hlowC : canonN useExt
                (.nbranch (ek.drop (commonPrefixLen kr ek + 1)) cs sv) = true := by
              rw [canonN_nbranch_iff]
              exact ⟨hu, nibsOk_drop ek _ hnib2, hlen, hcanC, hval, harit⟩
            have hbE : ek.getD (commonPrefixLen kr ek) 0 < emptyChildren.len := by
              rw [emptyChildren_len]
              exact hix
            have hdecek : ek = ek.take (commonPrefixLen kr ek) ++
                ek.getD (commonPrefixLen kr ek) 0 ::
                ek.drop (commonPrefixLen kr ek + 1) :=
              list_decomp ek _ h2
            -- the spliced-in low node binds exactly the old bindings
            have hlowSem : ∀ m r w,
                semC (emptyChildren.set (ek.getD (commonPrefixLen kr ek) 0)
                  (some (.inMem (.fresh (.nbranch
                    (ek.drop (commonPrefixLen kr ek + 1)) cs sv))))) m r = some w →
                semN (.nbranch ek cs sv)
                  (ek.take (commonPrefixLen kr ek) ++ m :: r) = some w := by
              intro m r w h
              by_cases hm : m = ek.getD (commonPrefixLen kr ek) 0
              · subst hm
                rw [semC_set_self _ _ _ _ hbE, semH_fresh] at h
                obtain ⟨r2, rfl⟩ := semN_nbranch_some _ _ _ _ _ h
                rw [semN_nbranch_append] at h
                have heq : ek.take (commonPrefixLen kr ek) ++
                    ek.getD (commonPrefixLen kr ek) 0 ::
                    (ek.drop (commonPrefixLen kr ek + 1) ++ r2) = ek ++ r2 := by
                  conv_rhs => rw [hdecek]
                  simp
                rw [heq, semN_nbranch_append]
                exact h
              · rw [semC_set_other _ _ _ _ _ hm, semC_empty] at h
                cases h
            by_cases h3 : kr.length - commonPrefixLen kr ek = 0
            · rw [if_pos h3] at hri
              cases hri
              dsimp only [InsertAction.unwrapNode]
              have hckr : commonPrefixLen kr ek = kr.length := by omega
              have hkrt : kr = ek.take (commonPrefixLen kr ek) := by
                rw [hckr]
                exact cpl_eq_left_take kr ek hckr
              refine ⟨?_, ?_, fun hgb => by simp [goesBranch] at hgb⟩
              · rw [canonN_nbranch_iff]
                refine ⟨hu, nibsOk_take ek _ hnib2,
                  by rw [MChildren.len_set]; exact emptyChildren_len,
                  canonC_set_some useExt emptyChildren _ _ hlowC
                    (canonC_empty useExt),
                  valOk_some value hv, Or.inr ⟨?_, rfl⟩⟩
                rw [countC_set_some_of_none emptyChildren _ _ hbE
                  (emptyChildren_get _), countC_empty]
              · intro ks w h
                obtain ⟨ks2, rfl⟩ := semN_nbranch_some _ _ _ _ _ h
                rw [semN_nbranch_append] at h
                cases ks2 with
                | nil =>
                  refine Or.inl ⟨by simpa using hkrt.symm, ?_⟩
                  have h5 : (some value : Option Bytes) = some w := by
                    simpa using h
                  exact (Option.some.inj h5).symm
                | cons m r =>
                  dsimp only at h
                  exact Or.inr (hlowSem m r w h)
            · rw [if_neg h3] at hri
              cases hri
              dsimp only [InsertAction.unwrapNode]
              have hlt : commonPrefixLen kr ek < kr.length := by omega
              have hix2 : kr.getD (commonPrefixLen kr ek) 0 < 16 :=
                nibsOk_getD kr _ hnib hlt
              have hne_ix : kr.getD (commonPrefixLen kr ek) 0 ≠
                  ek.getD (commonPrefixLen kr ek) 0 :=
                cpl_getD_ne kr ek hlt h2
              have hb2 : kr.getD (commonPrefixLen kr ek) 0 <
                  (emptyChildren.set (ek.getD (commonPrefixLen kr ek) 0)
                    (some (.inMem (.fresh (.nbranch
                      (ek.drop (commonPrefixLen kr ek + 1)) cs sv))))).len := by
                rw [MChildren.len_set, emptyChildren_len]
                exact hix2
              have hg2 : (emptyChildren.set (ek.getD (commonPrefixLen kr ek) 0)
                  (some (.inMem (.fresh (.nbranch
                    (ek.drop (commonPrefixLen kr ek + 1)) cs sv))))).get
                  (kr.getD (commonPrefixLen kr ek) 0) = none := by
                rw [MChildren.get_set_other _ _ _ _ hne_ix]
                exact emptyChildren_get _
              have hdKr : kr = kr.take (commonPrefixLen kr ek) ++
                  kr.getD (commonPrefixLen kr ek) 0 ::
                  kr.drop (commonPrefixLen kr ek + 1) :=
                list_decomp kr _ hlt
              have htakes : kr.take (commonPrefixLen kr ek) =
                  ek.take (commonPrefixLen kr ek) := cpl_take_eq kr ek
              refine ⟨?_, ?_, fun hgb => by simp [goesBranch] at hgb⟩
              · rw [canonN_nbranch_iff]
                refine ⟨hu, nibsOk_take ek _ hnib2,
                  by rw [MChildren.len_set, MChildren.len_set]
                     exact emptyChildren_len,
                  canonC_set_some useExt _ _ _
                    ((canonN_leaf_iff useExt _ value).mpr
                      ⟨nibsOk_drop kr _ hnib, hv⟩)
                    (canonC_set_some useExt emptyChildren _ _ hlowC
                      (canonC_empty useExt)),
                  rfl, Or.inl ?_⟩
                rw [countC_set_some_of_none _ _ _ hb2 hg2,
                  countC_set_some_of_none emptyChildren _ _ hbE
                    (emptyChildren_get _), countC_empty]
              · intro ks w h
                obtain ⟨ks2, rfl⟩ := semN_nbranch_some _ _ _ _ _ h
                rw [semN_nbranch_append] at h
                cases ks2 with
                | nil => cases h
                | cons m r =>
                  dsimp only at h
                  by_cases hm : m = kr.getD (commonPrefixLen kr ek) 0
                  · subst hm
                    rw [semC_set_self _ _ _ _ hb2, semH_fresh] at h
                    rw [semN_leaf_iff] at h
                    refine Or.inl ⟨?_, h.2⟩
                    rw [h.1, ← htakes]
                    exact hdKr.symm
                  · rw [semC_set_other _ _ _ _ _ hm] at h
                    exact Or.inr (hlowSem m r w h)
          · rw [if_neg h2] at hri
            have hcpE : commonPrefixLen kr ek = ek.length := by omega
            have hlt : commonPrefixLen kr ek < kr.length := by
              rcases Nat.lt_or_ge (commonPrefixLen kr ek) kr.length with h4 | h4
              · exact h4
              · exact absurd ⟨hcpE, by omega⟩ h1
            have hekt : ek = kr.take (commonPrefixLen kr ek) := by
              rw [hcpE]
              have h5 : commonPrefixLen ek kr = ek.length := by
                rw [cpl_comm]
                exact hcpE
              exact cpl_eq_left_take ek kr h5
            have hdKr : kr = ek ++ kr.getD (commonPrefixLen kr ek) 0 ::
                kr.drop (commonPrefixLen kr ek + 1) := by
              conv_lhs => rw [list_decomp kr _ hlt]
              rw [← hekt]
            have hidx : kr.getD (commonPrefixLen kr ek) 0 < 16 :=
              nibsOk_getD kr _ hnib hlt
            have hbi : kr.getD (commonPrefixLen kr ek) 0 < cs.len := by omega
            rcases hg : cs.get (kr.getD (commonPrefixLen kr ek) 0)
              with _ | child <;> rw [hg] at hri
            · -- free slot: add a leaf child
              cases hri
              dsimp only [InsertAction.unwrapNode]
              refine ⟨?_, ?_, fun hgb => by simp [goesBranch] at hgb⟩
              · rw [canonN_nbranch_iff]
                refine ⟨hu, hnib2, by rw [MChildren.len_set]; exact hlen,
                  canonC_set_some useExt cs _ _
                    ((canonN_leaf_iff useExt _ value).mpr
                      ⟨nibsOk_drop kr _ hnib, hv⟩) hcanC, hval, Or.inl ?_⟩
                rw [countC_set_some_of_none cs _ _ hbi hg]
                have h5 : 1 ≤ countC cs := by
                  rcases harit with h6 | h6
                  · omega
                  · exact h6.1
                omega
              · intro ks w h
                obtain ⟨ks2, rfl⟩ := semN_nbranch_some _ _ _ _ _ h
                rw [semN_nbranch_append] at h
                cases ks2 with
                | nil =>
                  refine Or.inr ?_
                  rw [show ek ++ ([] : Nibbles) = ek ++ [] from rfl,
                    semN_nbranch_append]
                  simpa using h
                | cons m r =>
                  dsimp only at h
                  by_cases hm : m = kr.getD (commonPrefixLen kr ek) 0
                  · subst hm
                    rw [semC_set_self _ _ _ _ hbi, semH_fresh] at h
                    rw [semN_leaf_iff] at h
                    refine Or.inl ⟨?_, h.2⟩
                    rw [h.1]
                    exact hdKr.symm
                  · rw [semC_set_other _ _ _ _ _ hm] at h
                    refine Or.inr ?_
                    rw [semN_nbranch_append]
                    simpa using h
            · -- occupied slot: insert below
              rw [except_bind_ok] at hri
              obtain ⟨⟨newH, ch2, k3, c3⟩, hIA, hri⟩ := hri
              have hchild := canonC_get useExt cs _ hcanC hg
              obtain ⟨nc, rfl, hnc⟩ := canonH_elim useExt child hchild
              obtain ⟨n2, hnh, hres⟩ := ihAt _ _ _ _ _ hnc
                (nibsOk_drop kr _ hnib) hv hIA
              dsimp only at hnh
              subst hnh
              obtain ⟨hcan2, hcont2, hgb2⟩ := hres
              have hmain : insResOk useExt (.nbranch ek cs sv) kr value
                  (.nbranch ek (cs.set (kr.getD (commonPrefixLen kr ek) 0)
                    (some (.inMem (.fresh n2)))) sv) := by
                refine ⟨?_, ?_, fun hgb => by simp [goesBranch] at hgb⟩
                · rw [canonN_nbranch_iff]
                  refine ⟨hu, hnib2, by rw [MChildren.len_set]; exact hlen,
                    canonC_set_some useExt cs _ _ hcan2 hcanC, hval, ?_⟩
                  rwa [countC_set_some_of_some cs _ _ hg]
                · intro ks w h
                  obtain ⟨ks2, rfl⟩ := semN_nbranch_some _ _ _ _ _ h
                  rw [semN_nbranch_append] at h
                  cases ks2 with
                  | nil =>
                    refine Or.inr ?_
                    rw [show ek ++ ([] : Nibbles) = ek ++ [] from rfl,
                      semN_nbranch_append]
                    simpa using h
                  | cons m r =>
                    dsimp only at h
                    by_cases hm : m = kr.getD (commonPrefixLen kr ek) 0
                    · subst hm
                      rw [semC_set_self _ _ _ _ hbi, semH_fresh] at h
                      rcases hcont2 r w h with ⟨hr1, hr2⟩ | h3
                      · refine Or.inl ⟨?_, hr2⟩
                        rw [hr1]
                        exact hdKr.symm
                      · refine Or.inr ?_
                        rw [semN_nbranch_append]
                        dsimp only
                        simp only [semC_eq_get, hg, semH_fresh]
                        exact h3
                    · rw [semC_set_other _ _ _ _ _ hm] at h
                      refine Or.inr ?_
                      rw [semN_nbranch_append]
                      simpa using h
              rcases ch2 with _ | _ <;> dsimp only at hri <;> cases hri <;>
                (rw [MChildren.set_set]; exact hmain)
      | leaf ek sv =>
        rw [canonN_leaf_iff] at hcn
        obtain ⟨hnib2, hsv⟩ := hcn
        rw [insertInspector.eq_def] at hri
        dsimp only at hri
        by_cases h1 : commonPrefixLen kr ek = ek.length ∧
            commonPrefixLen kr ek = kr.length
        · rw [if_pos h1] at hri
          have hkr : kr = ek := cpl_full kr ek h1.2 h1.1
          subst hkr
          have hmain : insResOk useExt (.leaf kr sv) kr value (.leaf kr value) := by
            refine ⟨(canonN_leaf_iff _ _ _).mpr ⟨hnib2, hv⟩, ?_, fun hgb => ?_⟩
            · intro ks w h
              rw [semN_leaf_iff] at h
              exact Or.inl ⟨h.1, h.2⟩
            · exfalso
              simp only [goesBranch, Bool.and_eq_true, beq_iff_eq] at hgb
              obtain ⟨⟨hgu, hg0⟩, hgne⟩ := hgb
              rw [h1.1] at hg0
              have hg1 : kr = [] := List.eq_nil_of_length_eq_zero hg0
              rw [hg1] at hgne
              simp at hgne
          by_cases hP : sv = value
          · rw [if_pos hP] at hri
            cases hri
            exact hmain
          · rw [if_neg hP] at hri
            cases hri
            exact hmain
        · rw [if_neg h1] at hri
          have hcpk := cpl_le_left kr ek
          have hcpe := cpl_le_right kr ek
          by_cases h2 : (useExt = true ∧ commonPrefixLen kr ek = 0) ∨
              (¬useExt = true ∧ commonPrefixLen kr ek < ek.length)
          · rw [if_pos h2] at hri
            rcases fuel with _ | f2
            · rw [except_bind_ok] at hri
              obtain ⟨a, hIA, _⟩ := hri
              simp [insertInspector] at hIA
            by_cases hekE : useExt = true ∧ ek.isEmpty = true
            · -- empty-key leaf transmutes to a valued branch stub
              rw [if_pos hekE] at hri
              have hek0 : ek = [] := by
                cases ek with
                | nil => rfl
                | cons a l => exact absurd hekE.2 (by simp)
              subst hek0
              have hkrne : kr ≠ [] := by
                intro hh
                exact h1 (by simp [hh, cpl_nil_left])
              rcases kr with _ | ⟨k0, krest⟩
              · exact absurd rfl hkrne
              obtain ⟨hk0, hnibt⟩ := (nibsOk_cons k0 krest).mp hnib
              rw [except_bind_ok] at hri
              obtain ⟨⟨ba, k4, c4⟩, hIA, hri⟩ := hri
              rw [insertInspector.eq_def] at hIA
              dsimp only at hIA
              simp only [List.isEmpty_cons] at hIA
              rw [if_neg Bool.false_ne_true] at hIA
              simp only [List.getD_cons_zero, emptyChildren_get] at hIA
              cases hIA
              dsimp only at hri
              cases hri
              dsimp only [InsertAction.unwrapNode]
              simp only [advance_rest, List.drop_succ_cons, List.drop_zero]
              have hbE : k0 < emptyChildren.len := by
                rw [emptyChildren_len]
                exact hk0
              refine ⟨?_, ?_, fun _ => rfl⟩
              · rw [canonN_branch_iff]
                refine ⟨hekE.1,
                  by rw [MChildren.len_set]; exact emptyChildren_len,
                  canonC_set_some useExt emptyChildren k0 _
                    ((canonN_leaf_iff useExt krest value).mpr ⟨hnibt, hv⟩)
                    (canonC_empty useExt), valOk_some sv hsv, Or.inr ⟨?_, rfl⟩⟩
                rw [countC_set_some_of_none emptyChildren k0 _ hbE
                  (emptyChildren_get k0), countC_empty]
              · intro ks w h
                cases ks with
                | nil =>
                  rw [semN_branch_nil] at h
                  refine Or.inr ?_
                  rw [semN_leaf_iff]
                  exact ⟨rfl, (Option.some.inj h).symm⟩
                | cons m r =>
                  rw [semN_branch_cons] at h
                  by_cases hm : m = k0
                  · subst hm
                    rw [semC_set_self _ _ _ _ hbE, semH_fresh,
                      semN_leaf_iff] at h
                    exact Or.inl ⟨by rw [h.1], h.2⟩
                  · rw [semC_set_other _ _ _ _ _ hm, semC_empty] at h
                    cases h
            · rw [if_neg hekE] at hri
              by_cases h3 : useExt = true
              · -- extension layout, shared prefix empty: one-leaf branch stub
                rw [if_pos h3] at hri
                have hcp0 : commonPrefixLen kr ek = 0 := by
                  rcases h2 with h4 | h4
                  · exact h4.2
                  · exact absurd h3 h4.1
                have hekne : ek ≠ [] := by
                  intro hh
                  exact hekE ⟨h3, by rw [hh]; rfl⟩
                have heklen : 0 < ek.length := List.length_pos.mpr hekne
                have hix : ek.getD 0 0 < 16 := nibsOk_getD ek 0 hnib2 heklen
                have hbE : ek.getD 0 0 < emptyChildren.len := by
                  rw [emptyChildren_len]
                  exact hix
                have hdec0 : ek = ek.getD 0 0 :: ek.drop 1 := by
                  simpa using list_decomp ek 0 heklen
                simp only [hcp0, Nat.zero_add] at hri
                rw [except_bind_ok] at hri
                obtain ⟨⟨ba, k4, c4⟩, hIA, hri⟩ := hri
                rw [insertInspector.eq_def] at hIA
                dsimp only at hIA
                rcases kr with _ | ⟨k0, krest⟩
                · -- empty insertion key: the stub takes the new value
                  simp only [List.isEmpty_nil] at hIA
                  rw [if_pos trivial] at hIA
                  rw [if_neg (by simp : ¬((none : Option Bytes) = some value))]
                    at hIA
                  cases hIA
                  dsimp only at hri
                  cases hri
                  dsimp only [InsertAction.unwrapNode]
                  refine ⟨?_, ?_, fun _ => rfl⟩
                  · rw [canonN_branch_iff]
                    refine ⟨h3,
                      by rw [MChildren.len_set]; exact emptyChildren_len,
                      canonC_set_some useExt emptyChildren _ _
                        ((canonN_leaf_iff useExt _ sv).mpr
                          ⟨nibsOk_drop ek 1 hnib2, hsv⟩)
                        (canonC_empty useExt), valOk_some value hv,
                      Or.inr ⟨?_, rfl⟩⟩
                    rw [countC_set_some_of_none emptyChildren _ _ hbE
                      (emptyChildren_get _), countC_empty]
                  · intro ks w h
                    cases ks with
                    | nil =>
                      rw [semN_branch_nil] at h
                      exact Or.inl ⟨rfl, (Option.some.inj h).symm⟩
                    | cons m r =>
                      rw [semN_branch_cons] at h
                      by_cases hm : m = ek.getD 0 0
                      · subst hm
                        rw [semC_set_self _ _ _ _ hbE, semH_fresh,
                          semN_leaf_iff] at h
                        refine Or.inr ?_
                        rw [h.1, ← hdec0, semN_leaf_iff]
                        exact ⟨rfl, h.2⟩
                      · rw [semC_set_other _ _ _ _ _ hm, semC_empty] at h
                        cases h
                · -- nonempty insertion key: two leaves under the stub
                  obtain ⟨hk0, hnibt⟩ := (nibsOk_cons k0 krest).mp hnib
                  have hne0 : k0 ≠ ek.getD 0 0 := by
                    have h5 := cpl_getD_ne (k0 :: krest) ek
                      (by rw [hcp0]; simp) (by rw [hcp0]; exact heklen)
                    rw [hcp0] at h5
                    simpa using h5
                  simp only [List.isEmpty_cons] at hIA
                  rw [if_neg Bool.false_ne_true] at hIA
                  simp only [List.getD_cons_zero] at hIA
                  rw [MChildren.get_set_other _ _ _ _ hne0,
                    emptyChildren_get] at hIA
                  cases hIA
                  dsimp only at hri
                  cases hri
                  dsimp only [InsertAction.unwrapNode]
                  simp only [advance_rest, List.drop_succ_cons, List.drop_zero]
                  have hb2 : k0 < (emptyChildren.set (ek.getD 0 0)
                      (some (.inMem (.fresh (.leaf (ek.drop 1) sv))))).len := by
                    rw [MChildren.len_set, emptyChildren_len]
                    exact hk0
                  refine ⟨?_, ?_, fun _ => rfl⟩
                  · rw [canonN_branch_iff]
                    refine ⟨h3,
                      by rw [MChildren.len_set, MChildren.len_set]
                         exact emptyChildren_len,
                      canonC_set_some useExt _ _ _
                        ((canonN_leaf_iff useExt krest value).mpr ⟨hnibt, hv⟩)
                        (canonC_set_some useExt emptyChildren _ _
                          ((canonN_leaf_iff useExt _ sv).mpr
                            ⟨nibsOk_drop ek 1 hnib2, hsv⟩)
                          (canonC_empty useExt)), rfl, Or.inl ?_⟩
                    rw [countC_set_some_of_none _ _ _ hb2
                      (by rw [MChildren.get_set_other _ _ _ _ hne0]
                          exact emptyChildren_get _),
                      countC_set_some_of_none emptyChildren _ _ hbE
                        (emptyChildren_get _), countC_empty]
                  · intro ks w h
                    cases ks with
                    | nil =>
                      rw [semN_branch_nil] at h
                      cases h
                    | cons m r =>
                      rw [semN_branch_cons] at h
                      by_cases hm : m = k0
                      · subst hm
                        rw [semC_set_self _ _ _ _ hb2, semH_fresh,
                          semN_leaf_iff] at h
                        exact Or.inl ⟨by rw [h.1], h.2⟩
                      · rw [semC_set_other _ _ _ _ _ hm] at h
                        by_cases hm2 : m = ek.getD 0 0
                        · subst hm2
                          rw [semC_set_self _ _ _ _ hbE, semH_fresh,
                            semN_leaf_iff] at h
                          refine Or.inr ?_
                          rw [h.1, ← hdec0, semN_leaf_iff]
                          exact ⟨rfl, h.2⟩
                        · rw [semC_set_other _ _ _ _ _ hm2, semC_empty] at h
                          cases h
              · -- extension-free layout: nibbled-branch stub over the split
                rw [if_neg h3] at hri
                have hcplt : commonPrefixLen kr ek < ek.length := by
                  rcases h2 with h4 | h4
                  · exact absurd h4.1 h3
                  · exact h4.2
                have hix : ek.getD (commonPrefixLen kr ek) 0 < 16 :=
                  nibsOk_getD ek _ hnib2 hcplt
                have hbE : ek.getD (commonPrefixLen kr ek) 0 <
                    emptyChildren.len := by
                  rw [emptyChildren_len]
                  exact hix
                have hdecek : ek = ek.take (commonPrefixLen kr ek) ++
                    ek.getD (commonPrefixLen kr ek) 0 ::
                    ek.drop (commonPrefixLen kr ek + 1) :=
                  list_decomp ek _ hcplt
                have htakes : kr.take (commonPrefixLen kr ek) =
                    ek.take (commonPrefixLen kr ek) := cpl_take_eq kr ek
                have hcp2 : commonPrefixLen kr
                    (kr.take (commonPrefixLen kr ek)) =
                    commonPrefixLen kr ek := cpl_take_self kr _ hcpk
                have hlen2 : (kr.take (commonPrefixLen kr ek)).length =
                    commonPrefixLen kr ek := by
                  rw [List.length_take]
                  omega
                have huF : useExt = false := by
                  revert h3
                  cases useExt <;> simp
                rw [except_bind_ok] at hri
                obtain ⟨⟨ba, k4, c4⟩, hIA, hri⟩ := hri
                rw [insertInspector.eq_def] at hIA
                dsimp only at hIA
                by_cases hc3 : commonPrefixLen kr ek = kr.length
                · -- whole insertion key shared: stub takes the value
                  rw [if_pos ⟨by rw [hcp2, hlen2], by rw [hcp2]; exact hc3⟩]
                    at hIA
                  rw [if_neg (by simp : ¬((none : Option Bytes) = some value))]
                    at hIA
                  cases hIA
                  dsimp only at hri
                  cases hri
                  dsimp only [InsertAction.unwrapNode]
                  have hkrfull : kr.take (commonPrefixLen kr ek) = kr := by
                    rw [hc3, List.take_length]
                  refine ⟨?_, ?_, fun hgb => by
                    simp only [goesBranch, Bool.and_eq_true] at hgb
                    exact absurd hgb.1.1 h3⟩
                  · rw [canonN_nbranch_iff]
                    refine ⟨huF, nibsOk_take kr _ hnib,
                      by rw [MChildren.len_set]; exact emptyChildren_len,
                      canonC_set_some useExt emptyChildren _ _
                        ((canonN_leaf_iff useExt _ sv).mpr
                          ⟨nibsOk_drop ek _ hnib2, hsv⟩)
                        (canonC_empty useExt),
                      valOk_some value hv, Or.inr ⟨?_, rfl⟩⟩
                    rw [countC_set_some_of_none emptyChildren _ _ hbE
                      (emptyChildren_get _), countC_empty]
                  · intro ks w h
                    obtain ⟨ks2, rfl⟩ := semN_nbranch_some _ _ _ _ _ h
                    rw [semN_nbranch_append] at h
                    cases ks2 with
                    | nil =>
                      refine Or.inl ⟨by simp [hkrfull], ?_⟩
                      have h5 : (some value : Option Bytes) = some w := by
                        simpa using h
                      exact (Option.some.inj h5).symm
                    | cons m r =>
                      dsimp only at h
                      by_cases hm : m = ek.getD (commonPrefixLen kr ek) 0
                      · subst hm
                        rw [semC_set_self _ _ _ _ hbE, semH_fresh,
                          semN_leaf_iff] at h
                        refine Or.inr ?_
                        rw [h.1]
                        have heq : kr.take (commonPrefixLen kr ek) ++
                            ek.getD (commonPrefixLen kr ek) 0 ::
                            ek.drop (commonPrefixLen kr ek + 1) = ek := by
                          rw [htakes]
                          exact hdecek.symm
                        rw [heq, semN_leaf_iff]
                        exact ⟨rfl, h.2⟩
                      · rw [semC_set_other _ _ _ _ _ hm, semC_empty] at h
                        cases h
                · -- insertion key diverges: two children under the stub
                  have hlt : commonPrefixLen kr ek < kr.length := by omega
                  have hix2 : kr.getD (commonPrefixLen kr ek) 0 < 16 :=
                    nibsOk_getD kr _ hnib hlt
                  have hne_ix : kr.getD (commonPrefixLen kr ek) 0 ≠
                      ek.getD (commonPrefixLen kr ek) 0 :=
                    cpl_getD_ne kr ek hlt hcplt
                  have hdKr : kr = kr.take (commonPrefixLen kr ek) ++
                      kr.getD (commonPrefixLen kr ek) 0 ::
                      kr.drop (commonPrefixLen kr ek + 1) :=
                    list_decomp kr _ hlt
                  rw [if_neg (fun hA => hc3 (hcp2.symm.trans hA.2))] at hIA
                  rw [if_neg (show ¬(commonPrefixLen kr
                      (kr.take (commonPrefixLen kr ek)) <
                      (kr.take (commonPrefixLen kr ek)).length) by
                    rw [hcp2, hlen2]
                    omega)] at hIA
                  rw [hcp2] at hIA
                  rw [MChildren.get_set_other _ _ _ _ hne_ix,
                    emptyChildren_get] at hIA
                  cases hIA
                  dsimp only at hri
                  cases hri
                  dsimp only [InsertAction.unwrapNode]
                  simp only [advance_rest]
                  have hb2 : kr.getD (commonPrefixLen kr ek) 0 <
                      (emptyChildren.set (ek.getD (commonPrefixLen kr ek) 0)
                        (some (.inMem (.fresh
                          (.leaf (ek.drop (commonPrefixLen kr ek + 1))
                            sv))))).len := by
                    rw [MChildren.len_set, emptyChildren_len]
                    exact hix2
                  refine ⟨?_, ?_, fun hgb => by
                    simp only [goesBranch, Bool.and_eq_true] at hgb
                    exact absurd hgb.1.1 h3⟩
                  · rw [canonN_nbranch_iff]
                    refine ⟨huF, nibsOk_take kr _ hnib,
                      by rw [MChildren.len_set, MChildren.len_set]
                         exact emptyChildren_len,
                      canonC_set_some useExt _ _ _
                        ((canonN_leaf_iff useExt _ value).mpr
                          ⟨nibsOk_drop kr _ hnib, hv⟩)
                        (canonC_set_some useExt emptyChildren _ _
                          ((canonN_leaf_iff useExt _ sv).mpr
                            ⟨nibsOk_drop ek _ hnib2, hsv⟩)
                          (canonC_empty useExt)), rfl, Or.inl ?_⟩
                    rw [countC_set_some_of_none _ _ _ hb2
                      (by rw [MChildren.get_set_other _ _ _ _ hne_ix]
                          exact emptyChildren_get _),
                      countC_set_some_of_none emptyChildren _ _ hbE
                        (emptyChildren_get _), countC_empty]
                  · intro ks w h
                    obtain ⟨ks2, rfl⟩ := semN_nbranch_some _ _ _ _ _ h
                    rw [semN_nbranch_append] at h
                    cases ks2 with
                    | nil => cases h
                    | cons m r =>
                      dsimp only at h
                      by_cases hm : m = kr.getD (commonPrefixLen kr ek) 0
                      · subst hm
                        rw [semC_set_self _ _ _ _ hb2, semH_fresh,
                          semN_leaf_iff] at h
                        refine Or.inl ⟨?_, h.2⟩
                        rw [h.1]
                        exact hdKr.symm
                      · rw [semC_set_other _ _ _ _ _ hm] at h
                        by_cases hm2 : m = ek.getD (commonPrefixLen kr ek) 0
                        · subst hm2
                          rw [semC_set_self _ _ _ _ hbE, semH_fresh,
                            semN_leaf_iff] at h
                          refine Or.inr ?_
                          rw [h.1]
                          have heq : kr.take (commonPrefixLen kr ek) ++
                              ek.getD (commonPrefixLen kr ek) 0 ::
                              ek.drop (commonPrefixLen kr ek + 1) = ek := by
                            rw [htakes]
                            exact hdecek.symm
                          rw [heq, semN_leaf_iff]
                          exact ⟨rfl, h.2⟩
                        · rw [semC_set_other _ _ _ _ _ hm2, semC_empty] at h
                          cases h
          · rw [if_neg h2] at hri
            by_cases h3 : useExt = true
            · -- extension layout with a shared prefix
              rw [if_neg (fun hn => hn h3)] at hri
              have hcp0 : commonPrefixLen kr ek ≠ 0 :=
                fun hh => h2 (Or.inl ⟨h3, hh⟩)
              by_cases h4 : commonPrefixLen kr ek = ek.length
              · -- fully shared: stub branch wrapped in the old extension
                rw [if_pos h4] at hri
                rcases fuel with _ | f2
                · rw [except_bind_ok] at hri
                  obtain ⟨a, hIA, _⟩ := hri
                  simp [insertInspector] at hIA
                have hekne : ek ≠ [] := List.ne_nil_of_length_pos (by omega)
                have hlt : commonPrefixLen kr ek < kr.length := by
                  rcases Nat.lt_or_ge (commonPrefixLen kr ek) kr.length
                    with h5 | h5
                  · exact h5
                  · exact absurd ⟨h4, by omega⟩ h1
                have hekt : ek = kr.take (commonPrefixLen kr ek) := by
                  rw [h4]
                  have h5 : commonPrefixLen ek kr = ek.length := by
                    rw [cpl_comm]
                    exact h4
                  exact cpl_eq_left_take ek kr h5
                have hdrop : kr.drop (commonPrefixLen kr ek) =
                    kr.getD (commonPrefixLen kr ek) 0 ::
                    kr.drop (commonPrefixLen kr ek + 1) :=
                  drop_eq_getD_cons kr _ hlt
                have hdKr : kr = ek ++ kr.getD (commonPrefixLen kr ek) 0 ::
                    kr.drop (commonPrefixLen kr ek + 1) := by
                  conv_lhs => rw [list_decomp kr _ hlt]
                  rw [← hekt]
                have hidx : kr.getD (commonPrefixLen kr ek) 0 < 16 :=
                  nibsOk_getD kr _ hnib hlt
                have hbE : kr.getD (commonPrefixLen kr ek) 0 <
                    emptyChildren.len := by
                  rw [emptyChildren_len]
                  exact hidx
                have hadv : (({ done := kd, rest := kr } : FullKey).advance
                    (commonPrefixLen kr ek)) =
                    { done := kd ++ kr.take (commonPrefixLen kr ek),
                      rest := kr.getD (commonPrefixLen kr ek) 0 ::
                        kr.drop (commonPrefixLen kr ek + 1) } := by
                  simp only [FullKey.advance]
                  rw [hdrop]
                rw [hadv] at hri
                rw [except_bind_ok] at hri
                obtain ⟨⟨ba, k4, c4⟩, hIA, hri⟩ := hri
                rw [insertInspector.eq_def] at hIA
                dsimp only at hIA
                simp only [List.isEmpty_cons] at hIA
                rw [if_neg Bool.false_ne_true] at hIA
                simp only [List.getD_cons_zero, emptyChildren_get] at hIA
                cases hIA
                dsimp only at hri
                cases hri
                dsimp only [InsertAction.unwrapNode]
                simp only [advance_rest, List.drop_succ_cons, List.drop_zero]
                refine ⟨?_, ?_, fun hgb => by
                  simp only [goesBranch, Bool.and_eq_true, beq_iff_eq] at hgb
                  exact absurd hgb.1.2 hcp0⟩
                · rw [canonN_ext_iff]
                  refine ⟨h3, hnib2, hekne, isBranchH_fresh_branch _ _, ?_⟩
                  rw [canonH_fresh, canonN_branch_iff]
                  refine ⟨h3,
                    by rw [MChildren.len_set]; exact emptyChildren_len,
                    canonC_set_some useExt emptyChildren _ _
                      ((canonN_leaf_iff useExt _ value).mpr
                        ⟨nibsOk_drop kr _ hnib, hv⟩)
                      (canonC_empty useExt), valOk_some sv hsv,
                    Or.inr ⟨?_, rfl⟩⟩
                  rw [countC_set_some_of_none emptyChildren _ _ hbE
                    (emptyChildren_get _), countC_empty]
                · intro ks w h
                  obtain ⟨ks2, rfl⟩ := semN_ext_some _ _ _ _ h
                  rw [semN_ext_append, semH_fresh] at h
                  cases ks2 with
                  | nil =>
                    rw [semN_branch_nil] at h
                    refine Or.inr ?_
                    rw [show ek ++ ([] : Nibbles) = ek by simp, semN_leaf_iff]
                    exact ⟨rfl, (Option.some.inj h).symm⟩
                  | cons m r =>
                    rw [semN_branch_cons] at h
                    by_cases hm : m = kr.getD (commonPrefixLen kr ek) 0
                    · subst hm
                      rw [semC_set_self _ _ _ _ hbE, semH_fresh,
                        semN_leaf_iff] at h
                      refine Or.inl ⟨?_, h.2⟩
                      rw [h.1]
                      exact hdKr.symm
                    · rw [semC_set_other _ _ _ _ _ hm, semC_empty] at h
                      cases h
              · -- partially shared: recurse on the split-off leaf
                rw [if_neg h4] at hri
                have hcplt : commonPrefixLen kr ek < ek.length := by omega
                have hekne : ek ≠ [] := List.ne_nil_of_length_pos (by omega)
                have hdropNe : ek.drop (commonPrefixLen kr ek) ≠ [] := by
                  intro hh
                  have h5 := congrArg List.length hh
                  simp only [List.length_drop, List.length_nil] at h5
                  omega
                rw [except_bind_ok] at hri
                obtain ⟨⟨ba, k4, c4⟩, hIA, hri⟩ := hri
                have hlow : canonN useExt
                    (.leaf (ek.drop (commonPrefixLen kr ek)) sv) = true :=
                  (canonN_leaf_iff useExt _ sv).mpr
                    ⟨nibsOk_drop ek _ hnib2, hsv⟩
                obtain ⟨hcanI, hcontI, hgbI⟩ :=
                  ihInsp _ _ _ _ _ hlow (nibsOk_drop kr _ hnib) hv hIA
                dsimp only [advance_rest] at hcontI hgbI
                have hcpl0 : commonPrefixLen
                    (kr.drop (commonPrefixLen kr ek))
                    (ek.drop (commonPrefixLen kr ek)) = 0 := by
                  rcases Nat.lt_or_ge (commonPrefixLen kr ek) kr.length
                    with hlt | hge
                  · apply cpl_head_ne
                    · intro hh
                      have h5 := congrArg List.length hh
                      simp only [List.length_drop, List.length_nil] at h5
                      omega
                    · exact hdropNe
                    · rw [getD_drop_zero kr _ hlt, getD_drop_zero ek _ hcplt]
                      exact cpl_getD_ne kr ek hlt hcplt
                  · have hnil : kr.drop (commonPrefixLen kr ek) = [] :=
                      List.drop_eq_nil_of_le hge
                    rw [hnil, cpl_nil_left]
                have hgb : goesBranch useExt
                    (.leaf (ek.drop (commonPrefixLen kr ek)) sv)
                    (kr.drop (commonPrefixLen kr ek)) = true := by
                  simp only [goesBranch, Bool.and_eq_true, beq_iff_eq]
                  refine ⟨⟨h3, hcpl0⟩, ?_⟩
                  rcases hdl : ek.drop (commonPrefixLen kr ek) with _ | ⟨a, l⟩
                  · exact absurd hdl hdropNe
                  · rfl
                have hbrI := hgbI hgb
                dsimp only at hri
                cases hri
                dsimp only [InsertAction.unwrapNode]
                refine ⟨?_, ?_, fun hgb2 => by
                  simp only [goesBranch, Bool.and_eq_true, beq_iff_eq] at hgb2
                  exact absurd hgb2.1.2 hcp0⟩
                · rw [canonN_ext_iff]
                  refine ⟨h3, nibsOk_take ek _ hnib2,
                    take_ne_nil ek _ (by omega) hekne, ?_, ?_⟩
                  · rw [isBranchH_fresh]
                    exact hbrI
                  · rw [canonH_fresh]
                    exact hcanI
                · intro ks w h
                  obtain ⟨ks2, rfl⟩ := semN_ext_some _ _ _ _ h
                  rw [semN_ext_append, semH_fresh] at h
                  rcases hcontI ks2 w h with ⟨hk1, hk2⟩ | hrt
                  · refine Or.inl ⟨?_, hk2⟩
                    rw [hk1, ← cpl_take_eq kr ek, List.take_append_drop]
                  · rw [semN_leaf_iff] at hrt
                    refine Or.inr ?_
                    rw [hrt.1, List.take_append_drop, semN_leaf_iff]
                    exact ⟨rfl, hrt.2⟩
            · -- extension-free fallthrough: stub branch with the old value
              rw [if_pos h3] at hri
              have hcpE : commonPrefixLen kr ek = ek.length := by
                rcases Nat.lt_or_ge (commonPrefixLen kr ek) ek.length
                  with h5 | h5
                · exact absurd (Or.inr ⟨h3, h5⟩) h2
                · omega
              have hlt : commonPrefixLen kr ek < kr.length := by
                rcases Nat.lt_or_ge (commonPrefixLen kr ek) kr.length
                  with h5 | h5
                · exact h5
                · exact absurd ⟨hcpE, by omega⟩ h1
              have hekt : ek = kr.take (commonPrefixLen kr ek) := by
                rw [hcpE]
                have h5 : commonPrefixLen ek kr = ek.length := by
                  rw [cpl_comm]
                  exact hcpE
                exact cpl_eq_left_take ek kr h5
              have hdKr : kr = ek ++ kr.getD (commonPrefixLen kr ek) 0 ::
                  kr.drop (commonPrefixLen kr ek + 1) := by
                conv_lhs => rw [list_decomp kr _ hlt]
                rw [← hekt]
              have hidx : kr.getD (commonPrefixLen kr ek) 0 < 16 :=
                nibsOk_getD kr _ hnib hlt
              have hbE : kr.getD (commonPrefixLen kr ek) 0 <
                  emptyChildren.len := by
                rw [emptyChildren_len]
                exact hidx
              rcases fuel with _ | f2
              · rw [except_bind_ok] at hri
                obtain ⟨a, hIA, _⟩ := hri
                simp [insertInspector] at hIA
              rw [except_bind_ok] at hri
              obtain ⟨⟨ba, k4, c4⟩, hIA, hri⟩ := hri
              rw [insertInspector.eq_def] at hIA
              dsimp only at hIA
              rw [if_neg (fun hA => absurd hA.2 (by omega))] at hIA
              rw [if_neg (show ¬(commonPrefixLen kr ek < ek.length)
                by omega)] at hIA
              rw [emptyChildren_get] at hIA
              cases hIA
              dsimp only at hri
              cases hri
              dsimp only [InsertAction.unwrapNode]
              simp only [advance_rest]
              refine ⟨?_, ?_, fun hgb => by
                simp only [goesBranch, Bool.and_eq_true] at hgb
                exact absurd hgb.1.1 h3⟩
              · rw [canonN_nbranch_iff]
                refine ⟨by revert h3; cases useExt <;> simp, hnib2,
                  by rw [MChildren.len_set]; exact emptyChildren_len,
                  canonC_set_some useExt emptyChildren _ _
                    ((canonN_leaf_iff useExt _ value).mpr
                      ⟨nibsOk_drop kr _ hnib, hv⟩)
                    (canonC_empty useExt), valOk_some sv hsv,
                  Or.inr ⟨?_, rfl⟩⟩
                rw [countC_set_some_of_none emptyChildren _ _ hbE
                  (emptyChildren_get _), countC_empty]
              · intro ks w h
                obtain ⟨ks2, rfl⟩ := semN_nbranch_some _ _ _ _ _ h
                rw [semN_nbranch_append] at h
                cases ks2 with
                | nil =>
                  refine Or.inr ?_
                  have h5 : (some sv : Option Bytes) = some w := by
                    simpa using h
                  rw [show ek ++ ([] : Nibbles) = ek by simp, semN_leaf_iff]
                  exact ⟨rfl, (Option.some.inj h5).symm⟩
                | cons m r =>
                  dsimp only at h
                  by_cases hm : m = kr.getD (commonPrefixLen kr ek) 0
                  · subst hm
                    rw [semC_set_self _ _ _ _ hbE, semH_fresh,
                      semN_leaf_iff] at h
                    refine Or.inl ⟨?_, h.2⟩
                    rw [h.1]
                    exact hdKr.symm
                  · rw [semC_set_other _ _ _ _ _ hm, semC_empty] at h
                    cases h
      | ext ek child =>
        rw [canonN_ext_iff] at hcn
        obtain ⟨hu, hnib2, hekne, hbr, hch⟩ := hcn
        obtain ⟨nc, rfl, hnc⟩ := canonH_elim useExt child hch
        rw [isBranchH_fresh] at hbr
        rw [insertInspector.eq_def] at hri
        dsimp only at hri
        by_cases hcp : commonPrefixLen kr ek = 0
        · -- no shared prefix: dissolve the extension into a branch stub
          rw [if_pos hcp] at hri
          rcases ek with _ | ⟨e0, erest⟩
          · exact absurd rfl hekne
          obtain ⟨he0, hnibe⟩ := (nibsOk_cons e0 erest).mp hnib2
          simp only [List.isEmpty_cons] at hri
          rw [if_neg Bool.false_ne_true] at hri
          simp only [List.getD_cons_zero, List.drop_succ_cons,
            List.drop_zero] at hri
          have hbE : e0 < emptyChildren.len := by
            rw [emptyChildren_len]
            exact he0
          by_cases hlen1 : (e0 :: erest).length = 1
          · -- one-nibble extension: its child branch fills the slot
            rw [if_pos hlen1] at hri
            have her : erest = [] := by
              simp only [List.length_cons] at hlen1
              exact List.eq_nil_of_length_eq_zero (by omega)
            subst her
            have hslotSem : ∀ r w, semH (.inMem (.fresh nc)) r = some w →
                semN (.ext [e0] (.inMem (.fresh nc))) (e0 :: r) = some w := by
              intro r w h
              rw [show (e0 :: r) = [e0] ++ r from rfl, semN_ext_append]
              exact h
            rcases fuel with _ | f2
            · rw [except_bind_ok] at hri
              obtain ⟨a, hIA, _⟩ := hri
              simp [insertInspector] at hIA
            rw [except_bind_ok] at hri
            obtain ⟨⟨ba, k4, c4⟩, hIA, hri⟩ := hri
            rw [insertInspector.eq_def] at hIA
            dsimp only at hIA
            rcases kr with _ | ⟨k0, krest⟩
            · -- empty insertion key: the stub takes the value
              simp only [List.isEmpty_nil] at hIA
              rw [if_pos trivial] at hIA
              rw [if_neg (by simp : ¬((none : Option Bytes) = some value))]
                at hIA
              cases hIA
              dsimp only at hri
              cases hri
              dsimp only [InsertAction.unwrapNode]
              refine ⟨?_, ?_, fun _ => rfl⟩
              · rw [canonN_branch_iff]
                refine ⟨hu, by rw [MChildren.len_set]; exact emptyChildren_len,
                  canonC_set_some useExt emptyChildren _ _ hch
                    (canonC_empty useExt), valOk_some value hv,
                  Or.inr ⟨?_, rfl⟩⟩
                rw [countC_set_some_of_none emptyChildren _ _ hbE
                  (emptyChildren_get _), countC_empty]
              · intro ks w h
                cases ks with
                | nil =>
                  rw [semN_branch_nil] at h
                  exact Or.inl ⟨rfl, (Option.some.inj h).symm⟩
                | cons m r =>
                  rw [semN_branch_cons] at h
                  by_cases hm : m = e0
                  · subst hm
                    rw [semC_set_self _ _ _ _ hbE] at h
                    exact Or.inr (hslotSem r w h)
                  · rw [semC_set_other _ _ _ _ _ hm, semC_empty] at h
                    cases h
            · -- diverging head: a new leaf joins the child branch
              obtain ⟨hk0, hnibt⟩ := (nibsOk_cons k0 krest).mp hnib
              have hk0ne : k0 ≠ e0 := by
                intro hh
                subst hh
                simp [commonPrefixLen] at hcp
              simp only [List.isEmpty_cons] at hIA
              rw [if_neg Bool.false_ne_true] at hIA
              simp only [List.getD_cons_zero] at hIA
              rw [MChildren.get_set_other _ _ _ _ hk0ne,
                emptyChildren_get] at hIA
              cases hIA
              dsimp only at hri
              cases hri
              dsimp only [InsertAction.unwrapNode]
              simp only [advance_rest, List.drop_succ_cons, List.drop_zero]
              have hb2 : k0 < (emptyChildren.set e0
                  (some (.inMem (.fresh nc)))).len := by
                rw [MChildren.len_set, emptyChildren_len]
                exact hk0
              refine ⟨?_, ?_, fun _ => rfl⟩
              · rw [canonN_branch_iff]
                refine ⟨hu,
                  by rw [MChildren.len_set, MChildren.len_set]
                     exact emptyChildren_len,
                  canonC_set_some useExt _ _ _
                    ((canonN_leaf_iff useExt krest value).mpr ⟨hnibt, hv⟩)
                    (canonC_set_some useExt emptyChildren _ _ hch
                      (canonC_empty useExt)), rfl, Or.inl ?_⟩
                rw [countC_set_some_of_none _ _ _ hb2
                  (by rw [MChildren.get_set_other _ _ _ _ hk0ne]
                      exact emptyChildren_get _),
                  countC_set_some_of_none emptyChildren _ _ hbE
                    (emptyChildren_get _), countC_empty]
              · intro ks w h
                cases ks with
                | nil =>
                  rw [semN_branch_nil] at h
                  cases h
                | cons m r =>
                  rw [semN_branch_cons] at h
                  by_cases hm : m = k0
                  · subst hm
                    rw [semC_set_self _ _ _ _ hb2, semH_fresh,
                      semN_leaf_iff] at h
                    exact Or.inl ⟨by rw [h.1], h.2⟩
                  · rw [semC_set_other _ _ _ _ _ hm] at h
                    by_cases hm2 : m = e0
                    · subst hm2
                      rw [semC_set_self _ _ _ _ hbE] at h
                      exact Or.inr (hslotSem r w h)
                    · rw [semC_set_other _ _ _ _ _ hm2, semC_empty] at h
                      cases h
          · -- longer extension: a shortened extension fills the slot
            rw [if_neg hlen1] at hri
            have herne : erest ≠ [] := by
              intro hh
              rw [hh] at hlen1
              exact hlen1 rfl
            have hslotC : canonH useExt (.inMem (.fresh
                (.ext erest (.inMem (.fresh nc))))) = true := by
              rw [canonH_fresh, canonN_ext_iff]
              exact ⟨hu, hnibe, herne, by rw [isBranchH_fresh]; exact hbr, hch⟩
            have hslotSem : ∀ r w,
                semH (.inMem (.fresh (.ext erest (.inMem (.fresh nc))))) r =
                  some w →
                semN (.ext (e0 :: erest) (.inMem (.fresh nc))) (e0 :: r) =
                  some w := by
              intro r w h
              rw [semH_fresh] at h
              obtain ⟨r2, rfl⟩ := semN_ext_some _ _ _ _ h
              rw [semN_ext_append] at h
              rw [show e0 :: (erest ++ r2) = (e0 :: erest) ++ r2 from rfl,
                semN_ext_append]
              exact h
            rcases fuel with _ | f2
            · rw [except_bind_ok] at hri
              obtain ⟨a, hIA, _⟩ := hri
              simp [insertInspector] at hIA
            rw [except_bind_ok] at hri
            obtain ⟨⟨ba, k4, c4⟩, hIA, hri⟩ := hri
            rw [insertInspector.eq_def] at hIA
            dsimp only at hIA
            rcases kr with _ | ⟨k0, krest⟩
            · -- empty insertion key: the stub takes the value
              simp only [List.isEmpty_nil] at hIA
              rw [if_pos trivial] at hIA
              rw [if_neg (by simp : ¬((none : Option Bytes) = some value))]
                at hIA
              cases hIA
              dsimp only at hri
              cases hri
              dsimp only [InsertAction.unwrapNode]
              refine ⟨?_, ?_, fun _ => rfl⟩
              · rw [canonN_branch_iff]
                refine ⟨hu, by rw [MChildren.len_set]; exact emptyChildren_len,
                  canonC_set_some useExt emptyChildren _ _ hslotC
                    (canonC_empty useExt), valOk_some value hv,
                  Or.inr ⟨?_, rfl⟩⟩
                rw [countC_set_some_of_none emptyChildren _ _ hbE
                  (emptyChildren_get _), countC_empty]
              · intro ks w h
                cases ks with
                | nil =>
                  rw [semN_branch_nil] at h
                  exact Or.inl ⟨rfl, (Option.some.inj h).symm⟩
                | cons m r =>
                  rw [semN_branch_cons] at h
                  by_cases hm : m = e0
                  · subst hm
                    rw [semC_set_self _ _ _ _ hbE] at h
                    exact Or.inr (hslotSem r w h)
                  · rw [semC_set_other _ _ _ _ _ hm, semC_empty] at h
                    cases h
            · -- diverging head: a new leaf joins the shortened extension
              obtain ⟨hk0, hnibt⟩ := (nibsOk_cons k0 krest).mp hnib
              have hk0ne : k0 ≠ e0 := by
                intro hh
                subst hh
                simp [commonPrefixLen] at hcp
              simp only [List.isEmpty_cons] at hIA
              rw [if_neg Bool.false_ne_true] at hIA
              simp only [List.getD_cons_zero] at hIA
              rw [MChildren.get_set_other _ _ _ _ hk0ne,
                emptyChildren_get] at hIA
              cases hIA
              dsimp only at hri
              cases hri
              dsimp only [InsertAction.unwrapNode]
              simp only [advance_rest, List.drop_succ_cons, List.drop_zero]
              have hb2 : k0 < (emptyChildren.set e0
                  (some (.inMem (.fresh
                    (.ext erest (.inMem (.fresh nc))))))).len := by
                rw [MChildren.len_set, emptyChildren_len]
                exact hk0
              refine ⟨?_, ?_, fun _ => rfl⟩
              · rw [canonN_branch_iff]
                refine ⟨hu,
                  by rw [MChildren.len_set, MChildren.len_set]
                     exact emptyChildren_len,
                  canonC_set_some useExt _ _ _
                    ((canonN_leaf_iff useExt krest value).mpr ⟨hnibt, hv⟩)
                    (canonC_set_some useExt emptyChildren _ _ hslotC
                      (canonC_empty useExt)), rfl, Or.inl ?_⟩
                rw [countC_set_some_of_none _ _ _ hb2
                  (by rw [MChildren.get_set_other _ _ _ _ hk0ne]
                      exact emptyChildren_get _),
                  countC_set_some_of_none emptyChildren _ _ hbE
                    (emptyChildren_get _), countC_empty]
              · intro ks w h
                cases ks with
                | nil =>
                  rw [semN_branch_nil] at h
                  cases h
                | cons m r =>
                  rw [semN_branch_cons] at h
                  by_cases hm : m = k0
                  · subst hm
                    rw [semC_set_self _ _ _ _ hb2, semH_fresh,
                      semN_leaf_iff] at h
                    exact Or.inl ⟨by rw [h.1], h.2⟩
                  · rw [semC_set_other _ _ _ _ _ hm] at h
                    by_cases hm2 : m = e0
                    · subst hm2
                      rw [semC_set_self _ _ _ _ hbE] at h
                      exact Or.inr (hslotSem r w h)
                    · rw [semC_set_other _ _ _ _ _ hm2, semC_empty] at h
                      cases h
        · rw [if_neg hcp] at hri
          have hcpk := cpl_le_left kr ek
          have hcpe := cpl_le_right kr ek
          by_cases h4 : commonPrefixLen kr ek = ek.length
          · -- fully-shared prefix: insert into the child branch
            rw [if_pos h4] at hri
            obtain ⟨bcs, bv, rfl⟩ := isBr_elim nc hbr
            rw [except_bind_ok] at hri
            obtain ⟨⟨newH, ch2, k3, c3⟩, hIA, hri⟩ := hri
            obtain ⟨n2, hnh, hres⟩ := ihAt _ _ _ _ _ hnc
              (nibsOk_drop kr _ hnib) hv hIA
            dsimp only at hnh
            subst hnh
            obtain ⟨hcan2, hcont2, hgb2⟩ := hres
            dsimp only [advance_rest] at hcont2 hgb2
            have hbr2 : isBr n2 = true := hgb2 rfl
            have hekt : ek = kr.take (commonPrefixLen kr ek) := by
              rw [h4]
              have h5 : commonPrefixLen ek kr = ek.length := by
                rw [cpl_comm]
                exact h4
              exact cpl_eq_left_take ek kr h5
            have hmain : insResOk useExt
                (.ext ek (.inMem (.fresh (.branch bcs bv)))) kr value
                (.ext ek (.inMem (.fresh n2))) := by
              refine ⟨?_, ?_, fun hgb3 => by
                simp only [goesBranch, Bool.and_eq_true, beq_iff_eq] at hgb3
                exact absurd hgb3.1 hcp⟩
              · rw [canonN_ext_iff]
                refine ⟨hu, hnib2, hekne, ?_, ?_⟩
                · rw [isBranchH_fresh]
                  exact hbr2
                · rw [canonH_fresh]
                  exact hcan2
              · intro ks w h
                obtain ⟨ks2, rfl⟩ := semN_ext_some _ _ _ _ h
                rw [semN_ext_append, semH_fresh] at h
                rcases hcont2 ks2 w h with ⟨hk1, hk2⟩ | h5
                · refine Or.inl ⟨?_, hk2⟩
                  rw [hk1]
                  conv_rhs => rw [← List.take_append_drop
                    (commonPrefixLen kr ek) kr]
                  rw [← hekt]
                · refine Or.inr ?_
                  rw [semN_ext_append, semH_fresh]
                  exact h5
            rcases ch2 with _ | _ <;> dsimp only at hri <;> cases hri <;>
              exact hmain
          · -- partially-shared prefix: recurse on the shortened extension
            rw [if_neg h4] at hri
            have hcplt : commonPrefixLen kr ek < ek.length := by omega
            have hdropNe : ek.drop (commonPrefixLen kr ek) ≠ [] := by
              intro hh
              have h5 := congrArg List.length hh
              simp only [List.length_drop, List.length_nil] at h5
              omega
            rw [except_bind_ok] at hri
            obtain ⟨⟨ba, k4, c4⟩, hIA, hri⟩ := hri
            have hlow : canonN useExt
                (.ext (ek.drop (commonPrefixLen kr ek))
                  (.inMem (.fresh nc))) = true := by
              rw [canonN_ext_iff]
              exact ⟨hu, nibsOk_drop ek _ hnib2, hdropNe,
                by rw [isBranchH_fresh]; exact hbr, hch⟩
            obtain ⟨hcanI, hcontI, hgbI⟩ :=
              ihInsp _ _ _ _ _ hlow (nibsOk_drop kr _ hnib) hv hIA
            dsimp only [advance_rest] at hcontI hgbI
            have hcpl0 : commonPrefixLen (kr.drop (commonPrefixLen kr ek))
                (ek.drop (commonPrefixLen kr ek)) = 0 := by
              rcases Nat.lt_or_ge (commonPrefixLen kr ek) kr.length
                with hlt | hge
              · apply cpl_head_ne
                · intro hh
                  have h5 := congrArg List.length hh
                  simp only [List.length_drop, List.length_nil] at h5
                  omega
                · exact hdropNe
                · rw [getD_drop_zero kr _ hlt, getD_drop_zero ek _ hcplt]
                  exact cpl_getD_ne kr ek hlt hcplt
              · have hnil : kr.drop (commonPrefixLen kr ek) = [] :=
                  List.drop_eq_nil_of_le hge
                rw [hnil, cpl_nil_left]
            have hgb : goesBranch useExt
                (.ext (ek.drop (commonPrefixLen kr ek)) (.inMem (.fresh nc)))
                (kr.drop (commonPrefixLen kr ek)) = true := by
              simp only [goesBranch, Bool.and_eq_true, beq_iff_eq]
              refine ⟨hcpl0, ?_⟩
              rcases hdl : ek.drop (commonPrefixLen kr ek) with _ | ⟨a, l⟩
              · exact absurd hdl hdropNe
              · rfl
            have hbrI := hgbI hgb
            dsimp only at hri
            cases hri
            dsimp only [InsertAction.unwrapNode]
            have hcp0lt : 0 < commonPrefixLen kr ek := Nat.pos_of_ne_zero hcp
            refine ⟨?_, ?_, fun hgb2 => by
              simp only [goesBranch, Bool.and_eq_true, beq_iff_eq] at hgb2
              exact absurd hgb2.1 hcp⟩
            · rw [canonN_ext_iff]
              refine ⟨hu, nibsOk_take ek _ hnib2,
                take_ne_nil ek _ hcp0lt hekne, ?_, ?_⟩
              · rw [isBranchH_fresh]
                exact hbrI
              · rw [canonH_fresh]
                exact hcanI
            · intro ks w h
              obtain ⟨ks2, rfl⟩ := semN_ext_some _ _ _ _ h
              rw [semN_ext_append, semH_fresh] at h
              rcases hcontI ks2 w h with ⟨hk1, hk2⟩ | hrt
              · refine Or.inl ⟨?_, hk2⟩
                rw [hk1, ← cpl_take_eq kr ek, List.take_append_drop]
              · refine Or.inr ?_
                obtain ⟨r2, rfl⟩ := semN_ext_some _ _ _ _ hrt
                rw [semN_ext_append] at hrt
                rw [show ek.take (commonPrefixLen kr ek) ++
                    (ek.drop (commonPrefixLen kr ek) ++ r2) = ek ++ r2 by
                  rw [← List.append_assoc, List.take_append_drop],
                  semN_ext_append]
                exact hrt
    refine ⟨?_, hInsp⟩
    intro c n key value out hcn hnib hv hra
    rw [insertAt.eq_def] at hra
    dsimp only at hra
    simp only [bind, Except.bind, pure, Except.pure] at hra
    rw [inspect] at hra
    simp only [bind, Except.bind, pure, Except.pure] at hra
    rcases hri : insertInspector hp useExt fuel c n key value
      with e | ⟨ia, k2, c2⟩ <;> rw [hri] at hra
    · simp at hra
    · have hro := ihInsp c n key value _ hcn hnib hv hri
      rcases ia with n2 | n2 <;>
        dsimp only [InsertAction.intoAction] at hra <;> cases hra
      · exact ⟨n2, rfl, hro⟩
      · exact ⟨n2, rfl, hro⟩


theorem cache_null (hp : HParams) (db : DB) (pfx : Nibbles) :
    cache hp db (hashedNull hp) pfx = .ok (.cached .empty (hashedNull hp)) := by
  simp only [cache, dbGet]
  rw [if_pos trivial]
  rfl

theorem insertAt_null (hp : HParams) (useExt : Bool) (fuel : Nat) (c : Ctx)
    (key : FullKey) (value : Bytes) (out : MHandle × Bool × FullKey × Ctx)
    (h : insertAt hp useExt fuel c (.hashed (hashedNull hp)) key value =
      .ok out) :
    out.1 = .inMem (.fresh (.leaf key.rest value)) := by
  rcases fuel with _ | f
  · simp [insertAt] at h
  rw [insertAt.eq_def] at h
  dsimp only at h
  simp only [bind, Except.bind, pure, Except.pure] at h
  rw [cache_null] at h
  simp only [Except.bind] at h
  rw [inspect] at h
  simp only [bind, Except.bind, pure, Except.pure] at h
  rcases f with _ | f2
  · simp [insertInspector] at h
  have hii : insertInspector hp useExt (f2 + 1) c .empty key value =
      .ok (.replace (.leaf key.rest value), key, c) := rfl
  rw [hii] at h
  simp only [Except.bind, pure, Except.pure] at h
  dsimp only [InsertAction.intoAction] at h
  cases h
  rfl

theorem removeAt_null (hp : HParams) (useExt : Bool) (fuel : Nat) (c : Ctx)
    (key : FullKey) (out : Option (MHandle × Bool) × FullKey × Ctx)
    (h : removeAt hp useExt fuel c (.hashed (hashedNull hp)) key = .ok out) :
    out.1 = none := by
  rcases fuel with _ | f
  · simp [removeAt] at h
  rw [removeAt.eq_def] at h
  dsimp only at h
  simp only [bind, Except.bind, pure, Except.pure] at h
  rw [cache_null] at h
  simp only [Except.bind] at h
  rw [inspect] at h
  simp only [bind, Except.bind, pure, Except.pure] at h
  rcases f with _ | f2
  · simp [removeInspector] at h
  have hri : removeInspector hp useExt (f2 + 1) c .empty key =
      .ok (.delete, key, c) := rfl
  rw [hri] at h
  simp only [Except.bind, pure, Except.pure] at h
  cases h
  rfl

theorem reachSet_null (hp : HParams) (db : DB) (pfx : Nibbles) :
    ∀ fuel, reachSet hp fuel db (hashedNull hp) pfx = [] := by
  intro fuel
  have hg : dbGet hp db (hashedNull hp) pfx = some emptyEnc := by
    simp only [dbGet]
    rw [if_pos trivial]
  cases fuel with
  | zero => rfl
  | succ f =>
    rw [reachSet.eq_def]
    dsimp only
    rw [if_pos rfl, hg]
    dsimp only
    rw [List.nil_append]
    cases f with
    | zero => rfl
    | succ f2 => rfl

theorem opErases_touches (op : Op) (ks : Nibbles) (h : opErases op ks) :
    opTouches op ks := by
  cases op with
  | ins k v => exact h.1
  | rem k => exact h

theorem nibStep_erases (m : Nibbles → Option Bytes) (op : Op) (ks : Nibbles)
    (h : opErases op ks) : nibStep m op ks = none := by
  cases op with
  | ins k v =>
    obtain ⟨hk, hv⟩ := h
    subst hv
    show (if ks = keyNibbles k then none else m ks) = none
    rw [if_pos hk.symm]
  | rem k =>
    show (if ks = keyNibbles k then none else m ks) = none
    rw [if_pos h.symm]

theorem nibStep_other (m : Nibbles → Option Bytes) (op : Op) (ks : Nibbles)
    (h : ¬ opTouches op ks) : nibStep m op ks = m ks := by
  cases op with
  | ins k v =>
    dsimp only [opTouches] at h
    have hne : ks ≠ keyNibbles k := fun hh => h hh.symm
    rcases v with _ | ⟨b0, bs⟩
    · show (if ks = keyNibbles k then none else m ks) = m ks
      rw [if_neg hne]
    · show (if ks = keyNibbles k then some (b0 :: bs) else m ks) = m ks
      rw [if_neg hne]
  | rem k =>
    dsimp only [opTouches] at h
    have hne : ks ≠ keyNibbles k := fun hh => h hh.symm
    show (if ks = keyNibbles k then none else m ks) = m ks
    rw [if_neg hne]

theorem foldl_nibStep_none (ks : Nibbles) : ∀ (ops : List Op)
    (m : Nibbles → Option Bytes),
    (∀ i k v, ops.get? i = some (.ins k v) → v ≠ [] → keyNibbles k = ks →
      ∃ j, i < j ∧ (ops.get? j = some (.rem k) ∨
        ops.get? j = some (.ins k []))) →
    (m ks = none ∨ ∃ j op, ops.get? j = some op ∧ opErases op ks) →
    ops.foldl nibStep m ks = none := by
  intro ops
  induction ops with
  | nil =>
    intro m hQ hd
    rcases hd with hd | ⟨j, op, hj, _⟩
    · exact hd
    · exact Option.noConfusion hj
  | cons op ops ih =>
    intro m hQ hd
    rw [List.foldl_cons]
    have hQ2 : ∀ i k v, ops.get? i = some (.ins k v) → v ≠ [] →
        keyNibbles k = ks → ∃ j, i < j ∧ (ops.get? j = some (.rem k) ∨
          ops.get? j = some (.ins k [])) := by
      intro i k v hi hv hk
      obtain ⟨j, hij, hr⟩ := hQ (i + 1) k v
        (by rw [List.get?_cons_succ]; exact hi) hv hk
      rcases j with _ | j2
      · omega
      refine ⟨j2, by omega, ?_⟩
      rcases hr with hr | hr
      · rw [List.get?_cons_succ] at hr
        exact Or.inl hr
      · rw [List.get?_cons_succ] at hr
        exact Or.inr hr
    by_cases ht : opTouches op ks
    · cases op with
      | rem k =>
        exact ih _ hQ2 (Or.inl (nibStep_erases m _ ks ht))
      | ins k v =>
        dsimp only [opTouches] at ht
        by_cases hv : v = []
        · subst hv
          exact ih _ hQ2 (Or.inl (nibStep_erases m _ ks ⟨ht, rfl⟩))
        · obtain ⟨j, hij, hr⟩ := hQ 0 k v rfl hv ht
          rcases j with _ | j2
          · omega
          refine ih _ hQ2 (Or.inr ?_)
          rcases hr with hr | hr
          · rw [List.get?_cons_succ] at hr
            exact ⟨j2, .rem k, hr, ht⟩
          · rw [List.get?_cons_succ] at hr
            exact ⟨j2, .ins k [], hr, ⟨ht, rfl⟩⟩
    · refine ih _ hQ2 ?_
      rcases hd with hd | ⟨j, op2, hj, he⟩
      · refine Or.inl ?_
        rw [nibStep_other m op ks ht]
        exact hd
      · rcases j with _ | j2
        · rw [List.get?_cons_zero] at hj
          cases hj
          exact absurd (opErases_touches op ks he) ht
        · rw [List.get?_cons_succ] at hj
          exact Or.inr ⟨j2, op2, hj, he⟩

theorem nibMap_none (ops : List Op) (hrem : allInsRemoved ops) (ks : Nibbles) :
    ops.foldl nibStep (fun _ => none) ks = none :=
  foldl_nibStep_none ks ops (fun _ => none)
    (fun i k v hi _ _ => hrem i k v hi) (Or.inl rfl)

theorem removeOp_inv (hp : HParams) (useExt : Bool)
    (m : Nibbles → Option Bytes) (s : TrieState) (k : Bytes)
    (p : Option Bytes × TrieState)
    (hinv : rootInv hp useExt m s)
    (h : removeOp hp useExt s k = .ok p) :
    rootInv hp useExt (fun ks => if ks = keyNibbles k then none else m ks)
      p.2 := by
  rw [removeOp.eq_def] at h
  dsimp only at h
  rw [except_bind_ok] at h
  obtain ⟨⟨res, k2, c2⟩, hra, h⟩ := h
  rcases res with _ | ⟨handle, ch⟩
  · dsimp only at h
    cases h
    exact Or.inl ⟨rfl, rfl⟩
  · dsimp only at h
    cases h
    rcases hinv with ⟨hr, hh⟩ | ⟨n, hh, hcn, hcont⟩
    · rw [hh] at hra
      have h5 := removeAt_null hp useExt _ _ _ _ hra
      simp at h5
    · rw [hh] at hra
      obtain ⟨n2, hn2, hcn2, hcont2, hnone, _⟩ :=
        (rem_pres hp useExt (opFuel k)).1 _ n _ _ hcn hra handle ch rfl
      have hnone2 : semN n2 (keyNibbles k) = none := hnone
      refine Or.inr ⟨n2, hn2, hcn2, ?_⟩
      intro ks w hw
      have hws := hcont2 ks w hw
      have hne : ks ≠ keyNibbles k := by
        intro hh2
        rw [hh2] at hw
        rw [hw] at hnone2
        exact Option.noConfusion hnone2
      show (if ks = keyNibbles k then none else m ks).isSome = true
      rw [if_neg hne]
      exact hcont ks w hws

theorem applyOp_inv (hp : HParams) (useExt : Bool)
    (m : Nibbles → Option Bytes) (s : TrieState) (op : Op) (s' : TrieState)
    (hwf : opWF op)
    (hinv : rootInv hp useExt m s)
    (h : applyOp hp useExt s op = .ok s') :
    rootInv hp useExt (nibStep m op) s' := by
  cases op with
  | rem k =>
    dsimp only [applyOp] at h
    rcases hro : removeOp hp useExt s k with e | p <;> rw [hro] at h
    · simp [Except.map] at h
    · simp only [Except.map] at h
      cases h
      exact removeOp_inv hp useExt m s k p hinv hro
  | ins k v =>
    dsimp only [applyOp] at h
    rcases hio : insertOp hp useExt s k v with e | p <;> rw [hio] at h
    · simp [Except.map] at h
    simp only [Except.map] at h
    cases h
    rcases v with _ | ⟨b0, bs⟩
    · rw [insertOp.eq_def] at hio
      simp only [List.isEmpty_nil] at hio
      rw [if_pos trivial] at hio
      exact removeOp_inv hp useExt m s k p hinv hio
    · rw [insertOp.eq_def] at hio
      simp only [List.isEmpty_cons] at hio
      rw [if_neg Bool.false_ne_true] at hio
      rw [except_bind_ok] at hio
      obtain ⟨⟨nh, ch, k2, c2⟩, hia, hio⟩ := hio
      dsimp only at hio
      cases hio
      rcases hinv with ⟨hr, hh⟩ | ⟨n, hh, hcn, hcont⟩
      · rw [hh] at hia
        have hleaf := insertAt_null hp useExt _ _ _ _ _ hia
        refine Or.inr ⟨.leaf (keyNibbles k) (b0 :: bs), hleaf, ?_, ?_⟩
        · exact (canonN_leaf_iff useExt _ _).mpr
            ⟨nibsOk_keyNibbles k hwf, List.cons_ne_nil b0 bs⟩
        · intro ks w hw
          rw [semN_leaf_iff] at hw
          show (if ks = keyNibbles k then some (b0 :: bs) else m ks).isSome
            = true
          rw [if_pos hw.1]
          rfl
      · rw [hh] at hia
        obtain ⟨n2, hn2, hres⟩ := (ins_pres hp useExt (opFuel k)).1 _ n _ _ _
          hcn (nibsOk_keyNibbles k hwf) (List.cons_ne_nil b0 bs) hia
        obtain ⟨hcn2, hcont2, _⟩ := hres
        refine Or.inr ⟨n2, hn2, hcn2, ?_⟩
        intro ks w hw
        show (if ks = keyNibbles k then some (b0 :: bs) else m ks).isSome
          = true
        rcases hcont2 ks w hw with ⟨hks, _⟩ | hold
        · have hks2 : ks = keyNibbles k := hks
          rw [if_pos hks2]
          rfl
        · by_cases hks : ks = keyNibbles k
          · rw [if_pos hks]
            rfl
          · rw [if_neg hks]
            exact hcont ks w hold

theorem foldlM_inv (hp : HParams) (useExt : Bool) : ∀ (ops : List Op)
    (m : Nibbles → Option Bytes) (s0 s : TrieState),
    (∀ op ∈ ops, opWF op) →
    rootInv hp useExt m s0 →
    ops.foldlM (applyOp hp useExt) s0 = .ok s →
    rootInv hp useExt (ops.foldl nibStep m) s := by
  intro ops
  induction ops with
  | nil =>
    intro m s0 s hwf hinv h
    simp only [List.foldlM, pure, Except.pure] at h
    cases h
    exact hinv
  | cons op ops ih =>
    intro m s0 s hwf hinv h
    simp only [List.foldlM] at h
    rw [except_bind_ok] at h
    obtain ⟨s1, hap, h⟩ := h
    rw [List.foldl_cons]
    exact ih (nibStep m op) s1 s
      (fun op2 ho => hwf op2 (List.mem_cons_of_mem op ho))
      (applyOp_inv hp useExt m s0 op s1 (hwf op (List.mem_cons_self op ops))
        hinv hap) h

theorem runOps_inv (hp : HParams) (useExt : Bool) (db : DB) (ops : List Op)
    (s : TrieState)
    (hwf : ∀ op ∈ ops, opWF op)
    (h : runOps hp useExt db ops = .ok s) :
    rootInv hp useExt (ops.foldl nibStep (fun _ => none)) s :=
  foldlM_inv hp useExt ops (fun _ => none) (newTrie hp db) s hwf
    (Or.inl ⟨rfl, rfl⟩) h


/-- C5: after a well-formed mutation sequence in which every inserted key
is later removed (by `remove` or an empty-value `insert`), `root()` — which
commits — returns the hashed null node, and no backing-store entry is
reachable from that root. -/
theorem c5_remove_all_root_null (hp : HParams) (useExt : Bool) (db : DB)
    (ops : List Op) (s : TrieState)
    (hwf : ∀ op ∈ ops, opWF op)
    (hrem : allInsRemoved ops)
    (hrun : runOps hp useExt db ops = .ok s) :
    (rootOp hp s).1 = hashedNull hp ∧
    ∀ fuel, reachSet hp fuel ((rootOp hp s).2).db ((rootOp hp s).1) [] = [] := by
  have hinv := runOps_inv hp useExt db ops s hwf hrun
  rcases hinv with ⟨hr, hh⟩ | ⟨n, hh, hcn, hcont⟩
  · have hroot : (rootOp hp s).1 = hashedNull hp := by
      show (commitOp hp s).root = hashedNull hp
      rw [commitOp, hh]
      dsimp only
      exact hr
    refine ⟨hroot, fun fuel => ?_⟩
    rw [hroot]
    exact reachSet_null hp _ [] fuel
  · exfalso
    obtain ⟨ks, w, hw⟩ := canon_sem_ne useExt (sizeN n) n (Nat.le_refl _) hcn
    have h5 := hcont ks w hw
    rw [nibMap_none ops hrem ks] at h5
    simp at h5

theorem c5_remove_all_root_null_witness :
    (rootOp cHP c5State).1 = hashedNull cHP ∧
    ∀ fuel, reachSet cHP fuel ((rootOp cHP c5State).2).db
      ((rootOp cHP c5State).1) [] = [] :=
  c5_remove_all_root_null cHP false [] c5Ops c5State
    (by
      intro op hop
      rcases List.mem_cons.mp hop with rfl | hop2
      · intro b hb
        rcases List.mem_singleton.mp hb with rfl
        omega
      · rcases List.mem_cons.mp hop2 with rfl | hop3
        · intro b hb
          rcases List.mem_singleton.mp hb with rfl
          omega
        · exact absurd hop3 (List.not_mem_nil op))
    (by
      intro i k v hi
      rcases i with _ | (_ | n)
      · have h2 : (some (Op.ins [17] [5]) : Option Op) = some (.ins k v) := hi
        cases h2
        exact ⟨1, by omega, Or.inl rfl⟩
      · exact Op.noConfusion (Option.some.inj hi)
      · exact Option.noConfusion hi)
    (by rfl)

end TrieMut
